import Mathlib

/-!
# RISC-V assembler and single-cycle simulator

A shallow embedding of the encoders (`src/src/*Type.cpp`), the lexical helpers
(`src/src/Utils.cpp`), `encodeInstruction`, pass 1 and pass 2
(`src/src/assembler.cpp`) and the loader, the decoder, the execution loop and the
segment dump (`src/backend/simulator.cpp`), followed by theorems about them.

Conventions.
* `uint32_t` values are natural numbers below `2^32`; every operation that can
  leave that range is followed by `% 2^32`.
* `int32_t` / `int` values are integers in `[-2^31, 2^31)`; conversions between
  the two views are `toU32` and `toI32`, and signed arithmetic wraps (`wrap32`).
* A C++ exception that nothing catches (`std::stoi`) and an out-of-bounds vector
  read are the `none` of `Option`.
* The signed division `INT_MIN / -1` (and `INT_MIN % -1`), which C++ leaves
  undefined, yields no result: `execRType` and `execute` return `none`, a turn of
  the loop ends in `StepResult.undef`, and a run that meets it has no final state.
-/

set_option linter.unusedVariables false

namespace RiscV

/-! ## Machine integers -/

/-- The conversion `(uint32_t)x` of a signed value: its residue modulo `2^32`. -/
def toU32 (x : Int) : Nat := (x % 2 ^ 32).toNat

/-- The conversion `(int32_t)n` of an unsigned value: two's complement reading of
the low 32 bits. -/
def toI32 (n : Nat) : Int :=
  if n % 2 ^ 32 < 2 ^ 31 then ((n % 2 ^ 32 : Nat) : Int) else ((n % 2 ^ 32 : Nat) : Int) - 2 ^ 32

/-- Signed 32-bit wrap-around of a mathematical integer. -/
def wrap32 (x : Int) : Int := toI32 (toU32 x)

/-! ## `Utils.cpp` -/

/-- The function `toUpper`: `toupper` applied to every character. -/
def toUpper (s : String) : String := String.mk (s.data.map Char.toUpper)

/-- The predicate `isspace` of the C locale. -/
def isSpace (c : Char) : Bool :=
  c = ' ' || c = '\t' || c = '\n' || c = '\r' || c.toNat = 11 || c.toNat = 12

/-- Value of a character as a digit of the given base, if it is one. -/
def digitValue (base : Nat) (c : Char) : Option Nat :=
  let v : Option Nat :=
    if '0' ≤ c ∧ c ≤ '9' then some (c.toNat - '0'.toNat)
    else if 'a' ≤ c ∧ c ≤ 'z' then some (c.toNat - 'a'.toNat + 10)
    else if 'A' ≤ c ∧ c ≤ 'Z' then some (c.toNat - 'A'.toNat + 10)
    else none
  match v with
  | some d => if d < base then some d else none
  | none => none

/-- The longest run of digits at the head of the text, accumulated left to right:
returns the value and how many digits were consumed. -/
def scanDigits (base : Nat) : List Char → Nat → Nat → Nat × Nat
  | [], acc, cnt => (acc, cnt)
  | c :: cs, acc, cnt =>
    match digitValue base c with
    | some d => scanDigits base cs (acc * base + d) (cnt + 1)
    | none => (acc, cnt)

/-- Split an optional sign off the head of the text: `true` for a minus sign. -/
def takeSign : List Char → Bool × List Char
  | '-' :: cs => (true, cs)
  | '+' :: cs => (false, cs)
  | cs => (false, cs)

/-- The library call `std::stoi(s)` (base 10): leading white space is skipped,
one optional sign is read, then the longest run of decimal digits. With no digit it
throws `invalid_argument`, with a value outside `int` it throws `out_of_range`;
both are `none`. Characters after the digits are ignored. -/
def stoi (s : String) : Option Int :=
  let body := s.data.dropWhile isSpace
  let (neg, rest) := takeSign body
  let (v, cnt) := scanDigits 10 rest 0 0
  if cnt = 0 then none
  else
    let r : Int := if neg then -(v : Int) else (v : Int)
    if r < -(2 ^ 31) ∨ 2 ^ 31 - 1 < r then none else some r

/-- Strip the optional `0x` / `0X` prefix that `strtol` accepts in base 16; the
prefix only counts when a hexadecimal digit follows it. -/
def dropHexPrefix : List Char → List Char
  | '0' :: x :: c :: cs =>
    if (x = 'x' ∨ x = 'X') ∧ (digitValue 16 c).isSome then c :: cs else '0' :: x :: c :: cs
  | cs => cs

/-- The library call `strtol(s, nullptr, 16)` with a 64-bit `long`: white space, an
optional sign, an optional `0x` prefix and the longest run of hexadecimal digits;
no digit gives 0 and the result saturates at the bounds of `long`. -/
def strtol16 (s : String) : Int :=
  let body := s.data.dropWhile isSpace
  let (neg, rest) := takeSign body
  let (v, _) := scanDigits 16 (dropHexPrefix rest) 0 0
  let r : Int := if neg then -(v : Int) else (v : Int)
  if r < -(2 ^ 63) then -(2 ^ 63) else if 2 ^ 63 - 1 < r then 2 ^ 63 - 1 else r

/-- The function `getRegisterNumber`: 0 (after an error message) for a name that is
too short, does not start with `x`, or whose number is outside `0..31`. -/
def getRegisterNumber (reg : String) : Option Int :=
  if reg.data.length < 2 ∨ reg.data.head? ≠ some 'x' then some 0
  else do
    let num ← stoi (String.mk (reg.data.drop 1))
    if num < 0 ∨ num > 31 then some 0 else some num

/-- The function `parseImmediate`: `strtol` in base 16 (truncated to 32 bits) for a
text longer than two characters that starts with `0x` or `0X`, `std::stoi`
otherwise. -/
def parseImmediate (immStr : String) : Option Int :=
  match immStr.data with
  | '0' :: x :: _ :: _ =>
    if x = 'x' ∨ x = 'X' then some (wrap32 (strtol16 immStr)) else stoi immStr
  | _ => stoi immStr

/-- The function `setBits` on 32-bit words; every call site has
`offset + numBits ≤ 32` and `numBits < 32`.
`mask = ((1u << numBits) - 1u) << offset; value &= ~mask;
value |= (field & ((1u << numBits) - 1u)) << offset`. -/
def setBits (value offset numBits field : Nat) : Nat :=
  let mask := (((1 <<< numBits) - 1) <<< offset) % 2 ^ 32
  let value := value &&& ((2 ^ 32 - 1) ^^^ mask)
  value ||| (((field &&& ((1 <<< numBits) - 1)) <<< offset) % 2 ^ 32)

/-! ## The format encoders

Register operands are `int` and immediates are `int32_t` in the source; both reach
`setBits` through the implicit conversion to `uint32_t`. The `uint8_t` parameters
`opcode`, `func3` and `func7` are natural numbers. -/

/-- The function `encodeRType`. -/
def encodeRType (opcode func3 func7 : Nat) (rd rs1 rs2 : Int) : Nat :=
  let insn := 0
  let insn := setBits insn 0 7 (opcode % 256)
  let insn := setBits insn 7 5 (toU32 rd)
  let insn := setBits insn 12 3 (func3 % 256)
  let insn := setBits insn 15 5 (toU32 rs1)
  let insn := setBits insn 20 5 (toU32 rs2)
  let insn := setBits insn 25 7 (func7 % 256)
  insn

/-- The function `encodeIType`. -/
def encodeIType (opcode func3 : Nat) (rd rs1 : Int) (imm12 : Int) : Nat :=
  let insn := 0
  let imm := toU32 imm12 &&& 0xFFF
  let insn := setBits insn 0 7 (opcode % 256)
  let insn := setBits insn 7 5 (toU32 rd)
  let insn := setBits insn 12 3 (func3 % 256)
  let insn := setBits insn 15 5 (toU32 rs1)
  let insn := setBits insn 20 12 imm
  insn

/-- The function `encodeSType`. -/
def encodeSType (opcode func3 : Nat) (rs1 rs2 : Int) (imm : Int) : Nat :=
  let insn := 0
  let imm12 := toU32 imm &&& 0xFFF
  let immHi := (imm12 >>> 5) &&& 0x7F
  let immLo := imm12 &&& 0x1F
  let insn := setBits insn 0 7 (opcode % 256)
  let insn := setBits insn 7 5 immLo
  let insn := setBits insn 12 3 (func3 % 256)
  let insn := setBits insn 15 5 (toU32 rs1)
  let insn := setBits insn 20 5 (toU32 rs2)
  let insn := setBits insn 25 7 immHi
  insn

/-- The function `encodeSBType`. The offset is masked with `0xFFF` before its bit 12
is read. -/
def encodeSBType (opcode func3 : Nat) (rs1 rs2 : Int) (branchOffsetBytes : Int) : Nat :=
  let offset := branchOffsetBytes
  let imm12 := toU32 offset &&& 0xFFF
  let insn := 0
  let imm_4_1 := (imm12 >>> 1) &&& 0xF
  let imm_11 := (imm12 >>> 11) &&& 0x1
  let imm_10_5 := (imm12 >>> 5) &&& 0x3F
  let imm_12 := (imm12 >>> 12) &&& 0x1
  let insn := setBits insn 0 7 (opcode % 256)
  let insn := setBits insn 8 4 imm_4_1
  let insn := setBits insn 7 1 imm_11
  let insn := setBits insn 25 6 imm_10_5
  let insn := setBits insn 31 1 imm_12
  let insn := setBits insn 12 3 (func3 % 256)
  let insn := setBits insn 15 5 (toU32 rs1)
  let insn := setBits insn 20 5 (toU32 rs2)
  insn

/-- The function `encodeUType`. -/
def encodeUType (opcode : Nat) (rd : Int) (imm : Int) : Nat :=
  let val20 := toU32 imm &&& 0xFFFFF
  let insn := 0
  let insn := setBits insn 0 7 (opcode % 256)
  let insn := setBits insn 7 5 (toU32 rd)
  let insn := setBits insn 12 20 val20
  insn

/-- The function `encodeUJType`. `offsetBytes >> 1` is an arithmetic shift, that is
the floor of half the offset. -/
def encodeUJType (opcode : Nat) (rd : Int) (offsetBytes : Int) : Nat :=
  let offset : Int := offsetBytes / 2
  let imm := toU32 offset &&& 0xFFFFF
  let imm_20 := (imm >>> 19) &&& 0x1
  let imm_10_1 := (imm >>> 1) &&& 0x3FF
  let imm_11 := (imm >>> 0) &&& 0x1
  let imm_19_12 := (imm >>> 11) &&& 0xFF
  let insn := 0
  let insn := setBits insn 0 7 (opcode % 256)
  let insn := setBits insn 7 5 (toU32 rd)
  let insn := setBits insn 12 8 imm_19_12
  let insn := setBits insn 20 1 imm_11
  let insn := setBits insn 21 10 imm_10_1
  let insn := setBits insn 31 1 imm_20
  insn

/-! ## The decoder (`simulator.cpp`) -/

/-- The helper `getBits(val, hi, lo)`: `(val >> lo) & ((1u << (hi - lo + 1)) - 1)`. -/
def getBits (val hi lo : Nat) : Nat :=
  let mask := (1 <<< (hi - lo + 1)) - 1
  (val >>> lo) &&& mask

/-- The helper `signExtend(value, bitCount)`:
`(int32_t)(value << shift) >> shift` with `shift = 32 - bitCount`, the right shift
being arithmetic. -/
def signExtend (value bitCount : Nat) : Int :=
  let shift := 32 - bitCount
  toI32 ((value <<< shift) % 2 ^ 32) / 2 ^ shift

/-- The record `DecodedInstr`. -/
structure DecodedInstr where
  opcode : Nat
  rd : Nat
  rs1 : Nat
  rs2 : Nat
  funct3 : Nat
  funct7 : Nat
  imm : Int
deriving DecidableEq, Repr

/-- The function `decode`. -/
def decode (instr : Nat) : DecodedInstr :=
  let opcode := getBits instr 6 0
  let rd := getBits instr 11 7
  let funct3 := getBits instr 14 12
  let rs1 := getBits instr 19 15
  let rs2 := if opcode = 0x13 ∨ opcode = 0x03 ∨ opcode = 0x67 then 0 else getBits instr 24 20
  let funct7 := if opcode = 0x13 ∨ opcode = 0x03 ∨ opcode = 0x67 then 0 else getBits instr 31 25
  let imm : Int :=
    if opcode = 0x13 ∨ opcode = 0x03 ∨ opcode = 0x67 then
      let imm12 := getBits instr 31 20
      signExtend imm12 12
    else if opcode = 0x23 then
      let immHigh := getBits instr 31 25
      let immLow := getBits instr 11 7
      let imm12 := ((immHigh <<< 5) % 2 ^ 32) ||| immLow
      signExtend imm12 12
    else if opcode = 0x63 then
      let immBit12 := getBits instr 31 31
      let immBit11 := getBits instr 7 7
      let immBits10_5 := getBits instr 30 25
      let immBits4_1 := getBits instr 11 8
      let immAll := ((immBit12 <<< 12) % 2 ^ 32) ||| ((immBit11 <<< 11) % 2 ^ 32)
                    ||| ((immBits10_5 <<< 5) % 2 ^ 32) ||| ((immBits4_1 <<< 1) % 2 ^ 32)
      signExtend immAll 13
    else if opcode = 0x37 ∨ opcode = 0x17 then
      let imm20 := getBits instr 31 12
      toI32 ((imm20 <<< 12) % 2 ^ 32)
    else if opcode = 0x6F then
      let immBit20 := getBits instr 31 31
      let immBits19_12 := getBits instr 19 12
      let immBit11 := getBits instr 20 20
      let immBits10_1 := getBits instr 30 21
      let immAll := ((immBit20 <<< 20) % 2 ^ 32) ||| ((immBits19_12 <<< 12) % 2 ^ 32)
                    ||| ((immBit11 <<< 11) % 2 ^ 32) ||| ((immBits10_1 <<< 1) % 2 ^ 32)
      signExtend immAll 21
    else 0
  { opcode := opcode, rd := rd, rs1 := rs1, rs2 := rs2, funct3 := funct3, funct7 := funct7,
    imm := imm }

/-! ## `encodeInstruction` (`assembler.cpp`) -/

/-- The record `InstructionLine`. -/
structure InstructionLine where
  address : Nat
  mnemonic : String
  operands : List String
  originalLine : String
deriving DecidableEq, Repr

/-- The symbol table `unordered_map<string, uint32_t>`: the first pair with a given
key is the binding of that key. -/
abbrev SymbolTable := List (String × Nat)

/-- The lambda `getLabelOffset`: the label's address minus the address of the
instruction, 0 (after an error message) for an unknown label. -/
def getLabelOffset (symbolTable : SymbolTable) (label : String) (currentPC : Nat) : Int :=
  match symbolTable.lookup label with
  | none => 0
  | some v => wrap32 (toI32 v - toI32 currentPC)

/-- The lambda `parseImmOrLabel`: a text that is a key of the symbol table goes to
`getLabelOffset`, every other text to `parseImmediate`. -/
def parseImmOrLabel (symbolTable : SymbolTable) (immstr : String) (currentPC : Nat) :
    Option Int :=
  if (symbolTable.lookup immstr).isSome then some (getLabelOffset symbolTable immstr currentPC)
  else parseImmediate immstr

/-- The table `rTable`: opcode, funct3 and funct7 of the register-register
mnemonics. -/
def rTable (mnemonic : String) : Option (Nat × Nat × Nat) :=
  if mnemonic = "ADD" then some (0x33, 0x0, 0x00)
  else if mnemonic = "SUB" then some (0x33, 0x0, 0x20)
  else if mnemonic = "AND" then some (0x33, 0x7, 0x00)
  else if mnemonic = "OR" then some (0x33, 0x6, 0x00)
  else if mnemonic = "XOR" then some (0x33, 0x4, 0x00)
  else if mnemonic = "SLL" then some (0x33, 0x1, 0x00)
  else if mnemonic = "SRL" then some (0x33, 0x5, 0x00)
  else if mnemonic = "SRA" then some (0x33, 0x5, 0x20)
  else if mnemonic = "SLT" then some (0x33, 0x2, 0x00)
  else if mnemonic = "MUL" then some (0x33, 0x0, 0x01)
  else if mnemonic = "DIV" then some (0x33, 0x4, 0x01)
  else if mnemonic = "REM" then some (0x33, 0x6, 0x01)
  else none

/-- The table `iTable`: opcode and funct3 of `ADDI`, `ANDI`, `ORI`. -/
def iTable (mnemonic : String) : Option (Nat × Nat) :=
  if mnemonic = "ADDI" then some (0x13, 0x0)
  else if mnemonic = "ANDI" then some (0x13, 0x7)
  else if mnemonic = "ORI" then some (0x13, 0x6)
  else none

/-- The table `sTable`: funct3 of the stores. -/
def sTable (mnemonic : String) : Option Nat :=
  if mnemonic = "SB" then some 0
  else if mnemonic = "SH" then some 1
  else if mnemonic = "SW" then some 2
  else if mnemonic = "SD" then some 3
  else none

/-- The table `sbTable`: funct3 of the branches. -/
def sbTable (mnemonic : String) : Option Nat :=
  if mnemonic = "BEQ" then some 0
  else if mnemonic = "BNE" then some 1
  else if mnemonic = "BLT" then some 4
  else if mnemonic = "BGE" then some 5
  else none

/-- Index of the first occurrence of a character, the `find` of `std::string`. -/
def findChar (c : Char) (s : List Char) : Option Nat :=
  let i := s.indexOf c
  if i < s.length then some i else none

/-- The operand form `imm(reg)` shared by loads, `JALR` and stores: the immediate
and the base register, both 0 (after an error message) when the parentheses are
missing or out of order. -/
def parseMemOperand (symbolTable : SymbolTable) (offsetReg : String) (address : Nat) :
    Option (Int × Int) :=
  match findChar '(' offsetReg.data, findChar ')' offsetReg.data with
  | some pos1, some pos2 =>
    if pos2 > pos1 then do
      let immPart := String.mk (offsetReg.data.take pos1)
      let regPart := String.mk ((offsetReg.data.drop (pos1 + 1)).take (pos2 - (pos1 + 1)))
      let immVal ← parseImmOrLabel symbolTable immPart address
      let rs1 ← getRegisterNumber regPart
      some (immVal, rs1)
    else some (0, 0)
  | _, _ => some (0, 0)

/-- The function `encodeInstruction`, without the bit-breakdown comment it also
builds. A wrong operand count only prints a message; the operands are then read
by index all the same. -/
def encodeInstruction (inst : InstructionLine) (symbolTable : SymbolTable) : Option Nat :=
  let mnemonic := toUpper inst.mnemonic
  let op := inst.operands
  match rTable mnemonic with
  | some (opcode, func3, func7) => do
    let rd ← getRegisterNumber (← op.get? 0)
    let rs1 ← getRegisterNumber (← op.get? 1)
    let rs2 ← getRegisterNumber (← op.get? 2)
    some (encodeRType opcode func3 func7 rd rs1 rs2)
  | none =>
  if mnemonic = "LB" ∨ mnemonic = "LH" ∨ mnemonic = "LW" ∨ mnemonic = "LD" then do
    let rd ← getRegisterNumber (← op.get? 0)
    let offsetReg ← op.get? 1
    let (immVal, rs1) ← parseMemOperand symbolTable offsetReg inst.address
    let func3 := 0
    let func3 := if mnemonic = "LB" then 0 else func3
    let func3 := if mnemonic = "LH" then 1 else func3
    let func3 := if mnemonic = "LW" then 2 else func3
    let func3 := if mnemonic = "LD" then 3 else func3
    some (encodeIType 0x03 func3 rd rs1 immVal)
  else if mnemonic = "JALR" then do
    let rd ← getRegisterNumber (← op.get? 0)
    let offsetReg ← op.get? 1
    let (immVal, rs1) ← parseMemOperand symbolTable offsetReg inst.address
    some (encodeIType 0x67 0 rd rs1 immVal)
  else
  match iTable mnemonic with
  | some (opcode, func3) => do
    let rd ← getRegisterNumber (← op.get? 0)
    let rs1 ← getRegisterNumber (← op.get? 1)
    let immVal ← parseImmOrLabel symbolTable (← op.get? 2) inst.address
    some (encodeIType opcode func3 rd rs1 immVal)
  | none =>
  match sTable mnemonic with
  | some func3 => do
    let rs2 ← getRegisterNumber (← op.get? 0)
    let offsetReg ← op.get? 1
    let (immVal, rs1) ← parseMemOperand symbolTable offsetReg inst.address
    some (encodeSType 0x23 func3 rs1 rs2 immVal)
  | none =>
  match sbTable mnemonic with
  | some func3 => do
    let rs1 ← getRegisterNumber (← op.get? 0)
    let rs2 ← getRegisterNumber (← op.get? 1)
    let offset ← parseImmOrLabel symbolTable (← op.get? 2) inst.address
    let offset := wrap32 (offset - 4)
    some (encodeSBType 0x63 func3 rs1 rs2 offset)
  | none =>
  if mnemonic = "LUI" ∨ mnemonic = "AUIPC" then do
    let rd ← getRegisterNumber (← op.get? 0)
    let immVal ← parseImmOrLabel symbolTable (← op.get? 1) inst.address
    let opcode := if mnemonic = "LUI" then 0x37 else 0x17
    some (encodeUType opcode rd immVal)
  else if mnemonic = "JAL" then do
    let rd ← getRegisterNumber (← op.get? 0)
    let offset ← parseImmOrLabel symbolTable (← op.get? 1) inst.address
    let offset := wrap32 (offset - 4)
    some (encodeUJType 0x6F rd offset)
  else some 0

/-! ## Simulator state (`simulator.cpp`) -/

/-- A `std::map` with 32-bit keys, kept as a list of pairs in increasing key
order. -/
abbrev AddrMap := List (Nat × Nat)

/-- The lookup `m.find(k)`. -/
def AddrMap.find (m : AddrMap) (k : Nat) : Option Nat := m.lookup k

/-- The assignment `m[k] = v`: replaces the binding of `k` or inserts one at its
place in the key order. -/
def AddrMap.insert : AddrMap → Nat → Nat → AddrMap
  | [], k, v => [(k, v)]
  | (k1, v1) :: rest, k, v =>
    if k < k1 then (k, v) :: (k1, v1) :: rest
    else if k = k1 then (k, v) :: rest
    else (k1, v1) :: AddrMap.insert rest k v

/-- The class `MemSegment`: a map from address to byte. -/
structure MemSegment where
  memory : AddrMap
deriving DecidableEq, Repr

/-- The method `MemSegment::writeByte`. -/
def MemSegment.writeByte (m : MemSegment) (address value : Nat) : MemSegment :=
  { memory := m.memory.insert (address % 2 ^ 32) (value % 256) }

/-- The method `MemSegment::writeWord`: four bytes, least significant first, at
`address + i` (computed in `uint32_t`). -/
def MemSegment.writeWord (m : MemSegment) (address : Nat) (value : Int) : MemSegment :=
  let put (m : MemSegment) (i : Nat) : MemSegment :=
    { memory := m.memory.insert ((address + i) % 2 ^ 32) (toU32 (value / 2 ^ (8 * i)) &&& 0xFF) }
  put (put (put (put m 0) 1) 2) 3

/-- The method `MemSegment::readByte`, returning `int8_t`: 0 for an absent byte. -/
def MemSegment.readByte (m : MemSegment) (address : Nat) : Int :=
  match m.memory.find (address % 2 ^ 32) with
  | some b => if b % 256 < 128 then ((b % 256 : Nat) : Int) else ((b % 256 : Nat) : Int) - 256
  | none => 0

/-- The method `MemSegment::readWord`: the bytes at `address + i` combined with
`result |= (b << (8 * i))`. -/
def MemSegment.readWord (m : MemSegment) (address : Nat) : Int :=
  let get (i : Nat) : Nat :=
    match m.memory.find ((address + i) % 2 ^ 32) with
    | some b => b % 256
    | none => 0
  let result := 0
  let result := result ||| ((get 0 <<< 0) % 2 ^ 32)
  let result := result ||| ((get 1 <<< 8) % 2 ^ 32)
  let result := result ||| ((get 2 <<< 16) % 2 ^ 32)
  let result := result ||| ((get 3 <<< 24) % 2 ^ 32)
  toI32 result

/-- Which segment serves an address, the three outcomes of
`getMemSegmentForAddress`. -/
inductive Region where
  | invalid
  | data
  | stack
deriving DecidableEq, Repr

/-- The function `getMemSegmentForAddress`: no segment below `0x10000000`, the data
segment below `0x50000000`, the stack segment from there on. -/
def getMemSegmentForAddress (addr : Nat) : Region :=
  if addr < 0x10000000 then Region.invalid
  else if addr < 0x50000000 then Region.data
  else Region.stack

/-- The global state of the simulator: register file, program counter, datapath
latches, cycle counter and the three memories. -/
structure State where
  R : Nat → Int
  PC : Nat
  IR : Nat
  RA : Int
  RB : Int
  RM : Int
  RZ : Int
  RY : Int
  MDR : Int
  clockCycle : Nat
  instrMemory : AddrMap
  dataSegment : MemSegment
  stackSegment : MemSegment

/-- The segment a region stands for. -/
def State.segment (s : State) : Region → MemSegment
  | Region.stack => s.stackSegment
  | _ => s.dataSegment

/-- Put a segment back after a store. -/
def State.setSegment (s : State) (r : Region) (m : MemSegment) : State :=
  match r with
  | Region.stack => { s with stackSegment := m }
  | Region.data => { s with dataSegment := m }
  | Region.invalid => s

/-- The function `isTerminationInstr`. -/
def isTerminationInstr (instr : Nat) : Bool := instr = 0

/-- The state `main` sets up before the loop: all registers 0 except
`R[2] = 0x7FFFFFFC`, `PC = 0`, with the memories the loader produced. -/
def initState (instrMemory : AddrMap) (dataSegment stackSegment : MemSegment) : State :=
  { R := fun i => if i = 2 then 0x7FFFFFFC else 0
    PC := 0, IR := 0, RA := 0, RB := 0, RM := 0, RZ := 0, RY := 0, MDR := 0
    clockCycle := 0
    instrMemory := instrMemory, dataSegment := dataSegment, stackSegment := stackSegment }

/-- The register-register execute stage (`case 0x33`): the new `RZ`, starting from
`RZ = 0`. An encoding outside the table leaves `RZ` at 0. Signed division follows
C++ (quotient truncated toward zero). The result is `none` for `INT_MIN / -1` and
`INT_MIN % -1`: the quotient does not fit `int32_t`, C++ leaves the behaviour of both
expressions undefined, and the stage yields no `RZ`. -/
def execRType (d : DecodedInstr) (RA RB : Int) : Option Int :=
  if d.funct3 = 0x0 then
    if d.funct7 = 0x00 then some (wrap32 (RA + RB))
    else if d.funct7 = 0x20 then some (wrap32 (RA - RB))
    else if d.funct7 = 0x01 then some (wrap32 (RA * RB))
    else some 0
  else if d.funct3 = 0x4 then
    if d.funct7 = 0x00 then some (toI32 (toU32 RA ^^^ toU32 RB))
    else if d.funct7 = 0x01 then
      if RB = 0 then some 0
      else if RA = -2 ^ 31 ∧ RB = -1 then none
      else some (wrap32 (Int.tdiv RA RB))
    else some 0
  else if d.funct3 = 0x6 then
    if d.funct7 = 0x00 then some (toI32 (toU32 RA ||| toU32 RB))
    else if d.funct7 = 0x01 then
      if RB = 0 then some 0
      else if RA = -2 ^ 31 ∧ RB = -1 then none
      else some (wrap32 (Int.tmod RA RB))
    else some 0
  else if d.funct3 = 0x7 then some (toI32 (toU32 RA &&& toU32 RB))
  else if d.funct3 = 0x1 then
    let shamt := toU32 RB &&& 0x1F
    some (wrap32 (RA * 2 ^ shamt))
  else if d.funct3 = 0x2 then some (if RA < RB then 1 else 0)
  else if d.funct3 = 0x5 then
    let shamt := toU32 RB &&& 0x1F
    if d.funct7 = 0x00 then some (toI32 (toU32 RA >>> shamt))
    else if d.funct7 = 0x20 then some (RA / 2 ^ shamt)
    else some 0
  else some 0

/-- The immediate ALU execute stage (`case 0x13`): the new `RZ`, starting from
`RZ = 0`. -/
def execIType (d : DecodedInstr) (RA RB : Int) : Int :=
  if d.funct3 = 0x0 then wrap32 (RA + RB)
  else if d.funct3 = 0x7 then toI32 (toU32 RA &&& toU32 RB)
  else if d.funct3 = 0x6 then toI32 (toU32 RA ||| toU32 RB)
  else if d.funct3 = 0x4 then toI32 (toU32 RA ^^^ toU32 RB)
  else if d.funct3 = 0x2 then (if RA < RB then 1 else 0)
  else if d.funct3 = 0x1 then
    let shamt := toU32 RB &&& 0x1F
    wrap32 (RA * 2 ^ shamt)
  else if d.funct3 = 0x5 then
    let shamt := toU32 RB &&& 0x1F
    let topBits := toU32 (RB / 2 ^ 5) &&& 0x7F
    if topBits = 0x00 then toI32 (toU32 RA >>> shamt)
    else if topBits = 0x20 then RA / 2 ^ shamt
    else 0
  else 0

/-- Whether a branch with the given `funct3` is taken, comparing `RA` with `RM`. -/
def branchTaken (funct3 : Nat) (RA RM : Int) : Bool :=
  if funct3 = 0x0 then RA = RM
  else if funct3 = 0x1 then RA ≠ RM
  else if funct3 = 0x4 then RA < RM
  else if funct3 = 0x5 then RA ≥ RM
  else false

/-- What the execute stage hands on: `RZ`, `RY`, `MDR`, the next program counter and
the two writable segments. -/
structure ExecOut where
  RZ : Int
  RY : Int
  MDR : Int
  nextPC : Nat
  dataSegment : MemSegment
  stackSegment : MemSegment

/-- The execute stage (`switch (d.opcode)`), entered with `RZ = RY = 0` and
`nextPC = PC + 4`. The result is `none` when the stage runs into the undefined signed
division of `execRType`. -/
def execute (s : State) (d : DecodedInstr) (RA RB RM : Int) : Option ExecOut :=
  let nextPC := (s.PC + 4) % 2 ^ 32
  let out : ExecOut :=
    { RZ := 0, RY := 0, MDR := s.MDR, nextPC := nextPC,
      dataSegment := s.dataSegment, stackSegment := s.stackSegment }
  if d.opcode = 0x33 then
    (execRType d RA RB).map fun RZ => { out with RZ := RZ, RY := RZ }
  else if d.opcode = 0x13 then
    let RZ := execIType d RA RB
    some { out with RZ := RZ, RY := RZ }
  else if d.opcode = 0x03 then
    let addr := toU32 (RA + d.imm)
    match getMemSegmentForAddress addr with
    | Region.invalid => some out
    | r =>
      let seg := s.segment r
      let RZ := toI32 addr
      if d.funct3 = 0x0 then
        let val := seg.readByte addr
        some { out with RZ := RZ, MDR := val, RY := val }
      else if d.funct3 = 0x1 then
        let lo : Nat := toU32 (seg.readByte (addr + 0)) &&& 0xFF
        let hi : Nat := (toU32 (seg.readByte (addr + 1)) &&& 0xFF) <<< 8
        let bits : Nat := (lo ||| hi) % 2 ^ 16
        let val : Int := if bits < 2 ^ 15 then (bits : Int) else (bits : Int) - 2 ^ 16
        some { out with RZ := RZ, MDR := val, RY := val }
      else if d.funct3 = 0x2 then
        let val := seg.readWord addr
        some { out with RZ := RZ, MDR := val, RY := val }
      else some { out with RZ := RZ }
  else if d.opcode = 0x23 then
    let addr := toU32 (RA + d.imm)
    match getMemSegmentForAddress addr with
    | Region.invalid => some out
    | r =>
      let seg := s.segment r
      let RZ := toI32 addr
      let seg :=
        if d.funct3 = 0x0 then seg.writeByte addr (toU32 RM &&& 0xFF)
        else if d.funct3 = 0x1 then
          let toStore := toU32 RM &&& 0xFFFF
          (seg.writeByte (addr + 0) (toStore &&& 0xFF)).writeByte (addr + 1)
            ((toStore >>> 8) &&& 0xFF)
        else if d.funct3 = 0x2 then seg.writeWord addr RM
        else seg
      match r with
      | Region.stack => some { out with RZ := RZ, stackSegment := seg }
      | _ => some { out with RZ := RZ, dataSegment := seg }
  else if d.opcode = 0x63 then
    if branchTaken d.funct3 RA RM then
      some { out with nextPC := toU32 ((s.PC : Int) + d.imm) }
    else some out
  else if d.opcode = 0x6F then
    let RZ := toI32 (s.PC + 4)
    some { out with RZ := RZ, RY := RZ, nextPC := toU32 ((s.PC : Int) + d.imm) }
  else if d.opcode = 0x67 then
    let RZ := toI32 (s.PC + 4)
    let target := toU32 (RA + d.imm) &&& (2 ^ 32 - 2)
    some { out with RZ := RZ, RY := RZ, nextPC := target }
  else if d.opcode = 0x37 then
    some { out with RZ := d.imm, RY := d.imm }
  else if d.opcode = 0x17 then
    let RZ := toI32 (toU32 ((s.PC : Int) + d.imm))
    some { out with RZ := RZ, RY := RZ }
  else some out

/-- Whether the opcode is one the write-back stage serves. -/
def writesBack (opcode : Nat) : Bool :=
  opcode = 0x33 || opcode = 0x13 || opcode = 0x17 || opcode = 0x37 || opcode = 0x03
    || opcode = 0x6F || opcode = 0x67

/-- How one turn of the `while (true)` loop of `main` ends: the loop is left by a
`break` (`halt`), the execute stage runs into undefined behaviour and the turn is not
completed (`undef`), or the turn is completed and the loop goes on from a new state
(`next`). -/
inductive StepResult where
  | halt : StepResult
  | undef : StepResult
  | next : State → StepResult

/-- The state a completed turn hands on, if the turn was completed. -/
def StepResult.toOption : StepResult → Option State
  | StepResult.next s => some s
  | _ => none

/-- Whether the turn was completed. -/
def StepResult.isNext : StepResult → Bool
  | StepResult.next _ => true
  | _ => false

/-- Whether the turn ran into undefined behaviour. -/
def StepResult.isUndef : StepResult → Bool
  | StepResult.undef => true
  | _ => false

/-- One turn of the `while (true)` loop of `main`: fetch, decode, operand select,
execute, write-back, `R[0] = 0`, `PC = nextPC`, `clockCycle++`. The result is `halt`
when the loop is left: no instruction at `PC`, or the word `0x00000000`. It is
`undef` when the execute stage divides `INT_MIN` by `-1`: nothing after that
expression is modelled, neither the write-back nor the cycle count. The prompt is
taken to answer "run the remainder". -/
def step (s : State) : StepResult :=
  match s.instrMemory.find s.PC with
  | none => StepResult.halt
  | some IR =>
    if isTerminationInstr IR then StepResult.halt
    else
      let d := decode IR
      let RA := s.R d.rs1
      let RB :=
        if d.opcode = 0x13 ∨ d.opcode = 0x03 ∨ d.opcode = 0x67 ∨ d.opcode = 0x37
            ∨ d.opcode = 0x23 then d.imm
        else if d.opcode = 0x17 then d.imm
        else s.R d.rs2
      let RA := if d.opcode = 0x17 then toI32 s.PC else RA
      let RM := s.R d.rs2
      match execute s d RA RB RM with
      | none => StepResult.undef
      | some out =>
        let R1 : Nat → Int :=
          if writesBack d.opcode ∧ d.rd ≠ 0 then fun i => if i = d.rd then out.RY else s.R i
          else s.R
        let R2 : Nat → Int := fun i => if i = 0 then 0 else R1 i
        StepResult.next
          { R := R2, PC := out.nextPC, IR := IR, RA := RA, RB := RB, RM := RM,
            RZ := out.RZ, RY := out.RY, MDR := out.MDR,
            clockCycle := s.clockCycle + 1,
            instrMemory := s.instrMemory,
            dataSegment := out.dataSegment, stackSegment := out.stackSegment }

/-- The loop of `main` for at most `fuel` turns: the state in which the loop was
left, or the state reached when the fuel ran out; `none` when a turn ran into
undefined behaviour. -/
def run : Nat → State → Option State
  | 0, s => some s
  | fuel + 1, s =>
    match step s with
    | StepResult.halt => some s
    | StepResult.undef => none
    | StepResult.next s1 => run fuel s1

/-- Whether the loop of `main` is left in this state. -/
def halted (s : State) : Bool :=
  match step s with
  | StepResult.halt => true
  | _ => false

/-! ## Reference notions used to state the properties -/

/-- Sign extension as the specification uses the word: the two's complement reading
of the low `bits` bits of `x`. -/
def signExtendSpec (x : Int) (bits : Nat) : Int :=
  if x % 2 ^ bits < 2 ^ (bits - 1) then x % 2 ^ bits else x % 2 ^ bits - 2 ^ bits

/-! ## From the assembler to the simulator -/

/-- The code-segment loop of `Assembler::pass2`: the address and the word of each
listing line, in the order of the instruction lines. -/
def pass2Code (textInstructions : List InstructionLine) (symbolTable : SymbolTable) :
    Option (List (Nat × Nat)) :=
  textInstructions.mapM fun inst =>
    (encodeInstruction inst symbolTable).map fun code => (inst.address, code)

/-- The three memories `parseInputMC` fills. -/
structure Memories where
  instrMemory : AddrMap
  dataSegment : MemSegment
  stackSegment : MemSegment
deriving DecidableEq, Repr

/-- The routing step of `parseInputMC` for one listing line that parsed to an address
and a word (both stored in `uint32_t`). -/
def loadEntry (m : Memories) (address word : Nat) : Memories :=
  let address := address % 2 ^ 32
  let word := word % 2 ^ 32
  if address < 0x10000000 then { m with instrMemory := m.instrMemory.insert address word }
  else if address < 0x50000000 then
    { m with dataSegment := m.dataSegment.writeWord address (toI32 word) }
  else { m with stackSegment := m.stackSegment.writeWord address (toI32 word) }

/-- The function `parseInputMC` on the parsed lines of a listing, in file order. -/
def parseInputMC (entries : List (Nat × Nat)) : Memories :=
  entries.foldl (fun m e => loadEntry m e.1 e.2)
    { instrMemory := [], dataSegment := { memory := [] }, stackSegment := { memory := [] } }

/-- Assemble the instruction lines, load the listing and run the simulator for at most
`fuel` cycles. There is no final state (`none`) when the assembler is ended by an
exception or the simulator runs into undefined behaviour. -/
def runProgram (textInstructions : List InstructionLine) (symbolTable : SymbolTable)
    (fuel : Nat) : Option State :=
  (pass2Code textInstructions symbolTable).bind fun listing =>
    let m := parseInputMC listing
    run fuel (initState m.instrMemory m.dataSegment m.stackSegment)

/-- The spelling `x0 … x31` of a register operand. -/
def regName (n : Nat) : String := "x" ++ toString n

/-- The register-register mnemonics. -/
def rTypeMnemonics : List String :=
  ["ADD", "SUB", "AND", "OR", "XOR", "SLL", "SRL", "SRA", "SLT", "MUL", "DIV", "REM"]

/-- The execution table of the specification for opcode `0x33`: the funct3 / funct7
pair under which each operation is listed. -/
def execTableSpec (M : String) : Option (Nat × Nat) :=
  if M = "ADD" then some (0, 0x00)
  else if M = "SUB" then some (0, 0x20)
  else if M = "MUL" then some (0, 0x01)
  else if M = "XOR" then some (4, 0x00)
  else if M = "DIV" then some (4, 0x01)
  else if M = "OR" then some (6, 0x00)
  else if M = "REM" then some (6, 0x01)
  else if M = "AND" then some (7, 0x00)
  else if M = "SLL" then some (1, 0x00)
  else if M = "SLT" then some (2, 0x00)
  else if M = "SRL" then some (5, 0x00)
  else if M = "SRA" then some (5, 0x20)
  else none

/-- What each register-register operation computes from two signed 32-bit operands,
in the words of the specification: `ADD`, `SUB`, `MUL` wrap modulo `2^32`, `SLT`
compares signed, shifts use the amount modulo 32 (`SRL` on the unsigned reading,
`SRA` on the signed one), `DIV` and `REM` truncate toward zero and give 0 for a zero
divisor. -/
def rTypeSpec (M : String) (a b : Int) : Int :=
  if M = "ADD" then wrap32 (a + b)
  else if M = "SUB" then wrap32 (a - b)
  else if M = "MUL" then wrap32 (a * b)
  else if M = "AND" then toI32 (toU32 a &&& toU32 b)
  else if M = "OR" then toI32 (toU32 a ||| toU32 b)
  else if M = "XOR" then toI32 (toU32 a ^^^ toU32 b)
  else if M = "SLL" then wrap32 (a * 2 ^ (b % 32).toNat)
  else if M = "SRL" then toI32 (toU32 a / 2 ^ (b % 32).toNat)
  else if M = "SRA" then a / 2 ^ (b % 32).toNat
  else if M = "SLT" then (if a < b then 1 else 0)
  else if M = "DIV" then (if b = 0 then 0 else wrap32 (Int.tdiv a b))
  else if M = "REM" then (if b = 0 then 0 else wrap32 (Int.tmod a b))
  else 0

/-- The countdown loop `addi x1, x0, 10` / `LOOP: addi x1, x1, -1` /
`bne x1, x0, LOOP` as pass 1 hands it to pass 2. -/
def loopLines : List InstructionLine :=
  [ { address := 0, mnemonic := "addi", operands := ["x1", "x0", "10"],
      originalLine := "addi x1, x0, 10" },
    { address := 4, mnemonic := "addi", operands := ["x1", "x1", "-1"],
      originalLine := "LOOP: addi x1, x1, -1" },
    { address := 8, mnemonic := "bne", operands := ["x1", "x0", "LOOP"],
      originalLine := "bne x1, x0, LOOP" } ]

/-- A forward branch over one instruction: `beq x0, x0, L` / `addi x1, x0, 1` /
`L: addi x3, x0, 2`. -/
def forwardBranchLines : List InstructionLine :=
  [ { address := 0, mnemonic := "beq", operands := ["x0", "x0", "L"],
      originalLine := "beq x0, x0, L" },
    { address := 4, mnemonic := "addi", operands := ["x1", "x0", "1"],
      originalLine := "addi x1, x0, 1" },
    { address := 8, mnemonic := "addi", operands := ["x3", "x0", "2"],
      originalLine := "L: addi x3, x0, 2" } ]

/-- The program `jal x1, SKIP` / `addi x2, x0, 99` / `SKIP: addi x2, x0, 7`. -/
def jalLines : List InstructionLine :=
  [ { address := 0, mnemonic := "jal", operands := ["x1", "SKIP"],
      originalLine := "jal x1, SKIP" },
    { address := 4, mnemonic := "addi", operands := ["x2", "x0", "99"],
      originalLine := "addi x2, x0, 99" },
    { address := 8, mnemonic := "addi", operands := ["x2", "x0", "7"],
      originalLine := "SKIP: addi x2, x0, 7" } ]

/-- A state about to execute `add x3, x1, x2` at address 0 with `R[1] = 5` and
`R[2] = 7`. -/
def addState : State :=
  { initState [(0, 0x002081B3)] { memory := [] } { memory := [] } with
    R := fun i => if i = 1 then 5 else if i = 2 then 7 else 0 }

/-- A state about to execute the `bne x1, x0, LOOP` of the countdown loop at address 8,
with `R[1] = 9`. -/
def bneState : State :=
  { initState [(0, 0x00A00093), (4, 0xFFF08093), (8, 0x7E009CE3)] { memory := [] }
      { memory := [] } with
    R := fun i => if i = 1 then 9 else 0
    PC := 8 }

/-- A state about to execute `jal x1, SKIP` at address 0. -/
def jalState : State :=
  initState [(0, 0x002000EF), (4, 0x06300113), (8, 0x00700113)] { memory := [] }
    { memory := [] }

/-- The branch conditions of the specification: `BEQ` (funct3 0) equality, `BNE` (1)
inequality, `BLT` (4) signed less-than, `BGE` (5) signed greater-or-equal, between the
values of `rs1` and `rs2`. -/
def branchCondSpec (funct3 : Nat) (a b : Int) : Prop :=
  (funct3 = 0 ∧ a = b) ∨ (funct3 = 1 ∧ a ≠ b) ∨ (funct3 = 4 ∧ a < b) ∨ (funct3 = 5 ∧ a ≥ b)

/-- A state about to execute `beq x1, x2, 16` (word `0x00208863`) at address 8 with
`R[1] = R[2] = 7`. -/
def beqState : State :=
  { initState [(8, 0x00208863)] { memory := [] } { memory := [] } with
    R := fun i => if i = 1 then 7 else if i = 2 then 7 else 0
    PC := 8 }

/-- A state about to execute `jalr x1, 5(x1)` (word `0x005080E7`) at address 4 with
`R[1] = 100`. -/
def jalrState : State :=
  { initState [(4, 0x005080E7)] { memory := [] } { memory := [] } with
    R := fun i => if i = 1 then 100 else 0
    PC := 4 }

/-- A state about to execute `sw x1, 0(x2)` (word `0x00112023`) at address 0 with
`R[1] = 9`, `R[2] = 0x7FFFFFFC`. -/
def swState : State :=
  { initState [(0, 0x00112023)] { memory := [] } { memory := [] } with
    R := fun i => if i = 1 then 9 else if i = 2 then 0x7FFFFFFC else 0 }

/-- The operand-select and execute stages of one cycle on a fetched word, as `step`
performs them: `RA = R[rs1]` (`PC` for `AUIPC`), `RB` the immediate or `R[rs2]`,
`RM = R[rs2]`. -/
def executeWord (s : State) (w : Nat) : Option ExecOut :=
  let d := decode w
  let RA := s.R d.rs1
  let RB :=
    if d.opcode = 0x13 ∨ d.opcode = 0x03 ∨ d.opcode = 0x67 ∨ d.opcode = 0x37
        ∨ d.opcode = 0x23 then d.imm
    else if d.opcode = 0x17 then d.imm
    else s.R d.rs2
  let RA := if d.opcode = 0x17 then toI32 s.PC else RA
  let RM := s.R d.rs2
  execute s d RA RB RM

/-- The decimal spelling of an integer, without leading zeros and with a minus sign
for a negative one. -/
def decimalLiteral (N : Int) : String := toString N

/-- A hexadecimal spelling of a natural number: the prefix `0x` (or `0X`), then its
digits without leading zeros, in lower or upper case. -/
def hexLiteral (bigX upper : Bool) (v : Nat) : String :=
  String.mk ('0' :: (if bigX then 'X' else 'x')
    :: (Nat.toDigits 16 v).map (fun c => if upper then c.toUpper else c))

/-- The program `addi x1, x0, -1` / `srli x2, x1, k` / `srai x3, x1, k` as pass 1 hands
it to pass 2. -/
def shiftLines (k : Nat) : List InstructionLine :=
  [ { address := 0, mnemonic := "addi", operands := ["x1", "x0", "-1"],
      originalLine := "addi x1, x0, -1" },
    { address := 4, mnemonic := "srli", operands := ["x2", "x1", toString k],
      originalLine := "srli x2, x1, " ++ toString k },
    { address := 8, mnemonic := "srai", operands := ["x3", "x1", toString k],
      originalLine := "srai x3, x1, " ++ toString k } ]

/-- The instruction memory holding `addi x1, x0, -1` followed by the I-type encodings of
`srli x2, x1, k` (funct3 5, immediate `k`) and `srai x3, x1, k` (funct3 5, immediate
`0x400 + k`). -/
def shiftWords (k : Nat) : AddrMap :=
  [(0, 0xFFF00093), (4, encodeIType 0x13 5 2 1 (k : Int)),
    (8, encodeIType 0x13 5 3 1 (0x400 + (k : Int)))]

/-- A state about to execute `addi x1, x0, -7` (word `0xFF900093`) at address 0. -/
def addiState : State :=
  initState [(0, 0xFF900093)] { memory := [] } { memory := [] }

/-! ## Pass 1 and the listing (`assembler.cpp`) -/

/-- The characters `trim` removes: space, tab, carriage return, line feed. -/
def isTrimChar (c : Char) : Bool := c = ' ' || c = '\t' || c = '\r' || c = '\n'

/-- The function `trim`: the text between the first and the last character that is not
one of `" \t\r\n"`, empty when there is none. -/
def trim (s : String) : String :=
  String.mk ((s.data.dropWhile isTrimChar).reverse.dropWhile isTrimChar).reverse

/-- The loop of `splitTokens`: `temp` is the token being read, `tokens` the ones
finished. -/
def splitTokensLoop : List Char → List Char → List String → List String
  | [], temp, tokens => if temp ≠ [] then tokens ++ [String.mk temp] else tokens
  | c :: cs, temp, tokens =>
    if isSpace c || c = ',' then
      if temp ≠ [] then splitTokensLoop cs [] (tokens ++ [String.mk temp])
      else splitTokensLoop cs [] tokens
    else splitTokensLoop cs (temp ++ [c]) tokens

/-- The function `splitTokens`: the maximal runs of characters that are neither white
space nor a comma. -/
def splitTokens (line : String) : List String := splitTokensLoop line.data [] []

/-- The library call `strtoll(s, nullptr, 0)`: white space, an optional sign, then
base 16 after a `0x` prefix, base 8 after a leading `0`, base 10 otherwise; no digit
gives 0 and the result saturates at the bounds of `long long`. -/
def strtoll0 (s : String) : Int :=
  let body := s.data.dropWhile isSpace
  let (neg, rest) := takeSign body
  let v : Nat :=
    match rest with
    | '0' :: x :: c :: cs =>
      if (x = 'x' ∨ x = 'X') ∧ (digitValue 16 c).isSome then (scanDigits 16 (c :: cs) 0 0).1
      else (scanDigits 8 rest 0 0).1
    | '0' :: _ => (scanDigits 8 rest 0 0).1
    | _ => (scanDigits 10 rest 0 0).1
  let r : Int := if neg then -(v : Int) else (v : Int)
  if r < -(2 ^ 63) then -(2 ^ 63) else if 2 ^ 63 - 1 < r then 2 ^ 63 - 1 else r

/-- The enumeration `Section`. -/
inductive Section where
  | UNDEF
  | TEXT
  | DATA
deriving DecidableEq, Repr

/-- The members of the class `Assembler` that pass 1 fills and pass 2 reads (the vector
`lines`, which nothing reads, is left out). An assignment `symbolTable[label] = a` puts
the pair in front, where the lookup finds it first. -/
structure Assembler where
  textInstructions : List InstructionLine
  symbolTable : SymbolTable
  dataMemory : AddrMap
  currentTextAddr : Nat
  currentDataAddr : Nat
  currentSection : Section
deriving DecidableEq, Repr

/-- The state the constructor `Assembler::Assembler` sets up. -/
def Assembler.init : Assembler :=
  { textInstructions := [], symbolTable := [], dataMemory := [],
    currentTextAddr := 0x00000000, currentDataAddr := 0x10000000,
    currentSection := Section.UNDEF }

/-- The effect `dataMemory[currentDataAddr + i] = byte i of val` for `i < n`, followed by
`currentDataAddr += n`: the little-endian bytes of one operand of `.byte`, `.half`,
`.word` or `.dword`. -/
def Assembler.emitBytes (a : Assembler) (val : Int) (n : Nat) : Assembler :=
  { a with
    dataMemory := (List.range n).foldl
      (fun m i => m.insert ((a.currentDataAddr + i) % 2 ^ 32) ((val / 2 ^ (8 * i) % 256).toNat))
      a.dataMemory
    currentDataAddr := (a.currentDataAddr + n) % 2 ^ 32 }

/-- The data directives `.byte`, `.half`, `.word` (operands through `parseImmediate`),
`.dword` (operands through `strtoll`) and `.asciz` (the first token without a leading
and a trailing double quote, then a zero byte). -/
def Assembler.dataDirective (a : Assembler) (directive : String) (tokens : List String) :
    Option Assembler :=
  if directive = ".byte" then
    tokens.foldlM (fun a tk => do some (a.emitBytes (← parseImmediate tk) 1)) a
  else if directive = ".half" then
    tokens.foldlM (fun a tk => do some (a.emitBytes (← parseImmediate tk) 2)) a
  else if directive = ".word" then
    tokens.foldlM (fun a tk => do some (a.emitBytes (← parseImmediate tk) 4)) a
  else if directive = ".dword" then
    tokens.foldlM (fun a tk => some (a.emitBytes (strtoll0 tk) 8)) a
  else if directive = ".asciz" then
    match tokens with
    | [] => some a
    | tk :: _ =>
      let strVal := tk.data
      let strVal := if strVal.head? = some (Char.ofNat 34) then strVal.drop 1 else strVal
      let strVal := if strVal.getLast? = some (Char.ofNat 34) then strVal.dropLast else strVal
      let a := strVal.foldl (fun a c => a.emitBytes (c.toNat % 256) 1) a
      some (a.emitBytes 0 1)
  else some a

/-- The body of the `while (getline …)` loop of `Assembler::pass1` for one source
line. -/
def Assembler.pass1Line (a : Assembler) (rawLine : String) : Option Assembler :=
  let rawLine := trim rawLine
  if rawLine.data = [] then some a
  else if rawLine.data.head? = some '#' then some a
  else
    let originalLine := rawLine
    let (a, rawLine) :=
      match findChar ':' rawLine.data with
      | some colonPos =>
        let label := trim (String.mk (rawLine.data.take colonPos))
        let rest := trim (String.mk (rawLine.data.drop (colonPos + 1)))
        let addr :=
          match a.currentSection with
          | Section.TEXT => a.currentTextAddr
          | Section.DATA => a.currentDataAddr
          | Section.UNDEF => a.currentTextAddr
        ({ a with symbolTable := (label, addr) :: a.symbolTable }, rest)
      | none => (a, rawLine)
    if rawLine.data = [] then some a
    else if rawLine.data.head? = some '.' then
      match splitTokens rawLine with
      | [] => some a
      | directive :: tokens =>
        if directive = ".text" then some { a with currentSection := Section.TEXT }
        else if directive = ".data" then some { a with currentSection := Section.DATA }
        else if directive = ".byte" ∨ directive = ".half" ∨ directive = ".word"
            ∨ directive = ".dword" ∨ directive = ".asciz" then
          ({ a with currentSection := Section.DATA } : Assembler).dataDirective directive tokens
        else some a
    else
      match splitTokens rawLine with
      | [] => none
      | mnemonic :: operands =>
        some { a with
          currentSection := Section.TEXT
          textInstructions := a.textInstructions ++
            [{ address := a.currentTextAddr, mnemonic := mnemonic, operands := operands,
               originalLine := originalLine }]
          currentTextAddr := (a.currentTextAddr + 4) % 2 ^ 32 }

/-- The method `Assembler::pass1` on the lines of the source file. -/
def Assembler.pass1 (source : List String) : Option Assembler :=
  source.foldlM Assembler.pass1Line Assembler.init

/-- The method `Assembler::pass2`: the listing as the loader parses it, one pair of
address and word per instruction line, then one pair of address and byte per data byte in
address order (the `<END_OF_TEXT>` line between them is skipped by the loader). -/
def Assembler.pass2 (a : Assembler) : Option (List (Nat × Nat)) := do
  let code ← pass2Code a.textInstructions a.symbolTable
  some (code ++ a.dataMemory)

/-- The method `Assembler::assemble` followed by the simulator: pass 1, pass 2, the
loader and at most `fuel` cycles from the initial state. -/
def runSource (source : List String) (fuel : Nat) : Option State := do
  let a ← Assembler.pass1 source
  let listing ← a.pass2
  let m := parseInputMC listing
  run fuel (initState m.instrMemory m.dataSegment m.stackSegment)

/-- The source of the data-word scenario: `.data` / `W: .word V` / `.text` /
`lui x1, 0x10000` / `lw x2, 0(x1)`, with `V` as the given literal. -/
def dataWordSource (literal : String) : List String :=
  [".data", String.mk ("W: .word ".data ++ literal.data), ".text", "lui x1, 0x10000",
    "lw x2, 0(x1)"]

/-! ## States and notions for the single-step and pass-1 properties -/

/-- A state about to execute `div x3, x1, x5` at address 0 with `R[1] = 7`, `R[5] = 0`. -/
def divZeroState : State :=
  { initState [(0, 0x0250C1B3)] { memory := [] } { memory := [] } with
    R := fun i => if i = 1 then 7 else if i = 2 then 0x7FFFFFFC else 0 }

/-- A state about to execute `rem x3, x1, x5` at address 0 with `R[1] = 7`, `R[5] = 0`. -/
def remZeroState : State :=
  { initState [(0, 0x0250E1B3)] { memory := [] } { memory := [] } with
    R := fun i => if i = 1 then 7 else if i = 2 then 0x7FFFFFFC else 0 }

/-- A state about to execute `slli x1, x1, 32` at address 0 with `R[1] = 5`. -/
def slliState : State :=
  { initState [(0, 0x02009093)] { memory := [] } { memory := [] } with
    R := fun i => if i = 1 then 5 else if i = 2 then 0x7FFFFFFC else 0 }

/-- A state about to execute `srli x2, x1, 4` at address 0 with `R[1] = -16`. -/
def srliState : State :=
  { initState [(0, 0x0040D113)] { memory := [] } { memory := [] } with
    R := fun i => if i = 1 then -16 else if i = 2 then 0x7FFFFFFC else 0 }

/-- A state about to execute `srai x3, x1, 4` at address 0 with `R[1] = -16`. -/
def sraiState : State :=
  { initState [(0, 0x4040D193)] { memory := [] } { memory := [] } with
    R := fun i => if i = 1 then -16 else if i = 2 then 0x7FFFFFFC else 0 }

/-- The state in which the loop of `main` is left when it stops at `s`: the fetched word,
if there is one, has been put in `IR` before the `break`, and nothing else has been
assigned. The function `run` returns `s` itself, which differs from it in `IR` at most. -/
def haltState (s : State) : State :=
  match s.instrMemory.find s.PC with
  | some IR => { s with IR := IR }
  | none => s

/-- Modelled from the spec: the byte a segment holds at an address, 0 when the address
was never written. -/
def MemSegment.byteAt (m : MemSegment) (address : Nat) : Nat :=
  match m.memory.find (address % 2 ^ 32) with
  | some b => b % 256
  | none => 0

/-- A state about to execute `lb x3, 0(x1)` at address 0, `lh x4, 0(x1)` at 4 and
`lw x5, 0(x1)` at 8, with `R[1] = 0x10000000` and the bytes `0x80, 0xFF, 0x01` at
`0x10000000 … 0x10000002`. -/
def loadState (pc : Nat) : State :=
  { initState [(0, 0x00008183), (4, 0x00009203), (8, 0x0000A283)]
      { memory := [(0x10000000, 0x80), (0x10000001, 0xFF), (0x10000002, 0x01)] }
      { memory := [] } with
    R := fun i => if i = 1 then 0x10000000 else if i = 2 then 0x7FFFFFFC else 0
    PC := pc }

/-- The address a label declared in the state `a` is bound to: the text counter in the
text section and before any section is selected, the data counter in the data section. -/
def Assembler.labelAddr (a : Assembler) : Nat :=
  match a.currentSection with
  | Section.TEXT => a.currentTextAddr
  | Section.DATA => a.currentDataAddr
  | Section.UNDEF => a.currentTextAddr

/-- The label part of the body of the loop of pass 1, on a trimmed line: the state with
the label bound and the text after the colon, or the state and the line as they are when
there is no colon. -/
def Assembler.bindLabel (a : Assembler) (rawLine : String) : Assembler × String :=
  match findChar ':' rawLine.data with
  | some colonPos =>
    ({ a with symbolTable :=
        (trim (String.mk (rawLine.data.take colonPos)), a.labelAddr) :: a.symbolTable },
      trim (String.mk (rawLine.data.drop (colonPos + 1))))
  | none => (a, rawLine)

/-- The part of the body of the loop of pass 1 that follows the label: a directive, an
instruction, or nothing. -/
def Assembler.directiveOrInstruction (a : Assembler) (originalLine rawLine : String) :
    Option Assembler :=
  if rawLine.data = [] then some a
  else if rawLine.data.head? = some '.' then
    match splitTokens rawLine with
    | [] => some a
    | directive :: tokens =>
      if directive = ".text" then some { a with currentSection := Section.TEXT }
      else if directive = ".data" then some { a with currentSection := Section.DATA }
      else if directive = ".byte" ∨ directive = ".half" ∨ directive = ".word"
          ∨ directive = ".dword" ∨ directive = ".asciz" then
        ({ a with currentSection := Section.DATA } : Assembler).dataDirective directive tokens
      else some a
  else
    match splitTokens rawLine with
    | [] => none
    | mnemonic :: operands =>
      some { a with
        currentSection := Section.TEXT
        textInstructions := a.textInstructions ++
          [{ address := a.currentTextAddr, mnemonic := mnemonic, operands := operands,
             originalLine := originalLine }]
        currentTextAddr := (a.currentTextAddr + 4) % 2 ^ 32 }

/-- The state reached by a sequence of operand emissions, each pair a value and the
number of its bytes. -/
def Assembler.emitAll (a : Assembler) (l : List (Int × Nat)) : Assembler :=
  l.foldl (fun a p => a.emitBytes p.1 p.2) a

/-- Invariant of pass 1 on the text side: the text counter is four times the number of
instruction lines read so far (in `uint32_t`), and the instruction line of index `i` has
the address `4 * i`. -/
def Assembler.textInv (a : Assembler) : Prop :=
  a.currentTextAddr = 4 * a.textInstructions.length % 2 ^ 32
    ∧ ∀ i (h : i < a.textInstructions.length),
        (a.textInstructions.get ⟨i, h⟩).address = 4 * i % 2 ^ 32

/-- Invariant of pass 1 on the data side: as long as the data image holds fewer than
`0xF0000000` bytes (the counter has not wrapped), its bytes lie at the addresses from
`0x10000000` upward without a gap and the data counter is the next address. -/
def Assembler.dataInv (a : Assembler) : Prop :=
  a.dataMemory.length < 0xF0000000 →
    a.dataMemory.map Prod.fst = List.range' 0x10000000 a.dataMemory.length
      ∧ a.currentDataAddr = 0x10000000 + a.dataMemory.length

/-- The state of pass 1 after the line `addi x1, x0, 1`. -/
def labelTextBefore : Assembler :=
  { textInstructions := [⟨0, "addi", ["x1", "x0", "1"], "addi x1, x0, 1"⟩]
    symbolTable := [], dataMemory := [], currentTextAddr := 4, currentDataAddr := 0x10000000
    currentSection := Section.TEXT }

/-- The state of pass 1 after the lines `addi x1, x0, 1` / `L: addi x1, x1, 1`. -/
def labelTextAfter : Assembler :=
  { textInstructions := [⟨0, "addi", ["x1", "x0", "1"], "addi x1, x0, 1"⟩,
      ⟨4, "addi", ["x1", "x1", "1"], "L: addi x1, x1, 1"⟩]
    symbolTable := [("L", 4)], dataMemory := [], currentTextAddr := 8
    currentDataAddr := 0x10000000, currentSection := Section.TEXT }

/-- The state of pass 1 after the lines `.data` / `.word 5`. -/
def labelDataBefore : Assembler :=
  { textInstructions := [], symbolTable := []
    dataMemory := [(0x10000000, 5), (0x10000001, 0), (0x10000002, 0), (0x10000003, 0)]
    currentTextAddr := 0, currentDataAddr := 0x10000004, currentSection := Section.DATA }

/-- The state of pass 1 after the lines `.data` / `.word 5` / `D: .byte 1`. -/
def labelDataAfter : Assembler :=
  { textInstructions := [], symbolTable := [("D", 0x10000004)]
    dataMemory := [(0x10000000, 5), (0x10000001, 0), (0x10000002, 0), (0x10000003, 0),
      (0x10000004, 1)]
    currentTextAddr := 0, currentDataAddr := 0x10000005, currentSection := Section.DATA }

/-- The source line `.asciz "s"`: the directive, a blank, and the text between double
quotes. -/
def ascizLine (s : String) : String :=
  String.mk (".asciz ".data ++ Char.ofNat 34 :: (s.data ++ [Char.ofNat 34]))

/-- Modelled from the spec: what `.asciz "s"` is to do when the data counter is that of
`a`: the bytes of `s` from the counter on, a zero byte behind them, and the counter behind
the zero byte. -/
def ascizSpec (a a1 : Assembler) (s : String) : Prop :=
  (∀ i (h : i < s.data.length),
      a1.dataMemory.find (a.currentDataAddr + i) = some ((s.data.get ⟨i, h⟩).toNat % 256))
    ∧ a1.dataMemory.find (a.currentDataAddr + s.data.length) = some 0
    ∧ a1.currentDataAddr = a.currentDataAddr + s.data.length + 1

/-! ## Further states and notions, the loader loop and the segment dump -/

/-- A state about to execute the word `w` at address 0 with `R[1] = r1`, `R[2] = r2` and
`R[3] = 77`. -/
def aluState (w : Nat) (r1 r2 : Int) : State :=
  { initState [(0, w)] { memory := [] } { memory := [] } with
    R := fun i => if i = 1 then r1 else if i = 2 then r2 else if i = 3 then 77 else 0 }

/-- The program `lui x1, 0x80000` / `addi x2, x0, -1` / `div x3, x1, x2`: it divides
`-2^31` by `-1`. -/
def divOverflowSource : List String :=
  [".text", "lui x1, 0x80000", "addi x2, x0, -1", "div x3, x1, x2"]

/-- Modelled from the spec: the quotient of `a` by `b` truncated toward zero. -/
def truncDiv (a b : Int) : Int :=
  if (0 ≤ a ↔ 0 ≤ b) then ((a.natAbs / b.natAbs : Nat) : Int)
  else -((a.natAbs / b.natAbs : Nat) : Int)

/-- The loop of `parseInputMC` over parsed listing lines, continued from the memories
`m`; `parseInputMC` itself starts it from empty memories. -/
def loadAll (m : Memories) (entries : List (Nat × Nat)) : Memories :=
  entries.foldl (fun m e => loadEntry m e.1 e.2) m

/-- The segment of the memories an address of the data or stack region routes to. -/
def Memories.segmentOf (m : Memories) (address : Nat) : MemSegment :=
  if address < 0x50000000 then m.dataSegment else m.stackSegment

/-- The loop of `dumpSegmentToFile` over the sorted addresses, with the set `visited`: the
lines written, each an address and the word read there, printed as `uint32_t`. -/
def dumpLoop (seg : MemSegment) (startAddr endAddr : Nat) :
    List Nat → List Nat → List (Nat × Nat)
  | [], _ => []
  | addr :: rest, visited =>
    if addr < startAddr then dumpLoop seg startAddr endAddr rest visited
    else if endAddr ≥ startAddr ∧ addr ≥ endAddr then dumpLoop seg startAddr endAddr rest visited
    else if addr % 4 ≠ 0 then dumpLoop seg startAddr endAddr rest visited
    else if addr ∈ visited then dumpLoop seg startAddr endAddr rest visited
    else
      (addr, toU32 (seg.readWord addr)) ::
        dumpLoop seg startAddr endAddr rest
          ((addr + 0) % 2 ^ 32 :: (addr + 1) % 2 ^ 32 :: (addr + 2) % 2 ^ 32
            :: (addr + 3) % 2 ^ 32 :: visited)

/-- The function `dumpSegmentToFile`: the lines it writes for a segment and the bounds
`startAddr`, `endAddr`, from the keys of the byte map put in increasing order. -/
def dumpSegmentToFile (seg : MemSegment) (startAddr endAddr : Nat) : List (Nat × Nat) :=
  dumpLoop seg startAddr endAddr
    ((seg.memory.map Prod.fst).insertionSort (fun a b => a ≤ b)) []

/-- A data segment with a full word at `0x10000000`, two bytes of the word at
`0x10000004` and one byte at `0x10000009`. -/
def dumpDemoSegment : MemSegment :=
  { memory := [(0x10000000, 0xEF), (0x10000001, 0xBE), (0x10000002, 0xAD),
      (0x10000003, 0xDE), (0x10000004, 1), (0x10000006, 2), (0x10000009, 5)] }

/-! ## Arithmetic reading of the bit operations -/

theorem testBit_high (v i : Nat) (hv : v < 2 ^ 32) (hi : 32 ≤ i) : v.testBit i = false := by
  apply Nat.testBit_eq_false_of_lt
  exact lt_of_lt_of_le hv (Nat.pow_le_pow_right (by decide) hi)

/-- Bit `i` of `setBits v o n f` is bit `i - o` of the field inside the window
`[o, o + n)` and bit `i` of the old value outside it. -/
theorem setBits_testBit (v o n f i : Nat) (hv : v < 2 ^ 32) (h : o + n ≤ 32) :
    (setBits v o n f).testBit i
      = if o ≤ i ∧ i < o + n then f.testBit (i - o) else v.testBit i := by
  unfold setBits
  simp only [Nat.testBit_or, Nat.testBit_and, Nat.testBit_xor, Nat.testBit_mod_two_pow,
    Nat.testBit_shiftLeft, Nat.testBit_two_pow_sub_one, Nat.one_shiftLeft]
  by_cases hi : i < 32
  · by_cases h1 : o ≤ i
    · by_cases h2 : i < o + n
      · have h3 : i - o < n := by omega
        simp [hi, h1, h2, h3]
      · have h3 : ¬ (i - o < n) := by omega
        simp [hi, h1, h2, h3]
    · simp [hi, h1]
  · have hf := testBit_high v i hv (by omega)
    have h2 : ¬ (i < o + n) := by omega
    simp [hi, hf, h2]

/-- The word `setBits v o n f` written with division and remainder: the bits of
`v` above the window, the low `n` bits of the field, the bits of `v` below. -/
theorem setBits_eq (v o n f : Nat) (hv : v < 2 ^ 32) (h : o + n ≤ 32) :
    setBits v o n f = 2 ^ (o + n) * (v / 2 ^ (o + n)) + (2 ^ o * (f % 2 ^ n) + v % 2 ^ o) := by
  apply Nat.eq_of_testBit_eq
  intro i
  have hL : v % 2 ^ o < 2 ^ o := Nat.mod_lt _ (by positivity)
  have hF : f % 2 ^ n < 2 ^ n := Nat.mod_lt _ (by positivity)
  have hM : 2 ^ o * (f % 2 ^ n) + v % 2 ^ o < 2 ^ (o + n) := by
    have h1 : 2 ^ o * (f % 2 ^ n + 1) ≤ 2 ^ o * 2 ^ n := Nat.mul_le_mul_left _ hF
    rw [pow_add]
    calc 2 ^ o * (f % 2 ^ n) + v % 2 ^ o < 2 ^ o * (f % 2 ^ n) + 2 ^ o := by omega
      _ = 2 ^ o * (f % 2 ^ n + 1) := by ring
      _ ≤ 2 ^ o * 2 ^ n := h1
  rw [setBits_testBit v o n f i hv h, Nat.testBit_mul_pow_two_add _ hM,
    Nat.testBit_mul_pow_two_add _ hL, Nat.testBit_mod_two_pow, Nat.testBit_mod_two_pow,
    ← Nat.shiftRight_eq_div_pow, Nat.testBit_shiftRight]
  by_cases h1 : o ≤ i
  · by_cases h2 : i < o + n
    · have h3 : i - o < n := by omega
      have h4 : ¬ (i < o) := by omega
      simp [h1, h2, h3, h4]
    · have h5 : o + n + (i - (o + n)) = i := by omega
      simp [h1, h2, h5]
  · have h4 : i < o := by omega
    have h2 : i < o + n := by omega
    simp [h1, h2, h4]

/-- The helper `getBits` written with division and remainder. -/
theorem getBits_eq (val hi lo : Nat) :
    getBits val hi lo = val / 2 ^ lo % 2 ^ (hi - lo + 1) := by
  simp only [getBits, Nat.one_shiftLeft, Nat.and_pow_two_sub_one_eq_mod,
    Nat.shiftRight_eq_div_pow]

/-- Masking with `2^k - 1` is the remainder modulo `2^k`. -/
theorem and_mask (x k m : Nat) (hm : m = 2 ^ k - 1) : x &&& m = x % 2 ^ k := by
  subst hm
  exact Nat.and_pow_two_sub_one_eq_mod x k

/-- Bitwise or of a multiple of `2^k` with a number below `2^k` is their sum. -/
theorem or_eq_add (a b k : Nat) (ha : a % 2 ^ k = 0) (hb : b < 2 ^ k) : a ||| b = a + b := by
  have h := Nat.mul_add_lt_is_or hb (a / 2 ^ k)
  have h2 : 2 ^ k * (a / 2 ^ k) = a := by
    have := Nat.div_add_mod a (2 ^ k)
    omega
  rw [h2] at h
  exact h.symm

/-- Four fields in disjoint, descending windows: their bitwise or is their sum. -/
theorem or_chain4 (a b c d k1 k2 k3 : Nat) (ha : a % 2 ^ k1 = 0) (hb : b < 2 ^ k1)
    (hab : (a + b) % 2 ^ k2 = 0) (hc : c < 2 ^ k2) (habc : (a + b + c) % 2 ^ k3 = 0)
    (hd : d < 2 ^ k3) : a ||| b ||| c ||| d = a + b + c + d := by
  rw [or_eq_add a b k1 ha hb, or_eq_add (a + b) c k2 hab hc, or_eq_add (a + b + c) d k3 habc hd]

theorem toU32_lt (x : Int) : toU32 x < 2 ^ 32 := by
  unfold toU32
  omega

theorem toU32_of_nonneg (x : Int) (h0 : 0 ≤ x) (h1 : x < 2 ^ 32) : toU32 x = x.toNat := by
  unfold toU32
  omega

theorem toU32_natCast (n : Nat) : toU32 (n : Int) = n % 2 ^ 32 := by
  unfold toU32
  omega

/-- Only the low `n` bits of the field reach the word. -/
theorem setBits_mod (v o n f : Nat) : setBits v o n f = setBits v o n (f % 2 ^ n) := by
  simp only [setBits, Nat.one_shiftLeft, Nat.and_pow_two_sub_one_eq_mod, Nat.mod_mod]

/-- Writing a field into a window that is still zero adds the field, shifted into
place. -/
theorem setBits_fresh (v o n f a : Nat) (hv : v < 2 ^ 32) (h : o + n ≤ 32)
    (hz : v / 2 ^ o % 2 ^ n = 0) (ha : f % 2 ^ n = a) : setBits v o n f = v + 2 ^ o * a := by
  rw [setBits_eq v o n f hv h, ha]
  have h1 := Nat.div_add_mod v (2 ^ o)
  have h2 := Nat.div_add_mod (v / 2 ^ o) (2 ^ n)
  rw [hz, Nat.div_div_eq_div_mul, ← pow_add] at h2
  have h3 : 2 ^ (o + n) * (v / 2 ^ (o + n)) = 2 ^ o * (v / 2 ^ o) := by
    rw [pow_add, Nat.mul_assoc]
    congr 1
    rw [← pow_add]
    omega
  omega

/-- Placement of the fields of `encodeRType`: the windows are disjoint, so the word is
the sum of the shifted fields. -/
theorem encodeRType_place (a b c d e f : Nat) :
    setBits (setBits (setBits (setBits (setBits (setBits 0 0 7 a) 7 5 b) 12 3 c) 15 5 d) 20 5 e)
        25 7 f
      = a % 128 + 128 * (b % 32) + 4096 * (c % 8) + 32768 * (d % 32) + 1048576 * (e % 32) +
          33554432 * (f % 128) := by
  have h1 := setBits_fresh 0 0 7 a (a % 128) (by norm_num) (by norm_num) (by norm_num) (by norm_num)
  generalize setBits 0 0 7 a = w1 at h1 ⊢
  have h2 := setBits_fresh w1 7 5 b (b % 32) (by omega) (by norm_num) (by omega) (by norm_num)
  generalize setBits w1 7 5 b = w2 at h2 ⊢
  have h3 := setBits_fresh w2 12 3 c (c % 8) (by omega) (by norm_num) (by omega) (by norm_num)
  generalize setBits w2 12 3 c = w3 at h3 ⊢
  have h4 := setBits_fresh w3 15 5 d (d % 32) (by omega) (by norm_num) (by omega) (by norm_num)
  generalize setBits w3 15 5 d = w4 at h4 ⊢
  have h5 := setBits_fresh w4 20 5 e (e % 32) (by omega) (by norm_num) (by omega) (by norm_num)
  generalize setBits w4 20 5 e = w5 at h5 ⊢
  have h6 := setBits_fresh w5 25 7 f (f % 128) (by omega) (by norm_num) (by omega) (by norm_num)
  generalize setBits w5 25 7 f = w6 at h6 ⊢
  omega

/-- Placement of the fields of `encodeIType`: the windows are disjoint, so the word is
the sum of the shifted fields. -/
theorem encodeIType_place (a b c d e : Nat) :
    setBits (setBits (setBits (setBits (setBits 0 0 7 a) 7 5 b) 12 3 c) 15 5 d) 20 12 e
      = a % 128 + 128 * (b % 32) + 4096 * (c % 8) + 32768 * (d % 32) + 1048576 * (e % 4096) := by
  have h1 := setBits_fresh 0 0 7 a (a % 128) (by norm_num) (by norm_num) (by norm_num) (by norm_num)
  generalize setBits 0 0 7 a = w1 at h1 ⊢
  have h2 := setBits_fresh w1 7 5 b (b % 32) (by omega) (by norm_num) (by omega) (by norm_num)
  generalize setBits w1 7 5 b = w2 at h2 ⊢
  have h3 := setBits_fresh w2 12 3 c (c % 8) (by omega) (by norm_num) (by omega) (by norm_num)
  generalize setBits w2 12 3 c = w3 at h3 ⊢
  have h4 := setBits_fresh w3 15 5 d (d % 32) (by omega) (by norm_num) (by omega) (by norm_num)
  generalize setBits w3 15 5 d = w4 at h4 ⊢
  have h5 := setBits_fresh w4 20 12 e (e % 4096) (by omega) (by norm_num) (by omega) (by norm_num)
  generalize setBits w4 20 12 e = w5 at h5 ⊢
  omega

/-- Placement of the fields of `encodeSBType`: the windows are disjoint, so the word is
the sum of the shifted fields. -/
theorem encodeSBType_place (a b c d e f g h : Nat) :
    setBits (setBits (setBits (setBits (setBits (setBits (setBits (setBits 0 0 7 a) 8 4 b) 7 1
        c) 25 6 d) 31 1 e) 12 3 f) 15 5 g) 20 5 h
      = a % 128 + 128 * (c % 2) + 256 * (b % 16) + 4096 * (f % 8) + 32768 * (g % 32) + 1048576 *
          (h % 32) + 33554432 * (d % 64) + 2147483648 * (e % 2) := by
  have h1 := setBits_fresh 0 0 7 a (a % 128) (by norm_num) (by norm_num) (by norm_num) (by norm_num)
  generalize setBits 0 0 7 a = w1 at h1 ⊢
  have h2 := setBits_fresh w1 8 4 b (b % 16) (by omega) (by norm_num) (by omega) (by norm_num)
  generalize setBits w1 8 4 b = w2 at h2 ⊢
  have h3 := setBits_fresh w2 7 1 c (c % 2) (by omega) (by norm_num) (by omega) (by norm_num)
  generalize setBits w2 7 1 c = w3 at h3 ⊢
  have h4 := setBits_fresh w3 25 6 d (d % 64) (by omega) (by norm_num) (by omega) (by norm_num)
  generalize setBits w3 25 6 d = w4 at h4 ⊢
  have h5 := setBits_fresh w4 31 1 e (e % 2) (by omega) (by norm_num) (by omega) (by norm_num)
  generalize setBits w4 31 1 e = w5 at h5 ⊢
  have h6 := setBits_fresh w5 12 3 f (f % 8) (by omega) (by norm_num) (by omega) (by norm_num)
  generalize setBits w5 12 3 f = w6 at h6 ⊢
  have h7 := setBits_fresh w6 15 5 g (g % 32) (by omega) (by norm_num) (by omega) (by norm_num)
  generalize setBits w6 15 5 g = w7 at h7 ⊢
  have h8 := setBits_fresh w7 20 5 h (h % 32) (by omega) (by norm_num) (by omega) (by norm_num)
  generalize setBits w7 20 5 h = w8 at h8 ⊢
  omega

/-- Placement of the fields of `encodeUType`: the windows are disjoint, so the word is
the sum of the shifted fields. -/
theorem encodeUType_place (a b c : Nat) :
    setBits (setBits (setBits 0 0 7 a) 7 5 b) 12 20 c
      = a % 128 + 128 * (b % 32) + 4096 * (c % 1048576) := by
  have h1 := setBits_fresh 0 0 7 a (a % 128) (by norm_num) (by norm_num) (by norm_num) (by norm_num)
  generalize setBits 0 0 7 a = w1 at h1 ⊢
  have h2 := setBits_fresh w1 7 5 b (b % 32) (by omega) (by norm_num) (by omega) (by norm_num)
  generalize setBits w1 7 5 b = w2 at h2 ⊢
  have h3 := setBits_fresh w2 12 20 c (c % 1048576) (by omega) (by norm_num) (by omega) (by
      norm_num)
  generalize setBits w2 12 20 c = w3 at h3 ⊢
  omega

/-- Placement of the fields of `encodeUJType`: the windows are disjoint, so the word is
the sum of the shifted fields. -/
theorem encodeUJType_place (a b c d e f : Nat) :
    setBits (setBits (setBits (setBits (setBits (setBits 0 0 7 a) 7 5 b) 12 8 c) 20 1 d) 21 10
        e) 31 1 f
      = a % 128 + 128 * (b % 32) + 4096 * (c % 256) + 1048576 * (d % 2) + 2097152 * (e % 1024) +
          2147483648 * (f % 2) := by
  have h1 := setBits_fresh 0 0 7 a (a % 128) (by norm_num) (by norm_num) (by norm_num) (by norm_num)
  generalize setBits 0 0 7 a = w1 at h1 ⊢
  have h2 := setBits_fresh w1 7 5 b (b % 32) (by omega) (by norm_num) (by omega) (by norm_num)
  generalize setBits w1 7 5 b = w2 at h2 ⊢
  have h3 := setBits_fresh w2 12 8 c (c % 256) (by omega) (by norm_num) (by omega) (by norm_num)
  generalize setBits w2 12 8 c = w3 at h3 ⊢
  have h4 := setBits_fresh w3 20 1 d (d % 2) (by omega) (by norm_num) (by omega) (by norm_num)
  generalize setBits w3 20 1 d = w4 at h4 ⊢
  have h5 := setBits_fresh w4 21 10 e (e % 1024) (by omega) (by norm_num) (by omega) (by norm_num)
  generalize setBits w4 21 10 e = w5 at h5 ⊢
  have h6 := setBits_fresh w5 31 1 f (f % 2) (by omega) (by norm_num) (by omega) (by norm_num)
  generalize setBits w5 31 1 f = w6 at h6 ⊢
  omega

/-- The word built by `encodeRType`, field by field. -/
theorem encodeRType_eq (opcode func3 func7 : Nat) (rd rs1 rs2 : Int) :
    encodeRType opcode func3 func7 rd rs1 rs2
      = opcode % 128 + 128 * (toU32 rd % 32) + 4096 * (func3 % 8)
        + 32768 * (toU32 rs1 % 32) + 1048576 * (toU32 rs2 % 32)
        + 33554432 * (func7 % 128) := by
  simp only [encodeRType]
  rw [encodeRType_place]
  omega

/-- The word built by `encodeIType`, field by field. -/
theorem encodeIType_eq (opcode func3 : Nat) (rd rs1 imm12 : Int) :
    encodeIType opcode func3 rd rs1 imm12
      = opcode % 128 + 128 * (toU32 rd % 32) + 4096 * (func3 % 8)
        + 32768 * (toU32 rs1 % 32) + 1048576 * (toU32 imm12 % 4096) := by
  simp only [encodeIType, and_mask _ 12 0xFFF (by norm_num)]
  rw [encodeIType_place]
  omega

/-- The word built by `encodeSType`, field by field. -/
theorem encodeSType_eq (opcode func3 : Nat) (rs1 rs2 imm : Int) :
    encodeSType opcode func3 rs1 rs2 imm
      = opcode % 128 + 128 * (toU32 imm % 32) + 4096 * (func3 % 8)
        + 32768 * (toU32 rs1 % 32) + 1048576 * (toU32 rs2 % 32)
        + 33554432 * (toU32 imm / 32 % 128) := by
  simp only [encodeSType, and_mask _ 12 0xFFF (by norm_num), and_mask _ 7 0x7F (by norm_num),
    and_mask _ 5 0x1F (by norm_num), Nat.shiftRight_eq_div_pow]
  rw [encodeRType_place]
  omega

/-- The word built by `encodeSBType`, field by field: bit 31 receives bit 12 of a
value that was masked to 12 bits, so it is always 0. -/
theorem encodeSBType_eq (opcode func3 : Nat) (rs1 rs2 imm : Int) :
    encodeSBType opcode func3 rs1 rs2 imm
      = opcode % 128 + 128 * (toU32 imm / 2048 % 2) + 256 * (toU32 imm / 2 % 16)
        + 4096 * (func3 % 8) + 32768 * (toU32 rs1 % 32) + 1048576 * (toU32 rs2 % 32)
        + 33554432 * (toU32 imm / 32 % 64) := by
  simp only [encodeSBType, and_mask _ 12 0xFFF (by norm_num), and_mask _ 4 0xF (by norm_num),
    and_mask _ 1 0x1 (by norm_num), and_mask _ 6 0x3F (by norm_num), Nat.shiftRight_eq_div_pow]
  rw [encodeSBType_place]
  omega

/-- The word built by `encodeUType`, field by field. -/
theorem encodeUType_eq (opcode : Nat) (rd imm : Int) :
    encodeUType opcode rd imm
      = opcode % 128 + 128 * (toU32 rd % 32) + 4096 * (toU32 imm % 1048576) := by
  simp only [encodeUType, and_mask _ 20 0xFFFFF (by norm_num)]
  rw [encodeUType_place]
  omega

/-- The word built by `encodeUJType`, field by field, in terms of the halved offset
`h = offsetBytes >> 1`: bits 30:21 receive `h[10:1]` and bit 20 receives `h[0]`. -/
theorem encodeUJType_eq (opcode : Nat) (rd imm : Int) :
    encodeUJType opcode rd imm
      = opcode % 128 + 128 * (toU32 rd % 32) + 4096 * (toU32 (imm / 2) / 2048 % 256)
        + 1048576 * (toU32 (imm / 2) % 2) + 2097152 * (toU32 (imm / 2) / 2 % 1024)
        + 2147483648 * (toU32 (imm / 2) / 524288 % 2) := by
  simp only [encodeUJType, and_mask _ 20 0xFFFFF (by norm_num), and_mask _ 10 0x3FF (by norm_num),
    and_mask _ 1 0x1 (by norm_num), and_mask _ 8 0xFF (by norm_num), Nat.shiftRight_eq_div_pow]
  rw [encodeUJType_place]
  omega

/-! ## The decoder, field by field -/

/-- The helper `signExtend` at width 12 on a 12-bit value. -/
theorem signExtend_12 (v : Nat) (hv : v < 4096) :
    signExtend v 12 = if v < 2048 then (v : Int) else (v : Int) - 4096 := by
  simp only [signExtend, toI32, Nat.shiftLeft_eq]
  norm_num
  split_ifs <;> omega

/-- The helper `signExtend` at width 13 on a 13-bit value. -/
theorem signExtend_13 (v : Nat) (hv : v < 8192) :
    signExtend v 13 = if v < 4096 then (v : Int) else (v : Int) - 8192 := by
  simp only [signExtend, toI32, Nat.shiftLeft_eq]
  norm_num
  split_ifs <;> omega

/-- The helper `signExtend` at width 21 on a 21-bit value. -/
theorem signExtend_21 (v : Nat) (hv : v < 2097152) :
    signExtend v 21 = if v < 1048576 then (v : Int) else (v : Int) - 2097152 := by
  simp only [signExtend, toI32, Nat.shiftLeft_eq]
  norm_num
  split_ifs <;> omega

theorem decode_eta (w : Nat) :
    decode w = { opcode := (decode w).opcode, rd := (decode w).rd, rs1 := (decode w).rs1,
                 rs2 := (decode w).rs2, funct3 := (decode w).funct3,
                 funct7 := (decode w).funct7, imm := (decode w).imm } := rfl

theorem decode_opcode (w : Nat) : (decode w).opcode = w % 128 := by
  simp [decode, getBits_eq]

theorem decode_rd (w : Nat) : (decode w).rd = w / 128 % 32 := by
  simp [decode, getBits_eq]

theorem decode_funct3 (w : Nat) : (decode w).funct3 = w / 4096 % 8 := by
  simp [decode, getBits_eq]

theorem decode_rs1 (w : Nat) : (decode w).rs1 = w / 32768 % 32 := by
  simp [decode, getBits_eq]

theorem decode_rs2 (w : Nat) :
    (decode w).rs2
      = if w % 128 = 0x13 ∨ w % 128 = 0x03 ∨ w % 128 = 0x67 then 0 else w / 1048576 % 32 := by
  simp [decode, getBits_eq]

theorem decode_funct7 (w : Nat) :
    (decode w).funct7
      = if w % 128 = 0x13 ∨ w % 128 = 0x03 ∨ w % 128 = 0x67 then 0 else w / 33554432 % 128 := by
  simp [decode, getBits_eq]

/-- The immediate of an I-type word: bits 31:20, sign-extended from 12 bits. -/
theorem decode_imm_I (w : Nat) (h : w % 128 = 0x13 ∨ w % 128 = 0x03 ∨ w % 128 = 0x67) :
    (decode w).imm = if w / 1048576 % 4096 < 2048 then ((w / 1048576 % 4096 : Nat) : Int)
      else ((w / 1048576 % 4096 : Nat) : Int) - 4096 := by
  have hs := signExtend_12 (w / 1048576 % 4096) (by omega)
  simp only [decode, getBits_eq]
  norm_num
  rw [if_pos h]
  exact hs

/-- The immediate of an S-type word: bits 31:25 above bits 11:7, sign-extended
from 12 bits. -/
theorem decode_imm_S (w : Nat) (h : w % 128 = 0x23) :
    (decode w).imm
      = if 32 * (w / 33554432 % 128) + w / 128 % 32 < 2048
        then ((32 * (w / 33554432 % 128) + w / 128 % 32 : Nat) : Int)
        else ((32 * (w / 33554432 % 128) + w / 128 % 32 : Nat) : Int) - 4096 := by
  have hs := signExtend_12 (32 * (w / 33554432 % 128) + w / 128 % 32) (by omega)
  have ho : (((w / 33554432 % 128) <<< 5) % 2 ^ 32) ||| (w / 128 % 32)
      = 32 * (w / 33554432 % 128) + w / 128 % 32 := by
    rw [or_eq_add _ _ 5 (by omega) (by omega)]
    omega
  simp only [decode, getBits_eq]
  norm_num
  rw [if_neg (by omega), if_pos h]
  norm_num at ho
  rw [ho]
  exact hs

/-- The immediate of an SB-type word: bit 31, bit 7, bits 30:25 and bits 11:8 put at
positions 12, 11, 10:5 and 4:1, sign-extended from 13 bits. -/
theorem decode_imm_SB (w : Nat) (h : w % 128 = 0x63) :
    (decode w).imm
      = if 4096 * (w / 2147483648 % 2) + 2048 * (w / 128 % 2) + 32 * (w / 33554432 % 64)
            + 2 * (w / 256 % 16) < 4096
        then ((4096 * (w / 2147483648 % 2) + 2048 * (w / 128 % 2) + 32 * (w / 33554432 % 64)
            + 2 * (w / 256 % 16) : Nat) : Int)
        else ((4096 * (w / 2147483648 % 2) + 2048 * (w / 128 % 2) + 32 * (w / 33554432 % 64)
            + 2 * (w / 256 % 16) : Nat) : Int) - 8192 := by
  have hs := signExtend_13 (4096 * (w / 2147483648 % 2) + 2048 * (w / 128 % 2)
    + 32 * (w / 33554432 % 64) + 2 * (w / 256 % 16)) (by omega)
  have ho : (((w / 2147483648 % 2) <<< 12) % 2 ^ 32) ||| (((w / 128 % 2) <<< 11) % 2 ^ 32)
        ||| (((w / 33554432 % 64) <<< 5) % 2 ^ 32) ||| (((w / 256 % 16) <<< 1) % 2 ^ 32)
      = 4096 * (w / 2147483648 % 2) + 2048 * (w / 128 % 2) + 32 * (w / 33554432 % 64)
        + 2 * (w / 256 % 16) := by
    rw [or_chain4 _ _ _ _ 12 11 5 (by omega) (by omega) (by omega) (by omega) (by omega)
      (by omega)]
    omega
  simp only [decode, getBits_eq]
  norm_num
  rw [if_neg (by omega), if_neg (by omega), if_pos h]
  norm_num at ho
  rw [ho]
  exact hs

/-- The immediate of a U-type word: bits 31:12 shifted left by 12, read as a signed
32-bit value. -/
theorem decode_imm_U (w : Nat) (h : w % 128 = 0x37 ∨ w % 128 = 0x17) :
    (decode w).imm = toI32 (4096 * (w / 4096 % 1048576)) := by
  simp only [decode, getBits_eq, Nat.shiftLeft_eq]
  norm_num
  rw [if_neg (by omega), if_neg (by omega), if_neg (by omega), if_pos h]
  congr 1
  omega

/-- The immediate of a UJ-type word: bit 31, bits 19:12, bit 20 and bits 30:21 put at
positions 20, 19:12, 11 and 10:1, sign-extended from 21 bits. -/
theorem decode_imm_UJ (w : Nat) (h : w % 128 = 0x6F) :
    (decode w).imm
      = if 1048576 * (w / 2147483648 % 2) + 4096 * (w / 4096 % 256) + 2048 * (w / 1048576 % 2)
            + 2 * (w / 2097152 % 1024) < 1048576
        then ((1048576 * (w / 2147483648 % 2) + 4096 * (w / 4096 % 256)
            + 2048 * (w / 1048576 % 2) + 2 * (w / 2097152 % 1024) : Nat) : Int)
        else ((1048576 * (w / 2147483648 % 2) + 4096 * (w / 4096 % 256)
            + 2048 * (w / 1048576 % 2) + 2 * (w / 2097152 % 1024) : Nat) : Int) - 2097152 := by
  have hs := signExtend_21 (1048576 * (w / 2147483648 % 2) + 4096 * (w / 4096 % 256)
    + 2048 * (w / 1048576 % 2) + 2 * (w / 2097152 % 1024)) (by omega)
  have ho : (((w / 2147483648 % 2) <<< 20) % 2 ^ 32) ||| (((w / 4096 % 256) <<< 12) % 2 ^ 32)
        ||| (((w / 1048576 % 2) <<< 11) % 2 ^ 32) ||| (((w / 2097152 % 1024) <<< 1) % 2 ^ 32)
      = 1048576 * (w / 2147483648 % 2) + 4096 * (w / 4096 % 256) + 2048 * (w / 1048576 % 2)
        + 2 * (w / 2097152 % 1024) := by
    rw [or_chain4 _ _ _ _ 20 12 11 (by omega) (by omega) (by omega) (by omega) (by omega)
      (by omega)]
    omega
  simp only [decode, getBits_eq]
  norm_num
  rw [if_neg (by omega), if_neg (by omega), if_neg (by omega), if_neg (by omega), if_pos h]
  norm_num at ho
  rw [ho]
  exact hs

/-! ## Reading the fields back from a word given as a sum -/

/-- The six windows of the R and S layouts. -/
theorem fields_R (w a b c d e f : Nat) (ha : a < 128) (hb : b < 32) (hc : c < 8) (hd : d < 32)
    (he : e < 32) (hf : f < 128)
    (hw : w = a + 128 * b + 4096 * c + 32768 * d + 1048576 * e + 33554432 * f) :
    w % 128 = a ∧ w / 128 % 32 = b ∧ w / 4096 % 8 = c ∧ w / 32768 % 32 = d ∧ w / 1048576 % 32 =
        e ∧ w / 33554432 % 128 = f := by
  refine ⟨by omega, by omega, by omega, by omega, by omega, by omega⟩

/-- The five windows of the I layout. -/
theorem fields_I (w a b c d e : Nat) (ha : a < 128) (hb : b < 32) (hc : c < 8) (hd : d < 32) (he
    : e < 4096)
    (hw : w = a + 128 * b + 4096 * c + 32768 * d + 1048576 * e) :
    w % 128 = a ∧ w / 128 % 32 = b ∧ w / 4096 % 8 = c ∧ w / 32768 % 32 = d ∧ w / 1048576 % 4096
        = e := by
  refine ⟨by omega, by omega, by omega, by omega, by omega⟩

/-- The eight windows of the SB layout. -/
theorem fields_SB (w a b c d e f g h : Nat) (ha : a < 128) (hb : b < 2) (hc : c < 16) (hd : d <
    8) (he : e < 32) (hf : f < 32) (hg : g < 64) (hh : h < 2)
    (hw : w = a + 128 * b + 256 * c + 4096 * d + 32768 * e + 1048576 * f + 33554432 * g +
        2147483648 * h) :
    w % 128 = a ∧ w / 128 % 2 = b ∧ w / 256 % 16 = c ∧ w / 4096 % 8 = d ∧ w / 32768 % 32 = e ∧ w
        / 1048576 % 32 = f ∧ w / 33554432 % 64 = g ∧ w / 2147483648 % 2 = h := by
  refine ⟨by omega, by omega, by omega, by omega, by omega, by omega, by omega, by omega⟩

/-- The three windows of the U layout. -/
theorem fields_U (w a b c : Nat) (ha : a < 128) (hb : b < 32) (hc : c < 1048576)
    (hw : w = a + 128 * b + 4096 * c) :
    w % 128 = a ∧ w / 128 % 32 = b ∧ w / 4096 % 1048576 = c := by
  refine ⟨by omega, by omega, by omega⟩

/-- The six windows of the UJ layout. -/
theorem fields_UJ (w a b c d e f : Nat) (ha : a < 128) (hb : b < 32) (hc : c < 256) (hd : d < 2)
    (he : e < 1024) (hf : f < 2)
    (hw : w = a + 128 * b + 4096 * c + 1048576 * d + 2097152 * e + 2147483648 * f) :
    w % 128 = a ∧ w / 128 % 32 = b ∧ w / 4096 % 256 = c ∧ w / 1048576 % 2 = d ∧ w / 2097152 %
        1024 = e ∧ w / 2147483648 % 2 = f := by
  refine ⟨by omega, by omega, by omega, by omega, by omega, by omega⟩

/-! ## The SB and UJ encoders against the decoder -/

/-- What `decode` reads back from an SB word, for every input of `encodeSBType`: opcode,
funct3 and registers modulo their widths, and as immediate bits 11:1 of the offset,
never bit 12. -/
theorem decode_encodeSBType (funct3 : Nat) (rs1 rs2 imm : Int) :
    (decode (encodeSBType 0x63 funct3 rs1 rs2 imm)).opcode = 0x63
      ∧ (decode (encodeSBType 0x63 funct3 rs1 rs2 imm)).funct3 = funct3 % 8
      ∧ ((decode (encodeSBType 0x63 funct3 rs1 rs2 imm)).rs1 : Int) = rs1 % 32
      ∧ ((decode (encodeSBType 0x63 funct3 rs1 rs2 imm)).rs2 : Int) = rs2 % 32
      ∧ (decode (encodeSBType 0x63 funct3 rs1 rs2 imm)).imm = 2 * (imm % 4096 / 2) := by
  have hw := encodeSBType_eq 0x63 funct3 rs1 rs2 imm
  generalize encodeSBType 0x63 funct3 rs1 rs2 imm = w at hw ⊢
  have e1 : ((toU32 rs1 % 32 : Nat) : Int) = rs1 % 32 := by unfold toU32; omega
  have e2 : ((toU32 rs2 % 32 : Nat) : Int) = rs2 % 32 := by unfold toU32; omega
  have e3 : ((2048 * (toU32 imm / 2048 % 2) + 32 * (toU32 imm / 32 % 64)
      + 2 * (toU32 imm / 2 % 16) : Nat) : Int) = 2 * (imm % 4096 / 2) := by
    unfold toU32; omega
  have b1 : toU32 rs1 % 32 < 32 := by omega
  have b2 : toU32 rs2 % 32 < 32 := by omega
  have b3 : toU32 imm / 2048 % 2 < 2 := by omega
  have b4 : toU32 imm / 32 % 64 < 64 := by omega
  have b5 : toU32 imm / 2 % 16 < 16 := by omega
  have b6 : funct3 % 8 < 8 := by omega
  generalize toU32 rs1 % 32 = r1 at hw e1 b1
  generalize toU32 rs2 % 32 = r2 at hw e2 b2
  generalize toU32 imm / 2048 % 2 = i11 at hw e3 b3
  generalize toU32 imm / 32 % 64 = i10 at hw e3 b4
  generalize toU32 imm / 2 % 16 = i4 at hw e3 b5
  generalize funct3 % 8 = f at hw b6
  obtain ⟨f1, f2, f3, f4, f5, f6, f7, f8⟩ := fields_SB w 0x63 i11 i4 f r1 r2 i10 0
    (by norm_num) b3 b5 b6 b1 b2 b4 (by norm_num) (by omega)
  rw [decode_opcode, decode_funct3, decode_rs1, decode_rs2, decode_imm_SB w f1,
    if_neg (by omega), f1, f2, f3, f4, f5, f6, f7, f8]
  clear hw f1 f2 f3 f4 f5 f6 f7 f8
  refine ⟨rfl, rfl, e1, e2, ?_⟩
  rw [if_pos (by omega), ← e3]
  push_cast
  omega

/-- The bits of every word `encodeSBType` builds: all fields as the SB layout
prescribes, except that bit 31 is 0 whatever bit 12 of the offset is. -/
theorem encodeSBType_layout (opcode funct3 : Nat) (rs1 rs2 imm : Int) :
    getBits (encodeSBType opcode funct3 rs1 rs2 imm) 6 0 = opcode % 128
      ∧ getBits (encodeSBType opcode funct3 rs1 rs2 imm) 7 7 = getBits (toU32 imm) 11 11
      ∧ getBits (encodeSBType opcode funct3 rs1 rs2 imm) 11 8 = getBits (toU32 imm) 4 1
      ∧ getBits (encodeSBType opcode funct3 rs1 rs2 imm) 14 12 = funct3 % 8
      ∧ getBits (encodeSBType opcode funct3 rs1 rs2 imm) 19 15 = toU32 rs1 % 32
      ∧ getBits (encodeSBType opcode funct3 rs1 rs2 imm) 24 20 = toU32 rs2 % 32
      ∧ getBits (encodeSBType opcode funct3 rs1 rs2 imm) 30 25 = getBits (toU32 imm) 10 5
      ∧ getBits (encodeSBType opcode funct3 rs1 rs2 imm) 31 31 = 0 := by
  have hw := encodeSBType_eq opcode funct3 rs1 rs2 imm
  generalize encodeSBType opcode funct3 rs1 rs2 imm = w at hw ⊢
  obtain ⟨f1, f2, f3, f4, f5, f6, f7, f8⟩ := fields_SB w (opcode % 128) (toU32 imm / 2048 % 2)
    (toU32 imm / 2 % 16) (funct3 % 8) (toU32 rs1 % 32) (toU32 rs2 % 32) (toU32 imm / 32 % 64) 0
    (by omega) (by omega) (by omega) (by omega) (by omega) (by omega) (by omega) (by norm_num)
    (by omega)
  simp only [getBits_eq]
  norm_num
  exact ⟨f1, f2, f3, f4, f5, f6, f7, f8⟩

/-- The bits of every word `encodeUJType` builds: bit 20 carries bit 1 of the offset and
bits 30:21 carry bits 11:2 of the offset; the other fields are as the UJ layout
prescribes. -/
theorem encodeUJType_layout (opcode : Nat) (rd imm : Int) :
    getBits (encodeUJType opcode rd imm) 6 0 = opcode % 128
      ∧ getBits (encodeUJType opcode rd imm) 11 7 = toU32 rd % 32
      ∧ getBits (encodeUJType opcode rd imm) 19 12 = getBits (toU32 imm) 19 12
      ∧ getBits (encodeUJType opcode rd imm) 20 20 = getBits (toU32 imm) 1 1
      ∧ getBits (encodeUJType opcode rd imm) 30 21 = getBits (toU32 imm) 11 2
      ∧ getBits (encodeUJType opcode rd imm) 31 31 = getBits (toU32 imm) 20 20 := by
  have hw := encodeUJType_eq opcode rd imm
  generalize encodeUJType opcode rd imm = w at hw ⊢
  have e1 : toU32 (imm / 2) / 2048 % 256 = toU32 imm / 4096 % 256 := by unfold toU32; omega
  have e2 : toU32 (imm / 2) % 2 = toU32 imm / 2 % 2 := by unfold toU32; omega
  have e3 : toU32 (imm / 2) / 2 % 1024 = toU32 imm / 4 % 1024 := by unfold toU32; omega
  have e4 : toU32 (imm / 2) / 524288 % 2 = toU32 imm / 1048576 % 2 := by unfold toU32; omega
  rw [e1, e2, e3, e4] at hw
  obtain ⟨f1, f2, f3, f4, f5, f6⟩ := fields_UJ w (opcode % 128) (toU32 rd % 32)
    (toU32 imm / 4096 % 256) (toU32 imm / 2 % 2) (toU32 imm / 4 % 1024)
    (toU32 imm / 1048576 % 2)
    (by omega) (by omega) (by omega) (by omega) (by omega) (by omega) hw
  simp only [getBits_eq]
  norm_num
  exact ⟨f1, f2, f3, f4, f5, f6⟩

/-! ## Register-register instructions through assembler and simulator -/

/-- The names `x0 … x31` parse to their numbers. -/
theorem getRegisterNumber_regName (n : Nat) (h : n < 32) :
    getRegisterNumber (regName n) = some (n : Int) := by
  revert n
  decide

/-- The immediate of a word whose opcode has no immediate format is 0. -/
theorem decode_imm_R (w : Nat) (h : w % 128 = 0x33) : (decode w).imm = 0 := by
  simp only [decode, getBits_eq]
  norm_num
  rw [if_neg (by omega), if_neg (by omega), if_neg (by omega), if_neg (by omega),
    if_neg (by omega)]

/-- Decoding an R-type word gives back all six fields. -/
theorem decode_encodeRType (f3 f7 rd rs1 rs2 : Nat) (h3 : f3 < 8) (h7 : f7 < 128)
    (hd : rd < 32) (h1 : rs1 < 32) (h2 : rs2 < 32) :
    decode (encodeRType 0x33 f3 f7 (rd : Int) (rs1 : Int) (rs2 : Int))
      = { opcode := 0x33, rd := rd, rs1 := rs1, rs2 := rs2, funct3 := f3, funct7 := f7,
          imm := 0 } := by
  have hw := encodeRType_eq 0x33 f3 f7 (rd : Int) (rs1 : Int) (rs2 : Int)
  generalize encodeRType 0x33 f3 f7 (rd : Int) (rs1 : Int) (rs2 : Int) = w at hw ⊢
  have e0 : toU32 (rd : Int) % 32 = rd := by rw [toU32_natCast]; omega
  have e1 : toU32 (rs1 : Int) % 32 = rs1 := by rw [toU32_natCast]; omega
  have e2 : toU32 (rs2 : Int) % 32 = rs2 := by rw [toU32_natCast]; omega
  have e3 : f3 % 8 = f3 := by omega
  have e7 : f7 % 128 = f7 := by omega
  rw [e0, e1, e2, e3, e7] at hw
  obtain ⟨g1, g2, g3, g4, g5, g6⟩ := fields_R w 0x33 rd f3 rs1 rs2 f7 (by norm_num) hd h3 h1 h2
    h7 hw
  rw [decode_eta w, decode_opcode, decode_rd, decode_rs1, decode_rs2, decode_funct3,
    decode_funct7, decode_imm_R w g1, if_neg (by omega), if_neg (by omega), g1, g2, g3, g4, g5,
    g6]

/-- What `encodeInstruction` returns for a register-register line with well-formed
register names. -/
theorem encodeInstruction_rtype (m line : String) (address rd rs1 rs2 op f3 f7 : Nat)
    (symbolTable : SymbolTable) (hd : rd < 32) (h1 : rs1 < 32) (h2 : rs2 < 32)
    (ht : rTable (toUpper m) = some (op, f3, f7)) :
    encodeInstruction ⟨address, m, [regName rd, regName rs1, regName rs2], line⟩ symbolTable
      = some (encodeRType op f3 f7 (rd : Int) (rs1 : Int) (rs2 : Int)) := by
  simp [encodeInstruction, ht, getRegisterNumber_regName, hd, h1, h2]

/-- One cycle on a register-register word for which `execRType` yields a result: the
result is written to `rd` and the program counter advances by 4. -/
theorem step_rtype (s : State) (w f3 f7 rd rs1 rs2 : Nat)
    (hfetch : s.instrMemory.find s.PC = some w)
    (hdec : decode w = { opcode := 0x33, rd := rd, rs1 := rs1, rs2 := rs2, funct3 := f3,
                         funct7 := f7, imm := 0 })
    (hrd : rd ≠ 0) (v : Int) (hv : execRType (decode w) (s.R rs1) (s.R rs2) = some v) :
    ∃ s1, step s = StepResult.next s1
      ∧ s1.R rd = v
      ∧ s1.PC = (s.PC + 4) % 2 ^ 32 := by
  have hw0 : w ≠ 0 := by
    intro h0
    have h := congrArg DecodedInstr.opcode hdec
    rw [h0, decode_opcode] at h
    norm_num at h
  rw [hdec] at hv
  simp [step, hfetch, isTerminationInstr, hw0, hdec, execute, writesBack, hrd, hv]

/-- One cycle on a register-register word for which `execRType` yields no result is not
completed. -/
theorem step_rtype_undef (s : State) (w : Nat) (hfetch : s.instrMemory.find s.PC = some w)
    (hop : (decode w).opcode = 0x33)
    (hv : execRType (decode w) (s.R (decode w).rs1) (s.R (decode w).rs2) = none) :
    step s = StepResult.undef := by
  have hw0 : w ≠ 0 := by
    intro h0
    rw [h0, decode_opcode] at hop
    norm_num at hop
  simp [step, hfetch, isTerminationInstr, hw0, hop, execute, hv]

/-- The shift amount `RB & 0x1F` is `RB mod 32`. -/
theorem shamt_eq (b : Int) : toU32 b &&& 0x1F = (b % 32).toNat := by
  rw [and_mask _ 5 0x1F (by norm_num)]
  unfold toU32
  omega

/-- On each row of the assembler's table the execute stage computes the operation the
specification describes for that mnemonic, the division of `-2^31` by `-1` apart. -/
theorem execRType_spec (M : String) (hM : M ∈ rTypeMnemonics) (rd rs1 rs2 : Nat) (a b : Int)
    (hub : (M = "DIV" ∨ M = "REM") → ¬ (a = -2 ^ 31 ∧ b = -1)) :
    ∃ f3 f7, rTable M = some (0x33, f3, f7) ∧ execTableSpec M = some (f3, f7)
      ∧ f3 < 8 ∧ f7 < 128
      ∧ execRType { opcode := 0x33, rd := rd, rs1 := rs1, rs2 := rs2, funct3 := f3,
                    funct7 := f7, imm := 0 } a b = some (rTypeSpec M a b) := by
  simp only [rTypeMnemonics, List.mem_cons, List.mem_singleton, List.not_mem_nil, or_false] at hM
  rcases hM with h | h | h | h | h | h | h | h | h | h | h | h <;> subst h
  · exact ⟨0, 0x00, by decide, by decide, by decide, by decide, by simp [execRType, rTypeSpec]⟩
  · exact ⟨0, 0x20, by decide, by decide, by decide, by decide, by simp [execRType, rTypeSpec]⟩
  · exact ⟨7, 0x00, by decide, by decide, by decide, by decide, by simp [execRType, rTypeSpec]⟩
  · exact ⟨6, 0x00, by decide, by decide, by decide, by decide, by simp [execRType, rTypeSpec]⟩
  · exact ⟨4, 0x00, by decide, by decide, by decide, by decide, by simp [execRType, rTypeSpec]⟩
  · exact ⟨1, 0x00, by decide, by decide, by decide, by decide,
      by simp [execRType, rTypeSpec, shamt_eq]⟩
  · exact ⟨5, 0x00, by decide, by decide, by decide, by decide,
      by simp [execRType, rTypeSpec, shamt_eq, Nat.shiftRight_eq_div_pow]⟩
  · exact ⟨5, 0x20, by decide, by decide, by decide, by decide,
      by simp [execRType, rTypeSpec, shamt_eq]⟩
  · exact ⟨2, 0x00, by decide, by decide, by decide, by decide, by simp [execRType, rTypeSpec]⟩
  · exact ⟨0, 0x01, by decide, by decide, by decide, by decide, by simp [execRType, rTypeSpec]⟩
  · have hne : ¬ (a = -2 ^ 31 ∧ b = -1) := hub (Or.inl rfl)
    refine ⟨4, 0x01, by decide, by decide, by decide, by decide, ?_⟩
    by_cases hb : b = 0
    · simp [execRType, rTypeSpec, hb]
    · simp [execRType, rTypeSpec, hb]
      intro ha hb1
      exact hne ⟨by rw [ha]; norm_num, hb1⟩
  · have hne : ¬ (a = -2 ^ 31 ∧ b = -1) := hub (Or.inr rfl)
    refine ⟨6, 0x01, by decide, by decide, by decide, by decide, ?_⟩
    by_cases hb : b = 0
    · simp [execRType, rTypeSpec, hb]
    · simp [execRType, rTypeSpec, hb]
      intro ha hb1
      exact hne ⟨by rw [ha]; norm_num, hb1⟩

/-! ## Branches and jumps: where the program counter goes -/

/-- The four branch mnemonics are the keys of `sbTable`. -/
theorem sbTable_some (M : String) (f3 : Nat) (h : sbTable M = some f3) :
    (M = "BEQ" ∧ f3 = 0) ∨ (M = "BNE" ∧ f3 = 1) ∨ (M = "BLT" ∧ f3 = 4) ∨ (M = "BGE" ∧ f3 = 5) := by
  unfold sbTable at h
  split_ifs at h with h1 h2 h3 h4 <;> simp_all

/-- What `encodeInstruction` returns for a branch to a label of the symbol table. -/
theorem encodeInstruction_branch (m line L : String) (A rs1 rs2 f3 T : Nat)
    (symbolTable : SymbolTable) (h1 : rs1 < 32) (h2 : rs2 < 32)
    (ht : sbTable (toUpper m) = some f3) (hL : symbolTable.lookup L = some T) :
    encodeInstruction ⟨A, m, [regName rs1, regName rs2, L], line⟩ symbolTable
      = some (encodeSBType 0x63 f3 (rs1 : Int) (rs2 : Int)
          (wrap32 (wrap32 (toI32 T - toI32 A) - 4))) := by
  rcases sbTable_some _ _ ht with ⟨hm, hf⟩ | ⟨hm, hf⟩ | ⟨hm, hf⟩ | ⟨hm, hf⟩ <;>
    simp [encodeInstruction, hm, hf, rTable, iTable, sTable, sbTable, parseImmOrLabel,
      getLabelOffset, hL, getRegisterNumber_regName, h1, h2]

/-- One cycle on a branch word: the program counter becomes `PC + imm` when the branch
is taken and `PC + 4` otherwise. -/
theorem step_branch (s : State) (w : Nat) (hfetch : s.instrMemory.find s.PC = some w)
    (hop : (decode w).opcode = 0x63) :
    ∃ s1, step s = StepResult.next s1
      ∧ s1.PC = (if branchTaken (decode w).funct3 (s.R (decode w).rs1) (s.R (decode w).rs2)
          then toU32 ((s.PC : Int) + (decode w).imm) else (s.PC + 4) % 2 ^ 32) := by
  have hw0 : w ≠ 0 := by
    intro h0
    rw [h0, decode_opcode] at hop
    norm_num at hop
  by_cases hb : branchTaken (decode w).funct3 (s.R (decode w).rs1) (s.R (decode w).rs2) = true
  · simp [step, hfetch, isTerminationInstr, hw0, hop, execute, hb]
  · simp [step, hfetch, isTerminationInstr, hw0, hop, execute, hb]

/-- A taken branch to a label never arrives there: for a branch at address `A` to a label
bound to `T` (both below `2^31`, `T - A - 4` a multiple of 4 within 32 bits), the next
program counter is `A + ((T - A - 4) mod 4096)`, which differs from `T`. -/
theorem branch_target (m line L : String) (A rs1 rs2 f3 T : Nat) (symbolTable : SymbolTable)
    (s : State) (h1 : rs1 < 32) (h2 : rs2 < 32) (hf3 : sbTable (toUpper m) = some f3)
    (hL : symbolTable.lookup L = some T) (hA : A < 2 ^ 31) (hT : T < 2 ^ 31)
    (hal : ((T : Int) - A) % 4 = 0) (hPC : s.PC = A)
    (hfetch : s.instrMemory.find s.PC
      = encodeInstruction ⟨A, m, [regName rs1, regName rs2, L], line⟩ symbolTable)
    (htaken : branchTaken f3 (s.R rs1) (s.R rs2) = true) :
    ∃ s1, step s = StepResult.next s1 ∧ (s1.PC : Int) = A + ((T : Int) - A - 4) % 4096
      ∧ s1.PC ≠ T := by
  rw [encodeInstruction_branch m line L A rs1 rs2 f3 T symbolTable h1 h2 hf3 hL] at hfetch
  have hf : f3 < 8 := by
    rcases sbTable_some _ _ hf3 with ⟨_, hf⟩ | ⟨_, hf⟩ | ⟨_, hf⟩ | ⟨_, hf⟩ <;> omega
  have hoff : wrap32 (wrap32 (toI32 T - toI32 A) - 4) = (T : Int) - A - 4 := by
    unfold wrap32 toI32 toU32
    split_ifs <;> omega
  rw [hoff] at hfetch
  obtain ⟨d1, d2, d3, d4, d5⟩ := decode_encodeSBType f3 (rs1 : Int) (rs2 : Int) ((T : Int) - A - 4)
  obtain ⟨s1, hs, hpc⟩ := step_branch s _ hfetch d1
  have e3 : (decode (encodeSBType 0x63 f3 (rs1 : Int) (rs2 : Int) ((T : Int) - A - 4))).rs1
      = rs1 := by omega
  have e4 : (decode (encodeSBType 0x63 f3 (rs1 : Int) (rs2 : Int) ((T : Int) - A - 4))).rs2
      = rs2 := by omega
  have e2 : (decode (encodeSBType 0x63 f3 (rs1 : Int) (rs2 : Int) ((T : Int) - A - 4))).funct3
      = f3 := by omega
  rw [e2, e3, e4, htaken, if_pos rfl, d5, hPC] at hpc
  have key : (s1.PC : Int) = A + ((T : Int) - A - 4) % 4096 := by
    rw [hpc]
    unfold toU32
    omega
  refine ⟨s1, hs, key, ?_⟩
  intro hne
  rw [hne] at key
  omega

/-- The branch of the countdown loop as an instance of `branch_target`: taken at
address 8 toward `LOOP = 4`, it leaves the program counter at `8 + ((4 - 8 - 4) mod 4096)`,
that is 4096. -/
theorem branch_target_witness :
    ∃ s1, step bneState = StepResult.next s1 ∧ (s1.PC : Int) = (8 : Nat) + (((4 : Nat) : Int) - (8 : Nat) -
        4) % 4096
      ∧ s1.PC ≠ 4 :=
  branch_target "bne" "bne x1, x0, LOOP" "LOOP" 8 1 0 1 4 [("LOOP", 4)] bneState (by decide)
    (by decide) (by decide) (by decide) (by decide) (by decide) (by decide) (by decide)
    (by decide) (by decide)

/-- What `decode` reads back from a UJ word, for every input of `encodeUJType`: as
immediate, bits 20 and 19:12 of the offset in place, bit 1 of the offset at position 11
and bits 11:2 of the offset at positions 10:1. -/
theorem decode_encodeUJType (rd imm : Int) :
    (decode (encodeUJType 0x6F rd imm)).opcode = 0x6F
      ∧ ((decode (encodeUJType 0x6F rd imm)).rd : Int) = rd % 32
      ∧ (decode (encodeUJType 0x6F rd imm)).imm
          = if imm % 2097152 < 1048576
            then 4096 * (imm / 4096 % 256) + 2048 * (imm / 2 % 2) + 2 * (imm / 4 % 1024)
            else 4096 * (imm / 4096 % 256) + 2048 * (imm / 2 % 2) + 2 * (imm / 4 % 1024)
              - 1048576 := by
  have hw := encodeUJType_eq 0x6F rd imm
  generalize encodeUJType 0x6F rd imm = w at hw ⊢
  have e1 : ((toU32 rd % 32 : Nat) : Int) = rd % 32 := by unfold toU32; omega
  have e2 : ((toU32 (imm / 2) / 2048 % 256 : Nat) : Int) = imm / 4096 % 256 := by
    unfold toU32; omega
  have e3 : ((toU32 (imm / 2) % 2 : Nat) : Int) = imm / 2 % 2 := by unfold toU32; omega
  have e4 : ((toU32 (imm / 2) / 2 % 1024 : Nat) : Int) = imm / 4 % 1024 := by
    unfold toU32; omega
  have e5 : ((toU32 (imm / 2) / 524288 % 2 : Nat) : Int) = imm / 1048576 % 2 := by
    unfold toU32; omega
  have b1 : toU32 rd % 32 < 32 := by omega
  have b2 : toU32 (imm / 2) / 2048 % 256 < 256 := by omega
  have b3 : toU32 (imm / 2) % 2 < 2 := by omega
  have b4 : toU32 (imm / 2) / 2 % 1024 < 1024 := by omega
  have b5 : toU32 (imm / 2) / 524288 % 2 < 2 := by omega
  generalize toU32 rd % 32 = r at hw e1 b1
  generalize toU32 (imm / 2) / 2048 % 256 = i19 at hw e2 b2
  generalize toU32 (imm / 2) % 2 = i11 at hw e3 b3
  generalize toU32 (imm / 2) / 2 % 1024 = i10 at hw e4 b4
  generalize toU32 (imm / 2) / 524288 % 2 = i20 at hw e5 b5
  obtain ⟨f1, f2, f3, f4, f5, f6⟩ := fields_UJ w 0x6F r i19 i11 i10 i20
    (by norm_num) b1 b2 b3 b4 b5 (by omega)
  rw [decode_opcode, decode_rd, decode_imm_UJ w f1, f1, f2, f3, f4, f5, f6]
  clear hw f1 f2 f3 f4 f5 f6
  refine ⟨rfl, e1, ?_⟩
  rw [← e2, ← e3, ← e4]
  have h20 : (imm % 2097152 < 1048576) ↔ i20 = 0 := by omega
  split_ifs <;> omega

/-- What `encodeInstruction` returns for `jal rd, L` with `L` in the symbol table. -/
theorem encodeInstruction_jal (m line L : String) (A rd T : Nat) (symbolTable : SymbolTable)
    (hd : rd < 32) (hm : toUpper m = "JAL") (hL : symbolTable.lookup L = some T) :
    encodeInstruction ⟨A, m, [regName rd, L], line⟩ symbolTable
      = some (encodeUJType 0x6F (rd : Int) (wrap32 (wrap32 (toI32 T - toI32 A) - 4))) := by
  simp [encodeInstruction, hm, rTable, iTable, sTable, sbTable, parseImmOrLabel,
    getLabelOffset, hL, getRegisterNumber_regName, hd]

/-- One cycle on a `JAL` word: the program counter becomes `PC + imm` and, for
`rd ≠ 0`, `R[rd]` becomes `PC + 4`. -/
theorem step_jal (s : State) (w : Nat) (hfetch : s.instrMemory.find s.PC = some w)
    (hop : (decode w).opcode = 0x6F) :
    ∃ s1, step s = StepResult.next s1
      ∧ s1.PC = toU32 ((s.PC : Int) + (decode w).imm)
      ∧ ((decode w).rd ≠ 0 → s1.R (decode w).rd = toI32 (s.PC + 4)) := by
  have hw0 : w ≠ 0 := by
    intro h0
    rw [h0, decode_opcode] at hop
    norm_num at hop
  by_cases hrd : (decode w).rd = 0
  · simp [step, hfetch, isTerminationInstr, hw0, hop, execute, writesBack, hrd]
  · simp [step, hfetch, isTerminationInstr, hw0, hop, execute, writesBack, hrd]

/-- A `jal` to a label never arrives there, while its link value is right: for `jal rd, L`
at address `A` with `L` bound to `T` (both below `2^28`, `T - A` a multiple of 4), the
next program counter differs from `T`, and for `rd ≠ 0` the register `rd` receives
`A + 4`. -/
theorem jal_target (m line L : String) (A rd T : Nat) (symbolTable : SymbolTable)
    (s : State) (hd : rd < 32) (hm : toUpper m = "JAL")
    (hL : symbolTable.lookup L = some T) (hA : A < 2 ^ 28) (hT : T < 2 ^ 28)
    (hal : ((T : Int) - A) % 4 = 0) (hPC : s.PC = A)
    (hfetch : s.instrMemory.find s.PC
      = encodeInstruction ⟨A, m, [regName rd, L], line⟩ symbolTable) :
    ∃ s1, step s = StepResult.next s1 ∧ s1.PC ≠ T ∧ (rd ≠ 0 → s1.R rd = (A : Int) + 4) := by
  rw [encodeInstruction_jal m line L A rd T symbolTable hd hm hL] at hfetch
  have hoff : wrap32 (wrap32 (toI32 T - toI32 A) - 4) = (T : Int) - A - 4 := by
    unfold wrap32 toI32 toU32
    split_ifs <;> omega
  rw [hoff] at hfetch
  obtain ⟨d1, d2, d3⟩ := decode_encodeUJType (rd : Int) ((T : Int) - A - 4)
  obtain ⟨s1, hs, hpc, hlink⟩ := step_jal s _ hfetch d1
  have e2 : (decode (encodeUJType 0x6F (rd : Int) ((T : Int) - A - 4))).rd = rd := by omega
  rw [e2, hPC] at hlink
  rw [d3, hPC] at hpc
  refine ⟨s1, hs, ?_, ?_⟩
  · intro hne
    rw [hne] at hpc
    clear hs hlink hfetch d1 d2 d3 e2 hoff
    generalize ho : (T : Int) - A - 4 = o at hpc
    unfold toU32 at hpc
    split_ifs at hpc <;> omega
  · intro hrd
    rw [hlink hrd]
    unfold toI32
    split_ifs <;> omega

/-- The jump of `jal x1, SKIP` as an instance of `jal_target`: at address 0 toward
`SKIP = 8`, it misses 8 and links `R[1] = 4`. -/
theorem jal_target_witness :
    ∃ s1, step jalState = StepResult.next s1 ∧ s1.PC ≠ 8 ∧ ((1 : Nat) ≠ 0 → s1.R 1 = ((0 : Nat) : Int) + 4) :=
  jal_target "jal" "jal x1, SKIP" "SKIP" 0 1 8 [("SKIP", 8)] jalState (by decide) (by decide)
    (by decide) (by decide) (by decide) (by decide) (by decide) (by decide)

/-! ## The claims -/

/-- C1. The SB round trip fails on negative offsets: `encodeSBType` never sets bit 31,
so the decoded immediate is never negative; the offset `-8` comes back as `4088`. -/
theorem sb_roundtrip_negative_fails :
    decode (encodeSBType 0x63 1 1 0 (-8))
        = { opcode := 0x63, rd := 25, rs1 := 1, rs2 := 0, funct3 := 1, funct7 := 0x3F,
            imm := 4088 }
      ∧ ∀ (funct3 : Nat) (rs1 rs2 imm : Int),
          0 ≤ (decode (encodeSBType 0x63 funct3 rs1 rs2 imm)).imm := by
  refine ⟨by decide, ?_⟩
  intro funct3 rs1 rs2 imm
  rw [(decode_encodeSBType funct3 rs1 rs2 imm).2.2.2.2]
  omega

/-- C2. The UJ round trip fails: the offset 4 comes back as 2, the offset 2 as 2048
and the offset -4 as -2050. -/
theorem uj_roundtrip_fails :
    (decode (encodeUJType 0x6F 1 4)).imm = 2
      ∧ (decode (encodeUJType 0x6F 1 2)).imm = 2048
      ∧ (decode (encodeUJType 0x6F 1 (-4))).imm = -2050
      ∧ (decode (encodeUJType 0x6F 1 4)).opcode = 0x6F
      ∧ (decode (encodeUJType 0x6F 1 4)).rd = 1 := by
  decide

/-- C3. Assembled branches miss their label. The countdown loop runs its body once:
the backward `bne` at address 8 to `LOOP = 4` sends the program counter to 4096, where
the simulator halts with `R[1] = 9`. A forward `beq` at address 0 to `L = 8` sends the
program counter to 4, so the instruction it should skip is executed. -/
theorem branch_misses_label :
    pass2Code loopLines [("LOOP", 4)] = some [(0, 0x00A00093), (4, 0xFFF08093), (8, 0x7E009CE3)]
      ∧ (decode 0x7E009CE3).imm = 4088
      ∧ (runProgram loopLines [("LOOP", 4)] 100).map (fun s => (s.R 1, s.PC, s.clockCycle,
          halted s))
          = some (9, 4096, 3, true)
      ∧ (runProgram forwardBranchLines [("L", 8)] 1).map (fun s => s.PC) = some 4
      ∧ (runProgram forwardBranchLines [("L", 8)] 100).map (fun s => (s.R 1, s.R 3, halted s))
          = some (1, 2, true) := by
  decide

/-- C4. Assembled `jal` misses its label: in `jal x1, SKIP` / `addi x2, x0, 99` /
`SKIP: addi x2, x0, 7` the jump at address 0 to `SKIP = 8` is encoded with offset 4,
decoded as 2, and sends the program counter to 2, where the simulator halts after one
cycle with `R[1] = 4` and `R[2]` still at its initial value. -/
theorem jal_misses_label :
    pass2Code jalLines [("SKIP", 8)] = some [(0, 0x002000EF), (4, 0x06300113), (8, 0x00700113)]
      ∧ (decode 0x002000EF).imm = 2
      ∧ (runProgram jalLines [("SKIP", 8)] 1).map (fun s => s.PC) = some 2
      ∧ (runProgram jalLines [("SKIP", 8)] 100).map
            (fun s => (s.R 1, s.R 2, s.PC, s.clockCycle, halted s))
          = some (4, 0x7FFFFFFC, 2, 1, true) := by
  decide

/-- C5. The SB layout fails at bit 31: in every word `encodeSBType` builds bit 31 is 0,
while bit 12 of the in-range offset `-8` is 1. -/
theorem sb_layout_bit31_fails :
    (∀ (opcode funct3 : Nat) (rs1 rs2 imm : Int),
        getBits (encodeSBType opcode funct3 rs1 rs2 imm) 31 31 = 0)
      ∧ getBits (toU32 (-8)) 12 12 = 1
      ∧ getBits (encodeSBType 0x63 0 0 0 (-8)) 31 31 = 0 := by
  refine ⟨fun opcode funct3 rs1 rs2 imm =>
    (encodeSBType_layout opcode funct3 rs1 rs2 imm).2.2.2.2.2.2.2, by decide, by decide⟩

/-- C6. The UJ layout fails at bits 30:20: for the offset 4, bits 30:21 of the word
hold 1 while `imm[10:1]` is 2; for the offset 2048, bit 20 of the word is 0 while
`imm[11]` is 1 (and bits 30:21 hold 512 while `imm[10:1]` is 0). -/
theorem uj_layout_fails :
    getBits (encodeUJType 0x6F 0 4) 30 21 = 1 ∧ getBits (toU32 4) 10 1 = 2
      ∧ getBits (encodeUJType 0x6F 0 2048) 20 20 = 0 ∧ getBits (toU32 2048) 11 11 = 1
      ∧ getBits (encodeUJType 0x6F 0 2048) 30 21 = 512 ∧ getBits (toU32 2048) 10 1 = 0 := by
  decide

/-- C7. I-type round trip with masking: for opcode `0x13`, `0x03` or `0x67`, funct3 in
`0..7` and any integers `rd`, `rs1`, `imm`, decoding `encodeIType` gives the opcode,
`rd mod 32`, `rs1 mod 32`, `rs2 = 0`, the funct3, `funct7 = 0` and the low 12 bits of
`imm` sign-extended; so with `rd`, `rs1` in `0..31` and `-2048 ≤ imm ≤ 2047` every
field comes back unchanged. -/
theorem itype_roundtrip_masked (opcode funct3 : Nat) (rd rs1 imm : Int)
    (hop : opcode = 0x13 ∨ opcode = 0x03 ∨ opcode = 0x67) (hf : funct3 < 8) :
    decode (encodeIType opcode funct3 rd rs1 imm)
        = { opcode := opcode, rd := (rd % 32).toNat, rs1 := (rs1 % 32).toNat, rs2 := 0,
            funct3 := funct3, funct7 := 0, imm := signExtendSpec (imm % 4096) 12 }
      ∧ (0 ≤ rd → rd < 32 → 0 ≤ rs1 → rs1 < 32 → -2048 ≤ imm → imm ≤ 2047 →
          decode (encodeIType opcode funct3 rd rs1 imm)
            = { opcode := opcode, rd := rd.toNat, rs1 := rs1.toNat, rs2 := 0,
                funct3 := funct3, funct7 := 0, imm := imm }) := by
  have hw := encodeIType_eq opcode funct3 rd rs1 imm
  generalize encodeIType opcode funct3 rd rs1 imm = w at hw ⊢
  have hrd : toU32 rd % 32 = (rd % 32).toNat := by unfold toU32; omega
  have hrs : toU32 rs1 % 32 = (rs1 % 32).toNat := by unfold toU32; omega
  have him : toU32 imm % 4096 = (imm % 4096).toNat := by unfold toU32; omega
  have ho : opcode % 128 = opcode := by omega
  have hf3 : funct3 % 8 = funct3 := by omega
  rw [hrd, hrs, him, ho, hf3] at hw
  obtain ⟨f1, f2, f3, f4, f5⟩ := fields_I w opcode (rd % 32).toNat funct3 (rs1 % 32).toNat
    (imm % 4096).toNat (by omega) (by omega) hf (by omega) (by omega) hw
  have hopw : w % 128 = 0x13 ∨ w % 128 = 0x03 ∨ w % 128 = 0x67 := by rw [f1]; exact hop
  have key : decode w
      = { opcode := opcode, rd := (rd % 32).toNat, rs1 := (rs1 % 32).toNat, rs2 := 0,
          funct3 := funct3, funct7 := 0, imm := signExtendSpec (imm % 4096) 12 } := by
    rw [decode_eta w, decode_opcode, decode_rd, decode_rs1, decode_rs2, decode_funct3,
      decode_funct7, decode_imm_I w hopw, if_pos hopw, if_pos hopw, f1, f2, f3, f4, f5]
    clear hw hopw f1 f2 f3 f4 f5 hrd hrs him
    simp only [DecodedInstr.mk.injEq, signExtendSpec, true_and]
    norm_num
    split_ifs <;> omega
  refine ⟨key, ?_⟩
  intro h1 h2 h3 h4 h5 h6
  rw [key]
  clear hw hopw f1 f2 f3 f4 f5 hrd hrs him key
  simp only [DecodedInstr.mk.injEq, signExtendSpec, true_and]
  refine ⟨by omega, by omega, ?_⟩
  norm_num
  split_ifs <;> omega

/-- Witness for C7: `addi x1, x0, -1` comes back unchanged, and the out-of-range
fields `rd = 33`, `rs1 = -1`, `imm = 5000` come back as `1`, `31` and `904`. -/
theorem itype_roundtrip_masked_witness :
    ((0x13 : Nat) = 0x13 ∨ (0x13 : Nat) = 0x03 ∨ (0x13 : Nat) = 0x67) ∧ (0 : Nat) < 8
      ∧ decode (encodeIType 0x13 0 1 0 (-1))
          = { opcode := 0x13, rd := 1, rs1 := 0, rs2 := 0, funct3 := 0, funct7 := 0, imm := -1 }
      ∧ decode (encodeIType 0x13 0 33 (-1) 5000)
          = { opcode := 0x13, rd := 1, rs1 := 31, rs2 := 0, funct3 := 0, funct7 := 0,
              imm := 904 } :=
  ⟨by decide, by decide,
    (itype_roundtrip_masked 0x13 0 1 0 (-1) (by decide) (by decide)).2 (by decide) (by decide)
      (by decide) (by decide) (by decide) (by decide),
    (itype_roundtrip_masked 0x13 0 33 (-1) 5000 (by decide) (by decide)).1⟩

/-- C8. S-type round trip: for funct3 in `0..7`, `rs1`, `rs2` in `0..31` and
`-2048 ≤ imm ≤ 2047`, decoding `encodeSType 0x23 …` gives opcode `0x23`, the same
funct3, rs1, rs2 and immediate; bits 11:7 of the word carry `imm[4:0]` and bits 31:25
carry `imm[11:5]`. -/
theorem stype_roundtrip (funct3 : Nat) (rs1 rs2 imm : Int) (hf : funct3 < 8)
    (h1 : 0 ≤ rs1 ∧ rs1 < 32) (h2 : 0 ≤ rs2 ∧ rs2 < 32) (hi : -2048 ≤ imm ∧ imm ≤ 2047) :
    (decode (encodeSType 0x23 funct3 rs1 rs2 imm)).opcode = 0x23
      ∧ (decode (encodeSType 0x23 funct3 rs1 rs2 imm)).funct3 = funct3
      ∧ ((decode (encodeSType 0x23 funct3 rs1 rs2 imm)).rs1 : Int) = rs1
      ∧ ((decode (encodeSType 0x23 funct3 rs1 rs2 imm)).rs2 : Int) = rs2
      ∧ (decode (encodeSType 0x23 funct3 rs1 rs2 imm)).imm = imm
      ∧ (getBits (encodeSType 0x23 funct3 rs1 rs2 imm) 11 7 : Int) = imm % 32
      ∧ (getBits (encodeSType 0x23 funct3 rs1 rs2 imm) 31 25 : Int) = imm / 32 % 128 := by
  have hw := encodeSType_eq 0x23 funct3 rs1 rs2 imm
  generalize encodeSType 0x23 funct3 rs1 rs2 imm = w at hw ⊢
  have e1 : toU32 rs1 % 32 = rs1.toNat := by unfold toU32; omega
  have e2 : toU32 rs2 % 32 = rs2.toNat := by unfold toU32; omega
  have e3 : ((toU32 imm % 32 : Nat) : Int) = imm % 32 := by unfold toU32; omega
  have e4 : ((toU32 imm / 32 % 128 : Nat) : Int) = imm / 32 % 128 := by unfold toU32; omega
  have b3 : toU32 imm % 32 < 32 := by omega
  have b4 : toU32 imm / 32 % 128 < 128 := by omega
  have hf3 : funct3 % 8 = funct3 := by omega
  rw [e1, e2, hf3] at hw
  generalize toU32 imm % 32 = lo at hw b3 e3
  generalize toU32 imm / 32 % 128 = hi7 at hw b4 e4
  obtain ⟨f1, f2, f3, f4, f5, f6⟩ := fields_R w 0x23 lo funct3 rs1.toNat rs2.toNat hi7
    (by norm_num) b3 hf (by omega) (by omega) b4 hw
  have g1 : getBits w 11 7 = lo := by rw [getBits_eq]; norm_num; exact f2
  have g2 : getBits w 31 25 = hi7 := by rw [getBits_eq]; norm_num; exact f6
  rw [decode_opcode, decode_funct3, decode_rs1, decode_rs2, decode_imm_S w f1,
    if_neg (by omega), g1, g2, f1, f2, f3, f4, f5, f6]
  clear hw f1 f2 f3 f4 f5 f6 e1 e2 g1 g2
  refine ⟨rfl, rfl, by omega, by omega, ?_, by omega, by omega⟩
  split_ifs <;> omega

/-- Witness for C8: `sw x5, -3(x1)`. -/
theorem stype_roundtrip_witness :
    (decode (encodeSType 0x23 2 1 5 (-3))).opcode = 0x23
      ∧ (decode (encodeSType 0x23 2 1 5 (-3))).funct3 = 2
      ∧ ((decode (encodeSType 0x23 2 1 5 (-3))).rs1 : Int) = 1
      ∧ ((decode (encodeSType 0x23 2 1 5 (-3))).rs2 : Int) = 5
      ∧ (decode (encodeSType 0x23 2 1 5 (-3))).imm = -3
      ∧ (getBits (encodeSType 0x23 2 1 5 (-3)) 11 7 : Int) = (-3) % 32
      ∧ (getBits (encodeSType 0x23 2 1 5 (-3)) 31 25 : Int) = (-3) / 32 % 128 :=
  stype_roundtrip 2 1 5 (-3) (by decide) (by decide) (by decide) (by decide)

/-- C9. U-type round trip: for opcode `0x37` or `0x17`, `rd` in `0..31` and every
integer `imm`, decoding `encodeUType` gives the same opcode and rd, and the immediate
is `(imm mod 2^20) * 4096` read as a signed 32-bit integer. -/
theorem utype_roundtrip (opcode : Nat) (rd imm : Int) (hop : opcode = 0x37 ∨ opcode = 0x17)
    (hrd : 0 ≤ rd ∧ rd < 32) :
    (decode (encodeUType opcode rd imm)).opcode = opcode
      ∧ ((decode (encodeUType opcode rd imm)).rd : Int) = rd
      ∧ (decode (encodeUType opcode rd imm)).imm
          = if (imm % 2 ^ 20) * 4096 < 2 ^ 31 then (imm % 2 ^ 20) * 4096
            else (imm % 2 ^ 20) * 4096 - 2 ^ 32 := by
  have hw := encodeUType_eq opcode rd imm
  generalize encodeUType opcode rd imm = w at hw ⊢
  have e1 : toU32 rd % 32 = rd.toNat := by unfold toU32; omega
  have e2 : ((toU32 imm % 1048576 : Nat) : Int) = imm % 2 ^ 20 := by unfold toU32; omega
  have b2 : toU32 imm % 1048576 < 1048576 := by omega
  have ho : opcode % 128 = opcode := by omega
  rw [e1, ho] at hw
  generalize toU32 imm % 1048576 = v at hw b2 e2
  obtain ⟨f1, f2, f3⟩ := fields_U w opcode rd.toNat v (by omega) (by omega) b2 hw
  rw [decode_opcode, decode_rd, decode_imm_U w (by rw [f1]; exact hop), f1, f2, f3, ← e2]
  clear hw f1 f2 f3 e1
  refine ⟨rfl, by omega, ?_⟩
  unfold toI32
  split_ifs <;> omega

/-- Witness for C9: `lui x1, 0x12345`. -/
theorem utype_roundtrip_witness :
    (decode (encodeUType 0x37 1 0x12345)).opcode = 0x37
      ∧ ((decode (encodeUType 0x37 1 0x12345)).rd : Int) = 1
      ∧ (decode (encodeUType 0x37 1 0x12345)).imm
          = if ((0x12345 : Int) % 2 ^ 20) * 4096 < 2 ^ 31 then ((0x12345 : Int) % 2 ^ 20) * 4096
            else ((0x12345 : Int) % 2 ^ 20) * 4096 - 2 ^ 32 :=
  utype_roundtrip 0x37 1 0x12345 (by decide) (by decide)

/-- The assembler's R-type table and the simulator's R-type dispatch agree wherever the
execute stage yields a result: for a mnemonic that is, uppercased, one of
`ADD SUB AND OR XOR SLL SRL SRA SLT MUL DIV REM`, and `rd ≠ 0`, `rs1`, `rs2` in `0..31`,
the word `encodeInstruction` produces for `M rd, rs1, rs2` decodes to opcode `0x33` with
the funct3 / funct7 pair of the execution table, and, unless it is `DIV` or `REM` of
`-2^31` by `-1`, executing it writes the operation applied to the old `R[rs1]`, `R[rs2]`
into `R[rd]` and advances the program counter by 4. -/
theorem rtype_step_spec (m line : String) (address rd rs1 rs2 : Nat)
    (symbolTable : SymbolTable) (s : State)
    (hM : toUpper m ∈ rTypeMnemonics) (hrd : rd ≠ 0 ∧ rd < 32) (h1 : rs1 < 32) (h2 : rs2 < 32)
    (hfetch : s.instrMemory.find s.PC
      = encodeInstruction ⟨address, m, [regName rd, regName rs1, regName rs2], line⟩ symbolTable)
    (hub : (toUpper m = "DIV" ∨ toUpper m = "REM") → ¬ (s.R rs1 = -2 ^ 31 ∧ s.R rs2 = -1)) :
    ∃ w f3 f7 s1,
      encodeInstruction ⟨address, m, [regName rd, regName rs1, regName rs2], line⟩ symbolTable
          = some w
        ∧ execTableSpec (toUpper m) = some (f3, f7)
        ∧ decode w = { opcode := 0x33, rd := rd, rs1 := rs1, rs2 := rs2, funct3 := f3,
                       funct7 := f7, imm := 0 }
        ∧ step s = StepResult.next s1
        ∧ s1.R rd = rTypeSpec (toUpper m) (s.R rs1) (s.R rs2)
        ∧ s1.PC = (s.PC + 4) % 2 ^ 32 := by
  obtain ⟨f3, f7, ht, he, hf3, hf7, hx⟩ :=
    execRType_spec (toUpper m) hM rd rs1 rs2 (s.R rs1) (s.R rs2) hub
  have henc := encodeInstruction_rtype m line address rd rs1 rs2 0x33 f3 f7 symbolTable hrd.2 h1
    h2 ht
  have hdec := decode_encodeRType f3 f7 rd rs1 rs2 hf3 hf7 hrd.2 h1 h2
  rw [henc] at hfetch
  rw [← hdec] at hx
  obtain ⟨s1, hs, hR, hPC⟩ := step_rtype s _ f3 f7 rd rs1 rs2 hfetch hdec hrd.1 _ hx
  exact ⟨_, f3, f7, s1, henc, he, hdec, hs, hR, hPC⟩

/-- C10. The assembler's R-type table and the simulator's dispatch agree on
the encoding of `div x3, x1, x2` and `rem x3, x1, x2` (opcode `0x33`, funct3 / funct7
`4/1` and `6/1`, as the execution table lists them), but with `R[1] = -2^31` and
`R[2] = -1` the execute stage yields no result: the step is not completed, `R[3]` does not
receive `DIV` or `REM` of the two operands (`-2^31` and `0` modulo `2^32`) and the program
counter does not advance. The state is reached by the program `lui x1, 0x80000` /
`addi x2, x0, -1` / `div x3, x1, x2`, which assembles to three words, runs two cycles and
has no third. The word of `add x3, x1, x2` with `R[1] = 5`, `R[2] = 7`, by contrast, is
executed: it writes 12 to `R[3]` and advances the program counter to 4. -/
theorem div_overflow_not_executed :
    encodeInstruction ⟨8, "div", ["x3", "x1", "x2"], "div x3, x1, x2"⟩ [] = some 0x0220C1B3
      ∧ encodeInstruction ⟨8, "rem", ["x3", "x1", "x2"], "rem x3, x1, x2"⟩ [] = some 0x0220E1B3
      ∧ decode 0x0220C1B3 = { opcode := 0x33, rd := 3, rs1 := 1, rs2 := 2, funct3 := 4,
                              funct7 := 1, imm := 0 }
      ∧ decode 0x0220E1B3 = { opcode := 0x33, rd := 3, rs1 := 1, rs2 := 2, funct3 := 6,
                              funct7 := 1, imm := 0 }
      ∧ execTableSpec "DIV" = some (4, 1) ∧ execTableSpec "REM" = some (6, 1)
      ∧ rTypeSpec "DIV" (-2 ^ 31) (-1) = -2 ^ 31 ∧ rTypeSpec "REM" (-2 ^ 31) (-1) = 0
      ∧ (step (aluState 0x0220C1B3 (-2 ^ 31) (-1))).isUndef = true
      ∧ (step (aluState 0x0220E1B3 (-2 ^ 31) (-1))).isUndef = true
      ∧ (step (aluState 0x0220C1B3 (-2 ^ 31) (-1))).toOption.map (fun s => s.R 3) = none
      ∧ (step (aluState 0x0220E1B3 (-2 ^ 31) (-1))).toOption.map (fun s => s.R 3) = none
      ∧ (Assembler.pass1 divOverflowSource).bind Assembler.pass2
          = some [(0, 0x800000B7), (4, 0xFFF00113), (8, 0x0220C1B3)]
      ∧ (runSource divOverflowSource 2).map (fun s => (s.R 1, s.R 2, s.PC, s.clockCycle))
          = some (-2 ^ 31, -1, 8, 2)
      ∧ (runSource divOverflowSource 3).map (fun s => s.R 3) = none
      ∧ (step addState).toOption.map (fun s => (s.R 3, s.PC)) = some (12, 4) := by
  have hword : encodeInstruction ⟨8, "div", ["x3", "x1", "x2"], "div x3, x1, x2"⟩ []
        = some 0x0220C1B3
      ∧ encodeInstruction ⟨8, "rem", ["x3", "x1", "x2"], "rem x3, x1, x2"⟩ []
        = some 0x0220E1B3 := by
    decide
  have hstep : (step (aluState 0x0220C1B3 (-2 ^ 31) (-1))).isUndef = true
      ∧ (step (aluState 0x0220E1B3 (-2 ^ 31) (-1))).isUndef = true := by
    decide
  have hrun : (Assembler.pass1 divOverflowSource).bind Assembler.pass2
        = some [(0, 0x800000B7), (4, 0xFFF00113), (8, 0x0220C1B3)]
      ∧ (runSource divOverflowSource 2).map (fun s => (s.R 1, s.R 2, s.PC, s.clockCycle))
        = some (-2 ^ 31, -1, 8, 2)
      ∧ (runSource divOverflowSource 3).map (fun s => s.R 3) = none := by
    decide
  refine ⟨hword.1, hword.2, by decide, by decide, by decide, by decide, ?_⟩
  refine ⟨rfl, rfl, hstep.1, hstep.2, by decide, by decide, ?_⟩
  exact ⟨hrun.1, hrun.2.1, hrun.2.2, by decide⟩

/-! ## The execution step and the memory segments -/

theorem lookup_cons_nat (k1 k v : Nat) (m : List (Nat × Nat)) :
    List.lookup k1 ((k, v) :: m) = if k1 = k then some v else List.lookup k1 m := by
  by_cases h : k1 = k
  · subst h
    simp [List.lookup]
  · have hb : (k1 == k) = false := by simpa using h
    simp [List.lookup, hb, h]

/-- Looking up a key after the assignment `m[k] = v`. -/
theorem AddrMap.find_insert (m : AddrMap) (k v k1 : Nat) :
    AddrMap.find (AddrMap.insert m k v) k1 = if k1 = k then some v else AddrMap.find m k1 := by
  unfold AddrMap.find
  induction m with
  | nil => simp [AddrMap.insert, lookup_cons_nat]
  | cons p rest ih =>
    obtain ⟨k2, v2⟩ := p
    simp only [AddrMap.insert]
    by_cases h1 : k < k2
    · rw [if_pos h1, lookup_cons_nat]
    · by_cases h2 : k = k2
      · subst h2
        rw [if_neg h1, if_pos rfl, lookup_cons_nat, lookup_cons_nat]
        by_cases h : k1 = k <;> simp [h]
      · rw [if_neg h1, if_neg h2, lookup_cons_nat, lookup_cons_nat, ih]
        by_cases h3 : k1 = k2
        · subst h3
          have h4 : ¬ k1 = k := fun h => h2 h.symm
          simp [h4]
        · simp [h3]

theorem step_R0 (s s1 : State) (h : step s = StepResult.next s1) : s1.R 0 = 0 := by
  unfold step at h
  split at h
  · exact absurd h (by simp)
  · split_ifs at h
    dsimp only at h
    split at h
    · exact absurd h (by simp)
    · simp only [StepResult.next.injEq] at h
      rw [← h]
      simp

/-- A completed turn of the loop counts one cycle. -/
theorem step_clock (s s1 : State) (h : step s = StepResult.next s1) :
    s1.clockCycle = s.clockCycle + 1 := by
  unfold step at h
  split at h
  · exact absurd h (by simp)
  · split_ifs at h
    dsimp only at h
    split at h
    · exact absurd h (by simp)
    · simp only [StepResult.next.injEq] at h
      rw [← h]

theorem run_R0 (n : Nat) (s s1 : State) (h0 : s.R 0 = 0) (h : run n s = some s1) :
    s1.R 0 = 0 := by
  induction n generalizing s with
  | zero =>
    simp only [run, Option.some.injEq] at h
    rw [← h]
    exact h0
  | succ n ih =>
    simp only [run] at h
    cases hs : step s with
    | halt =>
      rw [hs] at h
      simp only [Option.some.injEq] at h
      rw [← h]
      exact h0
    | undef =>
      rw [hs] at h
      exact absurd h (by simp)
    | next s2 =>
      rw [hs] at h
      exact ih s2 (step_R0 s s2 hs) h

/-- Clearing bit 0 of a 32-bit word with `& ~1U`. -/
theorem and_clear_bit0 (x : Nat) (hx : x < 2 ^ 32) : x &&& (2 ^ 32 - 2) = 2 * (x / 2) := by
  apply Nat.eq_of_testBit_eq
  intro i
  have h2 : (2 ^ 32 - 2 : Nat) = (2 ^ 31 - 1) <<< 1 := by decide
  have h3 : 2 * (x / 2) = (x >>> 1) <<< 1 := by
    rw [Nat.shiftLeft_eq, Nat.shiftRight_eq_div_pow]; omega
  rw [h3, Nat.testBit_and, h2, Nat.testBit_shiftLeft, Nat.testBit_shiftLeft,
    Nat.testBit_two_pow_sub_one, Nat.testBit_shiftRight]
  by_cases h1 : 1 ≤ i
  · have e : 1 + (i - 1) = i := by omega
    by_cases h31 : i - 1 < 31
    · simp [h1, h31, e]
    · have hf := testBit_high x i hx (by omega)
      simp [h1, h31, e, hf]
  · simp [h1]

/-- A word whose opcode field is not 0 is not the sentinel. -/
theorem ne_zero_of_opcode (w : Nat) (h : (decode w).opcode ≠ 0) : w ≠ 0 := by
  intro h0
  rw [h0, decode_opcode] at h
  exact h rfl

/-- One cycle on a fetched word other than the sentinel on which the execute stage
yields a result, field by field. -/
theorem step_fields (s : State) (w : Nat) (hfetch : s.instrMemory.find s.PC = some w)
    (hw : w ≠ 0) (out : ExecOut) (hex : executeWord s w = some out) :
    ∃ s1, step s = StepResult.next s1
      ∧ (∀ i, s1.R i = if i = 0 then 0
          else if writesBack (decode w).opcode = true ∧ (decode w).rd ≠ 0 ∧ i = (decode w).rd
            then out.RY else s.R i)
      ∧ s1.PC = out.nextPC
      ∧ s1.clockCycle = s.clockCycle + 1
      ∧ s1.instrMemory = s.instrMemory
      ∧ s1.dataSegment = out.dataSegment
      ∧ s1.stackSegment = out.stackSegment := by
  unfold executeWord at hex
  simp only [step, hfetch, isTerminationInstr, hw, decide_False, Bool.false_eq_true, if_false,
    hex]
  refine ⟨_, rfl, ?_, rfl, rfl, rfl, rfl, rfl⟩
  intro i
  by_cases hi : i = 0
  · simp [hi]
  · by_cases h1 : writesBack (decode w).opcode = true ∧ (decode w).rd ≠ 0
    · by_cases h2 : i = (decode w).rd
      · simp [hi, h1, h2]
      · simp [hi, h1, h2]
    · simp only [hi, if_false, h1]
      have h3 : ¬ (writesBack (decode w).opcode = true ∧ (decode w).rd ≠ 0
          ∧ i = (decode w).rd) := fun h => h1 ⟨h.1, h.2.1⟩
      simp [h3]

/-- One cycle on a fetched word on which the execute stage yields no result is not
completed. -/
theorem step_undef (s : State) (w : Nat) (hfetch : s.instrMemory.find s.PC = some w)
    (hw : w ≠ 0) (hex : executeWord s w = none) : step s = StepResult.undef := by
  unfold executeWord at hex
  simp only [step, hfetch, isTerminationInstr, hw, decide_False, Bool.false_eq_true, if_false,
    hex]

/-- The execute stage yields no result only on the register-register opcode, when
`execRType` yields none. -/
theorem execute_eq_none (s : State) (d : DecodedInstr) (RA RB RM : Int) :
    execute s d RA RB RM = none ↔ d.opcode = 0x33 ∧ execRType d RA RB = none := by
  by_cases h33 : d.opcode = 0x33
  · simp [execute, h33]
  · simp only [h33, false_and, iff_false]
    unfold execute
    simp only [if_neg h33]
    by_cases h13 : d.opcode = 0x13
    · simp [h13]
    · by_cases h03 : d.opcode = 0x03
      · simp only [h03]
        norm_num
        split
        · simp
        · split_ifs <;> simp
      · by_cases h23 : d.opcode = 0x23
        · simp only [h23]
          norm_num
          split
          · simp
          · split <;> simp
        · simp only [if_neg h13, if_neg h03, if_neg h23]
          split_ifs <;> simp

/-- A completed turn on a fetched word, field by field, in terms of what the execute
stage yielded. -/
theorem step_next_fields (s s1 : State) (w : Nat)
    (hfetch : s.instrMemory.find s.PC = some w) (hs : step s = StepResult.next s1) :
    ∃ out, executeWord s w = some out
      ∧ (∀ i, s1.R i = if i = 0 then 0
          else if writesBack (decode w).opcode = true ∧ (decode w).rd ≠ 0 ∧ i = (decode w).rd
            then out.RY else s.R i)
      ∧ s1.PC = out.nextPC
      ∧ s1.clockCycle = s.clockCycle + 1
      ∧ s1.instrMemory = s.instrMemory
      ∧ s1.dataSegment = out.dataSegment
      ∧ s1.stackSegment = out.stackSegment := by
  have hw0 : w ≠ 0 := by
    intro h0
    rw [h0] at hfetch
    simp [step, hfetch, isTerminationInstr] at hs
  cases hex : executeWord s w with
  | none =>
    rw [step_undef s w hfetch hw0 hex] at hs
    exact absurd hs (by simp)
  | some out =>
    obtain ⟨t, ht, h⟩ := step_fields s w hfetch hw0 out hex
    rw [hs] at ht
    simp only [StepResult.next.injEq] at ht
    subst ht
    exact ⟨out, rfl, h⟩

/-- Outside the register-register opcode the execute stage always yields a result. -/
theorem executeWord_isSome (s : State) (w : Nat) (hop : (decode w).opcode ≠ 0x33) :
    ∃ out, executeWord s w = some out := by
  cases h : executeWord s w with
  | some out => exact ⟨out, rfl⟩
  | none =>
    unfold executeWord at h
    exact absurd ((execute_eq_none _ _ _ _ _).1 h).1 hop

/-- C16. `R[0]` is always zero: in every state the loop reaches from the initial
register state, whatever the memories hold, `R[0] = 0`; and one executed instruction
leaves `R[0] = 0` from any state, whatever the word. -/
theorem r0_always_zero :
    (∀ (instrMemory : AddrMap) (dataSegment stackSegment : MemSegment) (n : Nat) (s : State),
        run n (initState instrMemory dataSegment stackSegment) = some s → s.R 0 = 0)
      ∧ ∀ (s s1 : State), step s = StepResult.next s1 → s1.R 0 = 0 :=
  ⟨fun im ds ss n s h => run_R0 n (initState im ds ss) s rfl h, step_R0⟩

/-- Witness for C16: the store `sw x1, 0(x2)`, whose rd field is 0, is executed and
leaves `R[0] = 0`; so does the run of that one-word program from the initial state. -/
theorem r0_always_zero_witness :
    (step swState).isNext = true
      ∧ (step swState).toOption.map (fun s => s.R 0) = some 0
      ∧ (run 5 (initState [(0, 0x00112023)] { memory := [] } { memory := [] })).isSome = true
      ∧ (run 5 (initState [(0, 0x00112023)] { memory := [] } { memory := [] })).map
          (fun s => s.R 0) = some 0 := by
  refine ⟨by decide, ?_, by decide, ?_⟩
  · cases h : step swState with
    | halt => exact absurd (h ▸ (by decide : (step swState).isNext = true)) (by decide)
    | undef => exact absurd (h ▸ (by decide : (step swState).isNext = true)) (by decide)
    | next s1 => simp [StepResult.toOption, r0_always_zero.2 swState s1 h]
  · cases h : run 5 (initState [(0, 0x00112023)] { memory := [] } { memory := [] }) with
    | none =>
      exact absurd (h ▸ (by decide :
        (run 5 (initState [(0, 0x00112023)] { memory := [] } { memory := [] })).isSome
          = true)) (by decide)
    | some s => simp [r0_always_zero.1 _ _ _ 5 s h]

/-- C17. Frame of the register file: from a state with `R[0] = 0`, a fetched word whose
opcode is none of `0x33, 0x13, 0x17, 0x37, 0x03, 0x6F, 0x67` is executed (unless it is
the sentinel `0`, on which the loop is left) and the register file after the step is the
register file before it. -/
theorem regs_unchanged_without_writeback (s : State) (w : Nat) (h0 : s.R 0 = 0)
    (hfetch : s.instrMemory.find s.PC = some w)
    (hop : (decode w).opcode ∉ [0x33, 0x13, 0x17, 0x37, 0x03, 0x6F, 0x67]) :
    (w ≠ 0 → ∃ s1, step s = StepResult.next s1 ∧ s1.R = s.R)
      ∧ (w = 0 → step s = StepResult.halt) := by
  simp only [List.mem_cons, List.mem_singleton, List.not_mem_nil, or_false, not_or] at hop
  obtain ⟨h1, h2, h3, h4, h5, h6, h7⟩ := hop
  constructor
  · intro hw
    have hwb : writesBack (decode w).opcode = false := by simp [writesBack, *]
    obtain ⟨out, hex⟩ := executeWord_isSome s w h1
    obtain ⟨s1, hs, hR, _⟩ := step_fields s w hfetch hw out hex
    refine ⟨s1, hs, ?_⟩
    funext i
    rw [hR i]
    by_cases hi : i = 0
    · simp [hi, h0]
    · simp [hi, hwb]
  · intro hw
    simp [step, hfetch, isTerminationInstr, hw]

/-- Witness for C17: the store `sw x1, 0(x2)` (opcode `0x23`). -/
theorem regs_unchanged_without_writeback_witness :
    ((0x00112023 : Nat) ≠ 0 → ∃ s1, step swState = StepResult.next s1 ∧ s1.R = swState.R)
      ∧ ((0x00112023 : Nat) = 0 → step swState = StepResult.halt) :=
  regs_unchanged_without_writeback swState 0x00112023 (by decide) (by decide) (by decide)

/-- C18. Branch step: a word with opcode `0x63` and funct3 in `{0, 1, 4, 5}` is
executed; the branch is taken exactly when the condition of its funct3 holds between
the register values `R[rs1]` and `R[rs2]`; taken, the next program counter is
`(PC + imm) mod 2^32`, untaken it is `PC + 4` (in `uint32_t`, so without wrap-around
whenever `PC + 4 < 2^32`). -/
theorem branch_step (s : State) (w : Nat) (hfetch : s.instrMemory.find s.PC = some w)
    (hop : (decode w).opcode = 0x63) (hf3 : (decode w).funct3 ∈ [0, 1, 4, 5]) :
    ∃ s1, step s = StepResult.next s1
      ∧ (branchCondSpec (decode w).funct3 (s.R (decode w).rs1) (s.R (decode w).rs2) →
          s1.PC = (((s.PC : Int) + (decode w).imm) % 2 ^ 32).toNat)
      ∧ (¬ branchCondSpec (decode w).funct3 (s.R (decode w).rs1) (s.R (decode w).rs2) →
          s1.PC = (s.PC + 4) % 2 ^ 32 ∧ (s.PC + 4 < 2 ^ 32 → s1.PC = s.PC + 4)) := by
  obtain ⟨s1, hs, hpc⟩ := step_branch s w hfetch hop
  refine ⟨s1, hs, ?_, ?_⟩
  · intro hc
    have ht : branchTaken (decode w).funct3 (s.R (decode w).rs1) (s.R (decode w).rs2) = true := by
      rcases hc with ⟨hf, hc⟩ | ⟨hf, hc⟩ | ⟨hf, hc⟩ | ⟨hf, hc⟩ <;> simp [branchTaken, hf, hc]
    rw [hpc, if_pos ht]
    rfl
  · intro hc
    have ht : ¬ branchTaken (decode w).funct3 (s.R (decode w).rs1) (s.R (decode w).rs2) = true := by
      intro ht
      apply hc
      simp only [List.mem_cons, List.mem_singleton, List.not_mem_nil, or_false] at hf3
      rcases hf3 with hf | hf | hf | hf <;> simp [branchTaken, hf] at ht <;>
        simp [branchCondSpec, hf, ht]
    rw [hpc, if_neg ht]
    exact ⟨rfl, fun hlt => Nat.mod_eq_of_lt hlt⟩

/-- Witness for C18: `beq x1, x2, 16` at address 8 with `R[1] = R[2]` goes to 24. -/
theorem branch_step_witness :
    ∃ s1, step beqState = StepResult.next s1
      ∧ (branchCondSpec (decode 0x00208863).funct3 (beqState.R (decode 0x00208863).rs1)
            (beqState.R (decode 0x00208863).rs2) →
          s1.PC = (((beqState.PC : Int) + (decode 0x00208863).imm) % 2 ^ 32).toNat)
      ∧ (¬ branchCondSpec (decode 0x00208863).funct3 (beqState.R (decode 0x00208863).rs1)
            (beqState.R (decode 0x00208863).rs2) →
          s1.PC = (beqState.PC + 4) % 2 ^ 32
            ∧ (beqState.PC + 4 < 2 ^ 32 → s1.PC = beqState.PC + 4)) :=
  branch_step beqState 0x00208863 (by decide) (by decide) (by decide)

/-- C19. `JALR` step: a word with opcode `0x67` is executed; the next program counter is
`(R[rs1] + imm) mod 2^32` with bit 0 cleared, from the value `R[rs1]` had before the step;
for `rd ≠ 0` the step sets `R[rd]` to the old `PC + 4` (as a 32-bit pattern, and as a
number when `PC + 4 < 2^31`). -/
theorem jalr_step (s : State) (w : Nat) (hfetch : s.instrMemory.find s.PC = some w)
    (hop : (decode w).opcode = 0x67) :
    ∃ s1, step s = StepResult.next s1
      ∧ s1.PC = 2 * ((((s.R (decode w).rs1 + (decode w).imm) % 2 ^ 32).toNat) / 2)
      ∧ ((decode w).rd ≠ 0 →
          toU32 (s1.R (decode w).rd) = (s.PC + 4) % 2 ^ 32
            ∧ (s.PC + 4 < 2 ^ 31 → s1.R (decode w).rd = (s.PC : Int) + 4)) := by
  have hw0 : w ≠ 0 := ne_zero_of_opcode w (by rw [hop]; decide)
  have hclr := and_clear_bit0 (toU32 (s.R (decode w).rs1 + (decode w).imm)) (toU32_lt _)
  have hlink : toU32 (toI32 (s.PC + 4)) = (s.PC + 4) % 2 ^ 32
      ∧ (s.PC + 4 < 2 ^ 31 → toI32 (s.PC + 4) = (s.PC : Int) + 4) := by
    unfold toU32 toI32
    constructor
    · split_ifs <;> omega
    · intro hlt
      split_ifs <;> omega
  obtain ⟨out, hex⟩ := executeWord_isSome s w (by rw [hop]; decide)
  obtain ⟨s1, hs, hR, hPC, _⟩ := step_fields s w hfetch hw0 out hex
  simp only [executeWord, execute, hop] at hex
  norm_num at hex
  have hpc : out.nextPC
      = toU32 (s.R (decode w).rs1 + (decode w).imm) &&& (2 ^ 32 - 2) := by
    rw [← hex]
    rfl
  have hry : out.RY = toI32 (s.PC + 4) := by
    rw [← hex]
  refine ⟨s1, hs, ?_, ?_⟩
  · rw [hPC, hpc, hclr]
    rfl
  · intro hrd
    have hwb : writesBack (decode w).opcode = true := by rw [hop]; decide
    rw [hR, if_neg hrd, if_pos ⟨hwb, hrd, rfl⟩, hry]
    exact hlink

/-- Witness for C19: `jalr x1, 5(x1)` at address 4 with `R[1] = 100` (so `rd = rs1`)
goes to `104` and links `R[1] = 8`. -/
theorem jalr_step_witness :
    ∃ s1, step jalrState = StepResult.next s1
      ∧ s1.PC = 2 * ((((jalrState.R (decode 0x005080E7).rs1 + (decode 0x005080E7).imm)
          % 2 ^ 32).toNat) / 2)
      ∧ ((decode 0x005080E7).rd ≠ 0 →
          toU32 (s1.R (decode 0x005080E7).rd) = (jalrState.PC + 4) % 2 ^ 32
            ∧ (jalrState.PC + 4 < 2 ^ 31 →
                s1.R (decode 0x005080E7).rd = (jalrState.PC : Int) + 4)) :=
  jalr_step jalrState 0x005080E7 (by decide) (by decide)

/-- Bitwise or of a number below `2^k` with a multiple of `2^k` is their sum. -/
theorem or_eq_add_low (a b k : Nat) (ha : a < 2 ^ k) (hb : b % 2 ^ k = 0) : a ||| b = a + b := by
  rw [Nat.lor_comm, or_eq_add b a k hb ha, Nat.add_comm]

/-- Four fields in disjoint, ascending windows: their bitwise or is their sum. -/
theorem or_chain4_low (a b c d k1 k2 k3 : Nat) (ha : a < 2 ^ k1) (hb : b % 2 ^ k1 = 0)
    (hab : a + b < 2 ^ k2) (hc : c % 2 ^ k2 = 0) (habc : a + b + c < 2 ^ k3)
    (hd : d % 2 ^ k3 = 0) : a ||| b ||| c ||| d = a + b + c + d := by
  rw [or_eq_add_low a b k1 ha hb, or_eq_add_low (a + b) c k2 hab hc,
    or_eq_add_low (a + b + c) d k3 habc hd]

/-- The bytes of a segment after `writeWord`: the four bytes of the value at the four
addresses, every other key as before. -/
theorem writeWord_find (m : MemSegment) (a : Nat) (v : Int) (k : Nat) :
    (m.writeWord a v).memory.find k
      = if k = (a + 3) % 2 ^ 32 then some (toU32 (v / 2 ^ 24) % 256)
        else if k = (a + 2) % 2 ^ 32 then some (toU32 (v / 2 ^ 16) % 256)
        else if k = (a + 1) % 2 ^ 32 then some (toU32 (v / 2 ^ 8) % 256)
        else if k = a % 2 ^ 32 then some (toU32 v % 256)
        else m.memory.find k := by
  simp only [MemSegment.writeWord, AddrMap.find_insert, and_mask _ 8 0xFF (by norm_num)]
  norm_num

/-- C20. Segment write/read round trip: after `writeWord(a, v)` with `v` a signed 32-bit
value, `readWord(a)` is `v`; `readByte(a + i)`, read as an unsigned byte, is byte `i` of
`v` (least significant first) for `i = 0..3`; `readByte` at every address other than
these four (modulo `2^32`) is what it was; an address with no byte in the map reads as 0,
and a segment that was never written reads as 0 everywhere. -/
theorem segment_write_read (m : MemSegment) (a : Nat) (v : Int)
    (hv : -2 ^ 31 ≤ v ∧ v < 2 ^ 31) :
    (m.writeWord a v).readWord a = v
      ∧ (∀ i, i < 4 → (m.writeWord a v).readByte (a + i) % 256 = v / 2 ^ (8 * i) % 256)
      ∧ (∀ b, (∀ i, i < 4 → b % 2 ^ 32 ≠ (a + i) % 2 ^ 32) →
          (m.writeWord a v).readByte b = m.readByte b)
      ∧ (∀ b, m.memory.find (b % 2 ^ 32) = none → m.readByte b = 0)
      ∧ (∀ b, ({ memory := [] } : MemSegment).readByte b = 0) := by
  have k0 : (a + 0) % 2 ^ 32 ≠ (a + 1) % 2 ^ 32 := by omega
  have k1 : (a + 0) % 2 ^ 32 ≠ (a + 2) % 2 ^ 32 := by omega
  have k2 : (a + 0) % 2 ^ 32 ≠ (a + 3) % 2 ^ 32 := by omega
  have k3 : (a + 1) % 2 ^ 32 ≠ (a + 2) % 2 ^ 32 := by omega
  have k4 : (a + 1) % 2 ^ 32 ≠ (a + 3) % 2 ^ 32 := by omega
  have k5 : (a + 2) % 2 ^ 32 ≠ (a + 3) % 2 ^ 32 := by omega
  have k6 : (a + 0) % 2 ^ 32 = a % 2 ^ 32 := by simp
  have f0 : (m.writeWord a v).memory.find ((a + 0) % 2 ^ 32) = some (toU32 v % 256) := by
    rw [writeWord_find, if_neg k2, if_neg k1, if_neg k0, if_pos k6]
  have f1 : (m.writeWord a v).memory.find ((a + 1) % 2 ^ 32)
      = some (toU32 (v / 2 ^ 8) % 256) := by
    rw [writeWord_find, if_neg k4, if_neg k3, if_pos rfl]
  have f2 : (m.writeWord a v).memory.find ((a + 2) % 2 ^ 32)
      = some (toU32 (v / 2 ^ 16) % 256) := by
    rw [writeWord_find, if_neg k5, if_pos rfl]
  have f3 : (m.writeWord a v).memory.find ((a + 3) % 2 ^ 32)
      = some (toU32 (v / 2 ^ 24) % 256) := by
    rw [writeWord_find, if_pos rfl]
  refine ⟨?_, ?_, ?_, ?_, ?_⟩
  · simp only [MemSegment.readWord, f0, f1, f2, f3, Nat.shiftLeft_eq]
    norm_num
    have b0 : toU32 v % 256 < 256 := by omega
    have b1 : toU32 (v / 256) % 256 < 256 := by omega
    have b2 : toU32 (v / 65536) % 256 < 256 := by omega
    have b3 : toU32 (v / 16777216) % 256 < 256 := by omega
    have e0 : toU32 v % 256 % 4294967296 = toU32 v % 256 := by omega
    have e1 : toU32 (v / 256) % 256 * 256 % 4294967296 = toU32 (v / 256) % 256 * 256 := by omega
    have e2 : toU32 (v / 65536) % 256 * 65536 % 4294967296
        = toU32 (v / 65536) % 256 * 65536 := by omega
    have e3 : toU32 (v / 16777216) % 256 * 16777216 % 4294967296
        = toU32 (v / 16777216) % 256 * 16777216 := by omega
    simp only [e0, e1, e2, e3]
    rw [or_chain4_low _ _ _ _ 8 16 24 (by omega) (by omega) (by omega) (by omega) (by omega)
      (by omega)]
    have c0 : ((toU32 v % 256 : Nat) : Int) = v % 256 := by unfold toU32; omega
    have c1 : ((toU32 (v / 256) % 256 : Nat) : Int) = v / 256 % 256 := by unfold toU32; omega
    have c2 : ((toU32 (v / 65536) % 256 : Nat) : Int) = v / 65536 % 256 := by
      unfold toU32; omega
    have c3 : ((toU32 (v / 16777216) % 256 : Nat) : Int) = v / 16777216 % 256 := by
      unfold toU32; omega
    generalize toU32 v % 256 = x0 at b0 c0 ⊢
    generalize toU32 (v / 256) % 256 = x1 at b1 c1 ⊢
    generalize toU32 (v / 65536) % 256 = x2 at b2 c2 ⊢
    generalize toU32 (v / 16777216) % 256 = x3 at b3 c3 ⊢
    unfold toI32
    split_ifs <;> omega
  · intro i hi
    have hcases : i = 0 ∨ i = 1 ∨ i = 2 ∨ i = 3 := by omega
    rcases hcases with h | h | h | h <;> subst h
    · simp only [MemSegment.readByte, f0]
      norm_num
      unfold toU32
      split_ifs <;> omega
    · simp only [MemSegment.readByte, f1]
      norm_num
      unfold toU32
      split_ifs <;> omega
    · simp only [MemSegment.readByte, f2]
      norm_num
      unfold toU32
      split_ifs <;> omega
    · simp only [MemSegment.readByte, f3]
      norm_num
      unfold toU32
      split_ifs <;> omega
  · intro b hb
    have h0 := hb 0 (by norm_num)
    have h1 := hb 1 (by norm_num)
    have h2 := hb 2 (by norm_num)
    have h3 := hb 3 (by norm_num)
    simp only [MemSegment.readByte]
    rw [writeWord_find, if_neg h3, if_neg h2, if_neg h1, if_neg (by rw [← k6]; exact h0)]
  · intro b hb
    simp only [MemSegment.readByte, hb]
  · intro b
    simp [MemSegment.readByte, AddrMap.find]

/-- Witness for C20: writing `0xDEADBEEF` (as a signed value) at `0x10000000` into an
empty segment. -/
theorem segment_write_read_witness :
    (({ memory := [] } : MemSegment).writeWord 0x10000000 (-559038737)).readWord 0x10000000
        = -559038737
      ∧ (∀ i, i < 4 →
          (({ memory := [] } : MemSegment).writeWord 0x10000000 (-559038737)).readByte
              (0x10000000 + i) % 256 = (-559038737 : Int) / 2 ^ (8 * i) % 256)
      ∧ (∀ b, (∀ i, i < 4 → b % 2 ^ 32 ≠ (0x10000000 + i) % 2 ^ 32) →
          (({ memory := [] } : MemSegment).writeWord 0x10000000 (-559038737)).readByte b
            = ({ memory := [] } : MemSegment).readByte b)
      ∧ (∀ b, ({ memory := [] } : MemSegment).memory.find (b % 2 ^ 32) = none →
          ({ memory := [] } : MemSegment).readByte b = 0)
      ∧ (∀ b, ({ memory := [] } : MemSegment).readByte b = 0) :=
  segment_write_read { memory := [] } 0x10000000 (-559038737) (by decide)

/-! ## Numerals: spelling and parsing -/

/-- The digits `Nat.toDigitsCore` produces: a non-empty list of digits below the base,
most significant first, whose value is the number. -/
theorem toDigitsCore_spec (b : Nat) (hb : 2 ≤ b) :
    ∀ (fuel n : Nat) (ds : List Char), n < fuel →
      ∃ L : List Nat, L ≠ [] ∧ (∀ d ∈ L, d < b)
        ∧ Nat.toDigitsCore b fuel n ds = L.map Nat.digitChar ++ ds
        ∧ ∀ acc, L.foldl (fun a d => a * b + d) acc = acc * b ^ L.length + n := by
  intro fuel
  induction fuel with
  | zero => intro n ds h; exact absurd h (Nat.not_lt_zero _)
  | succ fuel ih =>
    intro n ds hn
    have hpos : 0 < b := by omega
    by_cases h0 : n / b = 0
    · refine ⟨[n % b], by simp, ?_, ?_, ?_⟩
      · intro d hd
        simp only [List.mem_singleton] at hd
        subst hd
        exact Nat.mod_lt _ hpos
      · simp [Nat.toDigitsCore, h0]
      · intro acc
        have hlt : n < b := by
          rcases Nat.div_eq_zero_iff hpos |>.mp h0 with h
          exact h
        simp [Nat.mod_eq_of_lt hlt]
    · have hn' : n / b < fuel := by
        have h1 : n / b < n := Nat.div_lt_self (by
          rcases Nat.eq_zero_or_pos n with h | h
          · subst h; simp at h0
          · exact h) hb
        omega
      obtain ⟨L, hne, hlt, heq, hval⟩ := ih (n / b) (Nat.digitChar (n % b) :: ds) hn'
      refine ⟨L ++ [n % b], by simp, ?_, ?_, ?_⟩
      · intro d hd
        rcases List.mem_append.mp hd with h | h
        · exact hlt d h
        · simp only [List.mem_singleton] at h
          subst h
          exact Nat.mod_lt _ hpos
      · simp [Nat.toDigitsCore, h0, heq]
      · intro acc
        rw [List.foldl_append, hval acc]
        simp only [List.foldl_cons, List.foldl_nil, List.length_append, List.length_singleton]
        have := Nat.div_add_mod n b
        rw [pow_succ]
        nlinarith [Nat.div_add_mod n b]

/-- The digits of `Nat.toDigits`. -/
theorem toDigits_spec (b : Nat) (hb : 2 ≤ b) (n : Nat) :
    ∃ L : List Nat, L ≠ [] ∧ (∀ d ∈ L, d < b)
      ∧ Nat.toDigits b n = L.map Nat.digitChar
      ∧ L.foldl (fun a d => a * b + d) 0 = n := by
  obtain ⟨L, h1, h2, h3, h4⟩ := toDigitsCore_spec b hb (n + 1) n [] (Nat.lt_succ_self n)
  refine ⟨L, h1, h2, by simpa [Nat.toDigits] using h3, ?_⟩
  simpa using h4 0

/-- Scanning a run of digit characters accumulates their value and counts them. -/
theorem scanDigits_digits (b : Nat) (f : Char → Char)
    (hf : ∀ d, d < b → digitValue b (f (Nat.digitChar d)) = some d) (L : List Nat)
    (hL : ∀ d ∈ L, d < b) (rest : List Char) (acc cnt : Nat) :
    scanDigits b (L.map (fun d => f (Nat.digitChar d)) ++ rest) acc cnt
      = scanDigits b rest (L.foldl (fun a d => a * b + d) acc) (cnt + L.length) := by
  induction L generalizing acc cnt with
  | nil => simp
  | cons d L ih =>
    have hd : d < b := hL d (List.mem_cons_self _ _)
    have h := ih (fun x hx => hL x (List.mem_cons_of_mem _ hx)) (acc * b + d) (cnt + 1)
    simp only [List.map_cons, List.cons_append, List.foldl_cons, List.length_cons]
    rw [scanDigits, hf d hd]
    simp only []
    rw [h]
    congr 1
    omega

/-- Facts about the sixteen digit characters, in either letter case: each has its value
in base 16, none is white space, a sign, a separator or the letter `x`. -/
theorem digitChar_facts (upper : Bool) :
    ∀ d, d < 16 →
      digitValue 16 (if upper then (Nat.digitChar d).toUpper else Nat.digitChar d) = some d
        ∧ isSpace (if upper then (Nat.digitChar d).toUpper else Nat.digitChar d) = false
        ∧ (if upper then (Nat.digitChar d).toUpper else Nat.digitChar d) ≠ '-'
        ∧ (if upper then (Nat.digitChar d).toUpper else Nat.digitChar d) ≠ '+'
        ∧ (if upper then (Nat.digitChar d).toUpper else Nat.digitChar d) ≠ 'x'
        ∧ (if upper then (Nat.digitChar d).toUpper else Nat.digitChar d) ≠ 'X' := by
  cases upper <;> decide

/-- Facts about the ten decimal digit characters. -/
theorem decDigitChar_facts :
    ∀ d, d < 10 →
      digitValue 10 (Nat.digitChar d) = some d
        ∧ isSpace (Nat.digitChar d) = false
        ∧ Nat.digitChar d ≠ '-' ∧ Nat.digitChar d ≠ '+'
        ∧ Nat.digitChar d ≠ 'x' ∧ Nat.digitChar d ≠ 'X' := by
  decide

theorem takeSign_of_ne (c : Char) (cs : List Char) (h1 : c ≠ '-') (h2 : c ≠ '+') :
    takeSign (c :: cs) = (false, c :: cs) := by
  unfold takeSign
  split
  · rename_i heq; simp only [List.cons.injEq] at heq; exact absurd heq.1 h1
  · rename_i heq; simp only [List.cons.injEq] at heq; exact absurd heq.1 h2
  · rfl

/-- The call `std::stoi` on a run of decimal digits, with or without a minus sign in
front: the value, provided it fits `int`. -/
theorem stoi_digits (neg : Bool) (L : List Nat) (hne : L ≠ []) (hL : ∀ d ∈ L, d < 10)
    (hr : (if neg then -((L.foldl (fun a d => a * 10 + d) 0 : Nat) : Int)
            else ((L.foldl (fun a d => a * 10 + d) 0 : Nat) : Int)) ∈ Set.Ico (-(2 : Int) ^ 31) (2 ^ 31)) :
    stoi (String.mk ((if neg then ['-'] else []) ++ L.map Nat.digitChar))
      = some (if neg then -((L.foldl (fun a d => a * 10 + d) 0 : Nat) : Int)
              else ((L.foldl (fun a d => a * 10 + d) 0 : Nat) : Int)) := by
  obtain ⟨d0, L', rfl⟩ := List.exists_cons_of_ne_nil hne
  have hd0 := decDigitChar_facts d0 (hL d0 (List.mem_cons_self _ _))
  have hscan := scanDigits_digits 10 id (fun d hd => (decDigitChar_facts d hd).1) (d0 :: L') hL
    [] 0 0
  simp only [id, List.append_nil, Nat.zero_add] at hscan
  have hscan0 : scanDigits 10 [] (List.foldl (fun a d => a * 10 + d) 0 (d0 :: L'))
      (d0 :: L').length = (List.foldl (fun a d => a * 10 + d) 0 (d0 :: L'), (d0 :: L').length) := rfl
  rw [hscan0] at hscan
  simp only [Set.mem_Ico] at hr
  cases neg
  · simp only [Bool.false_eq_true, if_false, List.nil_append] at hr ⊢
    simp only [stoi, List.map_cons, List.dropWhile_cons, hd0.2.1, Bool.false_eq_true, if_false,
      takeSign_of_ne _ _ hd0.2.2.1 hd0.2.2.2.1]
    rw [← List.map_cons, hscan]
    simp only [List.length_cons]
    rw [if_neg (by omega), if_neg (by omega)]
  · simp only [if_true, List.singleton_append] at hr ⊢
    have hsp : isSpace '-' = false := by decide
    simp only [stoi, List.dropWhile_cons, hsp, Bool.false_eq_true, if_false, takeSign]
    rw [hscan]
    simp only [List.length_cons, if_true]
    rw [if_neg (by omega), if_neg (by omega)]

/-- The characters of a decimal spelling: the digits of the absolute value, after a
minus sign for a negative number. -/
theorem decimalLiteral_eq (N : Int) :
    decimalLiteral N
      = String.mk ((if decide (N < 0) then ['-'] else []) ++ Nat.toDigits 10 N.natAbs) := by
  cases N with
  | ofNat n =>
    have h : ¬ ((n : Int) < 0) := by omega
    simp [decimalLiteral, toString, Nat.repr, List.asString, h]
  | negSucc m =>
    have h : Int.negSucc m < 0 := Int.negSucc_lt_zero m
    simp only [decimalLiteral, toString, Nat.repr, List.asString, h, decide_True, if_true,
      Int.natAbs]
    rfl

/-- Parsing the decimal spelling of a 32-bit signed integer with `std::stoi` gives the
integer back. -/
theorem stoi_decimalLiteral (N : Int) (hN : -2 ^ 31 ≤ N ∧ N < 2 ^ 31) :
    stoi (decimalLiteral N) = some N := by
  obtain ⟨L, hne, hlt, heq, hval⟩ := toDigits_spec 10 (by norm_num) N.natAbs
  rw [decimalLiteral_eq, heq]
  have hr : (if decide (N < 0) then -((L.foldl (fun a d => a * 10 + d) 0 : Nat) : Int)
      else ((L.foldl (fun a d => a * 10 + d) 0 : Nat) : Int)) = N := by
    rw [hval]
    by_cases h : N < 0
    · simp only [h, decide_True, if_true]; omega
    · simp only [h, decide_False, Bool.false_eq_true, if_false]; omega
  have := stoi_digits (decide (N < 0)) L hne hlt (by rw [hr]; exact ⟨by omega, by omega⟩)
  rw [this, hr]

/-- A text whose second character is not the letter `x` goes to `std::stoi`. -/
theorem parseImmediate_eq_stoi (s : String)
    (h : ∀ c, s.data.get? 1 = some c → c ≠ 'x' ∧ c ≠ 'X') : parseImmediate s = stoi s := by
  unfold parseImmediate
  split
  · rename_i x _ _ heq
    have hx := h x (by rw [heq]; rfl)
    rw [if_neg (by intro hc; rcases hc with hc | hc; exact hx.1 hc; exact hx.2 hc)]
  · rfl

/-- The function `parseImmediate` on the decimal spelling of a 32-bit signed integer. -/
theorem parseImmediate_decimalLiteral (N : Int) (hN : -2 ^ 31 ≤ N ∧ N < 2 ^ 31) :
    parseImmediate (decimalLiteral N) = some N := by
  rw [parseImmediate_eq_stoi, stoi_decimalLiteral N hN]
  obtain ⟨L, hne, hlt, heq, hval⟩ := toDigits_spec 10 (by norm_num) N.natAbs
  rw [decimalLiteral_eq, heq]
  intro c hc
  obtain ⟨d0, L', rfl⟩ := List.exists_cons_of_ne_nil hne
  by_cases h : N < 0
  · simp only [h, decide_True, if_true, List.singleton_append, List.map_cons, List.get?_cons_succ,
      List.get?_cons_zero, Option.some.injEq] at hc
    subst hc
    have := decDigitChar_facts d0 (hlt d0 (List.mem_cons_self _ _))
    exact ⟨this.2.2.2.2.1, this.2.2.2.2.2⟩
  · simp only [h, decide_False, Bool.false_eq_true, if_false, List.nil_append, List.map_cons,
      List.get?_cons_succ] at hc
    cases L' with
    | nil => simp at hc
    | cons d1 L2 =>
      simp only [List.map_cons, List.get?_cons_zero, Option.some.injEq] at hc
      subst hc
      have := decDigitChar_facts d1 (hlt d1 (by simp))
      exact ⟨this.2.2.2.2.1, this.2.2.2.2.2⟩

/-- The function `parseImmediate` on a hexadecimal spelling of a number below `2^63`:
the number, truncated to 32 bits and read as signed. -/
theorem parseImmediate_hexLiteral (bigX upper : Bool) (v : Nat) (hv : v < 2 ^ 63) :
    parseImmediate (hexLiteral bigX upper v) = some (toI32 v) := by
  obtain ⟨L, hne, hlt, heq, hval⟩ := toDigits_spec 16 (by norm_num) v
  obtain ⟨d0, L', rfl⟩ := List.exists_cons_of_ne_nil hne
  have hd0 := digitChar_facts upper d0 (hlt d0 (List.mem_cons_self _ _))
  have hscan := scanDigits_digits 16 (fun c => if upper then c.toUpper else c)
    (fun d hd => (digitChar_facts upper d hd).1) (d0 :: L') hlt [] 0 0
  simp only [List.append_nil, Nat.zero_add] at hscan
  have hscan0 : scanDigits 16 [] (List.foldl (fun a d => a * 16 + d) 0 (d0 :: L'))
      (d0 :: L').length = (List.foldl (fun a d => a * 16 + d) 0 (d0 :: L'), (d0 :: L').length) := rfl
  rw [hscan0, hval] at hscan
  have h0sp : isSpace '0' = false := by decide
  have hx : (if bigX = true then 'X' else 'x') = 'x' ∨ (if bigX = true then 'X' else 'x') = 'X' := by
    cases bigX <;> simp
  have hsome : (digitValue 16 (if upper = true then (Nat.digitChar d0).toUpper
      else Nat.digitChar d0)).isSome = true := by rw [hd0.1]; rfl
  simp only [parseImmediate, hexLiteral, heq, List.map_cons, hx, if_true, strtol16,
    List.dropWhile_cons, h0sp, Bool.false_eq_true, if_false,
    takeSign_of_ne '0' _ (by decide) (by decide), dropHexPrefix, hsome, and_self]
  have e : List.map (fun c => if upper = true then c.toUpper else c)
      (List.map Nat.digitChar L')
      = List.map (fun d => if upper = true then (Nat.digitChar d).toUpper else Nat.digitChar d)
          L' := by
    rw [List.map_map]; rfl
  simp only [List.map_cons] at hscan
  rw [e, hscan]
  simp only []
  rw [if_neg (by omega), if_neg (by omega)]
  simp only [wrap32, toI32, toU32]
  congr 1
  split_ifs <;> omega

/-! ## Immediate instructions through assembler and simulator -/

/-- The three immediate mnemonics are the keys of `iTable`. -/
theorem iTable_some (M : String) (op f3 : Nat) (h : iTable M = some (op, f3)) :
    (M = "ADDI" ∧ op = 0x13 ∧ f3 = 0) ∨ (M = "ANDI" ∧ op = 0x13 ∧ f3 = 7)
      ∨ (M = "ORI" ∧ op = 0x13 ∧ f3 = 6) := by
  unfold iTable at h
  split_ifs at h with h1 h2 h3 <;> simp_all

/-- A label of the symbol table resolves to its address minus the address of the
instruction. -/
theorem parseImmOrLabel_label (symbolTable : SymbolTable) (L : String) (A T : Nat)
    (hL : symbolTable.lookup L = some T) :
    parseImmOrLabel symbolTable L A = some (wrap32 (toI32 T - toI32 A)) := by
  simp [parseImmOrLabel, getLabelOffset, hL]

/-- A text that is not a key of the symbol table is parsed as a literal. -/
theorem parseImmOrLabel_literal (symbolTable : SymbolTable) (s : String) (A : Nat)
    (hs : symbolTable.lookup s = none) :
    parseImmOrLabel symbolTable s A = parseImmediate s := by
  simp [parseImmOrLabel, hs]

/-- What `encodeInstruction` returns for `ADDI`, `ANDI`, `ORI` with well-formed register
names, in terms of what `parseImmOrLabel` makes of the third operand. -/
theorem encodeInstruction_itype (m line imms : String) (A rd rs1 op f3 : Nat)
    (symbolTable : SymbolTable) (imm : Int) (hd : rd < 32) (h1 : rs1 < 32)
    (ht : iTable (toUpper m) = some (op, f3))
    (hp : parseImmOrLabel symbolTable imms A = some imm) :
    encodeInstruction ⟨A, m, [regName rd, regName rs1, imms], line⟩ symbolTable
      = some (encodeIType op f3 (rd : Int) (rs1 : Int) imm) := by
  rcases iTable_some _ _ _ ht with ⟨hm, ho, hf⟩ | ⟨hm, ho, hf⟩ | ⟨hm, ho, hf⟩ <;>
    simp [encodeInstruction, hm, ho, hf, rTable, iTable, hp, getRegisterNumber_regName, hd, h1]

/-- Decoding an I-type word: the fields modulo their widths, the immediate as the low
12 bits sign-extended. -/
theorem decode_encodeIType (opcode funct3 : Nat) (rd rs1 imm : Int)
    (hop : opcode = 0x13 ∨ opcode = 0x03 ∨ opcode = 0x67) (hf : funct3 < 8) :
    decode (encodeIType opcode funct3 rd rs1 imm)
      = { opcode := opcode, rd := (rd % 32).toNat, rs1 := (rs1 % 32).toNat, rs2 := 0,
          funct3 := funct3, funct7 := 0, imm := signExtendSpec (imm % 4096) 12 } := by
  have hw := encodeIType_eq opcode funct3 rd rs1 imm
  generalize encodeIType opcode funct3 rd rs1 imm = w at hw ⊢
  have hrd : toU32 rd % 32 = (rd % 32).toNat := by unfold toU32; omega
  have hrs : toU32 rs1 % 32 = (rs1 % 32).toNat := by unfold toU32; omega
  have him : toU32 imm % 4096 = (imm % 4096).toNat := by unfold toU32; omega
  have ho : opcode % 128 = opcode := by omega
  have hf3 : funct3 % 8 = funct3 := by omega
  rw [hrd, hrs, him, ho, hf3] at hw
  obtain ⟨f1, f2, f3, f4, f5⟩ := fields_I w opcode (rd % 32).toNat funct3 (rs1 % 32).toNat
    (imm % 4096).toNat (by omega) (by omega) hf (by omega) (by omega) hw
  have hopw : w % 128 = 0x13 ∨ w % 128 = 0x03 ∨ w % 128 = 0x67 := by rw [f1]; exact hop
  rw [decode_eta w, decode_opcode, decode_rd, decode_rs1, decode_rs2, decode_funct3,
    decode_funct7, decode_imm_I w hopw, if_pos hopw, if_pos hopw, f1, f2, f3, f4, f5]
  clear hw hopw f1 f2 f3 f4 f5 hrd hrs him
  simp only [DecodedInstr.mk.injEq, signExtendSpec, true_and]
  norm_num
  split_ifs <;> omega

/-- Sign extension from 12 bits leaves a value of the 12-bit signed range alone. -/
theorem signExtendSpec_of_range (N : Int) (hN : -2048 ≤ N ∧ N ≤ 2047) :
    signExtendSpec (N % 4096) 12 = N ∧ signExtendSpec N 12 = N := by
  simp only [signExtendSpec]
  norm_num
  split_ifs <;> omega

/-- One cycle on an immediate-ALU word: for `rd ≠ 0` the result of `execIType` on
`R[rs1]` and the immediate is written to `rd`; the program counter advances by 4 and the
memories stay as they are. -/
theorem step_itype (s : State) (w : Nat) (hfetch : s.instrMemory.find s.PC = some w)
    (hop : (decode w).opcode = 0x13) :
    ∃ s1, step s = StepResult.next s1
      ∧ (∀ i, s1.R i = if i = 0 then 0
          else if i = (decode w).rd then execIType (decode w) (s.R (decode w).rs1) (decode w).imm
          else s.R i)
      ∧ s1.PC = (s.PC + 4) % 2 ^ 32
      ∧ s1.instrMemory = s.instrMemory
      ∧ s1.dataSegment = s.dataSegment ∧ s1.stackSegment = s.stackSegment := by
  have hw0 : w ≠ 0 := ne_zero_of_opcode w (by rw [hop]; decide)
  have hwb : writesBack (decode w).opcode = true := by rw [hop]; decide
  have hex : executeWord s w
      = some { RZ := execIType (decode w) (s.R (decode w).rs1) (decode w).imm,
               RY := execIType (decode w) (s.R (decode w).rs1) (decode w).imm,
               MDR := s.MDR, nextPC := (s.PC + 4) % 2 ^ 32,
               dataSegment := s.dataSegment, stackSegment := s.stackSegment } := by
    simp [executeWord, execute, hop]
  obtain ⟨s1, hs, hR, hPC, _, hI, hD, hS⟩ := step_fields s w hfetch hw0 _ hex
  refine ⟨s1, hs, ?_, by rw [hPC], hI, by rw [hD], by rw [hS]⟩
  intro i
  rw [hR i]
  by_cases hi : i = 0
  · simp [hi]
  · by_cases h2 : i = (decode w).rd
    · have : (decode w).rd ≠ 0 := fun h => hi (h2.trans h)
      simp [hi, h2, hwb, this]
    · simp [hi, h2]

/-- One cycle on a `LUI` word: for `rd ≠ 0` the immediate is written to `rd`; the program
counter advances by 4 and the memories stay as they are. -/
theorem step_lui (s : State) (w : Nat) (hfetch : s.instrMemory.find s.PC = some w)
    (hop : (decode w).opcode = 0x37) :
    ∃ s1, step s = StepResult.next s1
      ∧ (∀ i, s1.R i = if i = 0 then 0 else if i = (decode w).rd then (decode w).imm
          else s.R i)
      ∧ s1.PC = (s.PC + 4) % 2 ^ 32
      ∧ s1.instrMemory = s.instrMemory
      ∧ s1.dataSegment = s.dataSegment ∧ s1.stackSegment = s.stackSegment := by
  have hw0 : w ≠ 0 := ne_zero_of_opcode w (by rw [hop]; decide)
  have hwb : writesBack (decode w).opcode = true := by rw [hop]; decide
  have hex : executeWord s w
      = some { RZ := (decode w).imm, RY := (decode w).imm,
               MDR := s.MDR, nextPC := (s.PC + 4) % 2 ^ 32,
               dataSegment := s.dataSegment, stackSegment := s.stackSegment } := by
    simp [executeWord, execute, hop]
  obtain ⟨s1, hs, hR, hPC, _, hI, hD, hS⟩ := step_fields s w hfetch hw0 _ hex
  refine ⟨s1, hs, ?_, by rw [hPC], hI, by rw [hD], by rw [hS]⟩
  intro i
  rw [hR i]
  by_cases hi : i = 0
  · simp [hi]
  · by_cases h2 : i = (decode w).rd
    · have : (decode w).rd ≠ 0 := fun h => hi (h2.trans h)
      simp [hi, h2, hwb, this]
    · simp [hi, h2]

/-- C11, counterexample. A label operand of `ADDI` is not taken absolute: for
`addi x1, x0, L` at address 4 with `L` bound to 8, the immediate handed to `encodeIType`
is 4, not 8; the two words differ and the word decodes to immediate 4. -/
theorem itype_label_not_absolute :
    encodeInstruction ⟨4, "addi", ["x1", "x0", "L"], "addi x1, x0, L"⟩ [("L", 8)]
        = some (encodeIType 0x13 0 1 0 4)
      ∧ encodeIType 0x13 0 1 0 4 ≠ encodeIType 0x13 0 1 0 8
      ∧ (encodeInstruction ⟨4, "addi", ["x1", "x0", "L"], "addi x1, x0, L"⟩ [("L", 8)]).map
          (fun w => (decode w).imm) = some 4 := by
  decide

/-- C11, amended. Label operands of `ADDI`, `ANDI`, `ORI` are relative to the
instruction: for a label `L` bound to `T` and an instruction at address `A`, the
immediate `encodeInstruction` hands to `encodeIType` is the 32-bit signed difference of
`T` and `A`, which is `T - A` for addresses below `2^31` (and so `T` itself only at
`A = 0`). -/
theorem itype_label_pc_relative (m line L : String) (A rd rs1 T : Nat)
    (symbolTable : SymbolTable) (hm : toUpper m ∈ ["ADDI", "ANDI", "ORI"])
    (hd : rd < 32) (h1 : rs1 < 32) (hL : symbolTable.lookup L = some T) :
    ∃ op f3, iTable (toUpper m) = some (op, f3)
      ∧ encodeInstruction ⟨A, m, [regName rd, regName rs1, L], line⟩ symbolTable
          = some (encodeIType op f3 (rd : Int) (rs1 : Int) (wrap32 (toI32 T - toI32 A)))
      ∧ (A < 2 ^ 31 → T < 2 ^ 31 → wrap32 (toI32 T - toI32 A) = (T : Int) - A) := by
  have ht : ∃ op f3, iTable (toUpper m) = some (op, f3) := by
    simp only [List.mem_cons, List.mem_singleton, List.not_mem_nil, or_false] at hm
    rcases hm with h | h | h <;> rw [h]
    · exact ⟨0x13, 0, by decide⟩
    · exact ⟨0x13, 7, by decide⟩
    · exact ⟨0x13, 6, by decide⟩
  obtain ⟨op, f3, ht⟩ := ht
  refine ⟨op, f3, ht, ?_, ?_⟩
  · exact encodeInstruction_itype m line L A rd rs1 op f3 symbolTable _ hd h1 ht
      (parseImmOrLabel_label symbolTable L A T hL)
  · intro hA hT
    unfold wrap32 toI32 toU32
    split_ifs <;> omega

/-- Witness for C11 (amended): `addi x1, x0, L` at address 4 with `L` bound to 8. -/
theorem itype_label_pc_relative_witness :
    ∃ op f3, iTable (toUpper "addi") = some (op, f3)
      ∧ encodeInstruction ⟨4, "addi", [regName 1, regName 0, "L"], "addi x1, x0, L"⟩ [("L", 8)]
          = some (encodeIType op f3 ((1 : Nat) : Int) ((0 : Nat) : Int)
              (wrap32 (toI32 8 - toI32 4)))
      ∧ (4 < 2 ^ 31 → 8 < 2 ^ 31 → wrap32 (toI32 8 - toI32 4) = ((8 : Nat) : Int) - (4 : Nat)) :=
  itype_label_pc_relative "addi" "addi x1, x0, L" "L" 4 1 0 8 [("L", 8)] (by decide) (by decide)
    (by decide) (by decide)

/-- C12. For every `N` with `-2048 ≤ N ≤ 2047`, the word `encodeInstruction` produces for
`ADDI x1, x0, N` (`N` in decimal, not a label of the symbol table), executed from a state
with `R[0] = 0`, leaves `R[1] = N`, which is `sign_extend(N, 12)`. -/
theorem addi_literal (N : Int) (hN : -2048 ≤ N ∧ N ≤ 2047) (m line : String) (A : Nat)
    (symbolTable : SymbolTable) (s : State) (hm : toUpper m = "ADDI")
    (hst : symbolTable.lookup (decimalLiteral N) = none) (h0 : s.R 0 = 0)
    (hfetch : s.instrMemory.find s.PC
      = encodeInstruction ⟨A, m, ["x1", "x0", decimalLiteral N], line⟩ symbolTable) :
    ∃ s1, step s = StepResult.next s1 ∧ s1.R 1 = N ∧ N = signExtendSpec N 12 := by
  have hx1 : "x1" = regName 1 := by decide
  have hx0 : "x0" = regName 0 := by decide
  have hp : parseImmOrLabel symbolTable (decimalLiteral N) A = some N := by
    rw [parseImmOrLabel_literal _ _ _ hst, parseImmediate_decimalLiteral N ⟨by omega, by omega⟩]
  have henc := encodeInstruction_itype m line (decimalLiteral N) A 1 0 0x13 0 symbolTable N
    (by norm_num) (by norm_num) (by rw [hm]; decide) hp
  rw [hx1, hx0, henc] at hfetch
  have hdec := decode_encodeIType 0x13 0 ((1 : Nat) : Int) ((0 : Nat) : Int) N (Or.inl rfl)
    (by norm_num)
  have hsx := signExtendSpec_of_range N hN
  rw [hsx.1] at hdec
  obtain ⟨s1, hs, hR, _⟩ := step_itype s _ hfetch (by rw [hdec])
  refine ⟨s1, hs, ?_, hsx.2.symm⟩
  rw [hR 1, hdec]
  have e1 : ((((1 : Nat) : Int)) % 32).toNat = 1 := by decide
  have e0 : ((((0 : Nat) : Int)) % 32).toNat = 0 := by decide
  simp only [e1, e0, h0, execIType]
  norm_num
  unfold wrap32 toI32 toU32
  split_ifs <;> omega

/-- Witness for C12: `addi x1, x0, -7`. -/
theorem addi_literal_witness : ∃ s1, step addiState = StepResult.next s1 ∧ s1.R 1 = -7
    ∧ (-7 : Int) = signExtendSpec (-7) 12 :=
  addi_literal (-7) (by decide) "addi" "addi x1, x0, -7" 0 [] addiState (by decide) (by decide)
    (by decide) (by decide)

/-- C13, counterexample. For `k = 1` the assembled program `addi x1, x0, -1` /
`srli x2, x1, 1` / `srai x3, x1, 1` leaves `R[2] = 0x7FFFFFFC` and `R[3] = 0`, not
`0x7FFFFFFF` and `-1`: the assembler emits the word 0 for `srli` and `srai`. -/
theorem shifts_not_assembled :
    pass2Code (shiftLines 1) [] = some [(0, 0xFFF00093), (4, 0), (8, 0)]
      ∧ (runProgram (shiftLines 1) [] 100).map (fun s => (s.R 2, s.R 3))
          = some (0x7FFFFFFC, 0)
      ∧ (runProgram (shiftLines 1) [] 100).map (fun s => (s.R 2, s.R 3))
          ≠ some (0x7FFFFFFF, -1) := by
  decide

/-- C13, amended. For every shift amount `k` in `0..31`: the assembler has no `SRLI` and
`SRAI`, it emits the word `0x00000000` for both lines, and the run of the assembled
listing halts at address 4 with `R[1] = -1`, `R[2]` and `R[3]` as initialised; with the
two lines encoded as I-type words (funct3 5, immediates `k` and `0x400 + k`) the run
halts with `R[2]` equal to `0xFFFFFFFF` shifted right logically by `k` and `R[3] = -1`. -/
theorem shifts_through_simulator (k : Nat) (hk : k < 32) :
    pass2Code (shiftLines k) [] = some [(0, 0xFFF00093), (4, 0), (8, 0)]
      ∧ (runProgram (shiftLines k) [] 100).map (fun s => (s.R 1, s.R 2, s.R 3))
          = some (-1, 0x7FFFFFFC, 0)
      ∧ (runProgram (shiftLines k) [] 100).map (fun s => (s.PC, halted s)) = some (4, true)
      ∧ (run 100 (initState (shiftWords k) { memory := [] } { memory := [] })).map
          (fun s => (toU32 (s.R 2), s.R 3, halted s)) = some ((2 ^ 32 - 1) / 2 ^ k, -1, true) := by
  have h1 : ∀ k, k < 32 →
      pass2Code (shiftLines k) [] = some [(0, 0xFFF00093), (4, 0), (8, 0)]
        ∧ (runProgram (shiftLines k) [] 100).map (fun s => (s.R 1, s.R 2, s.R 3))
            = some (-1, 0x7FFFFFFC, 0)
        ∧ (runProgram (shiftLines k) [] 100).map (fun s => (s.PC, halted s))
            = some (4, true) := by
    decide
  have h2 : ∀ k, k < 32 →
      (run 100 (initState (shiftWords k) { memory := [] } { memory := [] })).map
        (fun s => (toU32 (s.R 2), s.R 3, halted s))
          = some ((2 ^ 32 - 1) / 2 ^ k, -1, true) := by
    decide
  exact ⟨(h1 k hk).1, (h1 k hk).2.1, (h1 k hk).2.2, h2 k hk⟩

/-- Witness for C13 (amended): `k = 1`, where the hand-encoded words give
`R[2] = 0x7FFFFFFF`. -/
theorem shifts_through_simulator_witness :
    (pass2Code (shiftLines 1) [] = some [(0, 0xFFF00093), (4, 0), (8, 0)]
      ∧ (runProgram (shiftLines 1) [] 100).map (fun s => (s.R 1, s.R 2, s.R 3))
          = some (-1, 0x7FFFFFFC, 0)
      ∧ (runProgram (shiftLines 1) [] 100).map (fun s => (s.PC, halted s)) = some (4, true)
      ∧ (run 100 (initState (shiftWords 1) { memory := [] } { memory := [] })).map
          (fun s => (toU32 (s.R 2), s.R 3, halted s)) = some ((2 ^ 32 - 1) / 2 ^ 1, -1, true))
      ∧ (2 ^ 32 - 1) / 2 ^ 1 = 0x7FFFFFFF :=
  ⟨shifts_through_simulator 1 (by decide), by decide⟩

/-- What `encodeInstruction` returns for `LUI` with a well-formed register name, in terms
of what `parseImmOrLabel` makes of the second operand. -/
theorem encodeInstruction_lui (m line imms : String) (A rd : Nat) (symbolTable : SymbolTable)
    (imm : Int) (hd : rd < 32) (hm : toUpper m = "LUI")
    (hp : parseImmOrLabel symbolTable imms A = some imm) :
    encodeInstruction ⟨A, m, [regName rd, imms], line⟩ symbolTable
      = some (encodeUType 0x37 (rd : Int) imm) := by
  simp [encodeInstruction, hm, rTable, iTable, sTable, sbTable, hp, getRegisterNumber_regName,
    hd]

/-- Decoding a `LUI` / `AUIPC` word: opcode, rd modulo 32, and the low 20 bits of the
immediate shifted left by 12, read as signed. -/
theorem decode_encodeUType (opcode : Nat) (rd imm : Int)
    (hop : opcode = 0x37 ∨ opcode = 0x17) :
    (decode (encodeUType opcode rd imm)).opcode = opcode
      ∧ ((decode (encodeUType opcode rd imm)).rd : Int) = rd % 32
      ∧ (decode (encodeUType opcode rd imm)).imm = toI32 (4096 * (imm % 2 ^ 20).toNat) := by
  have hw := encodeUType_eq opcode rd imm
  generalize encodeUType opcode rd imm = w at hw ⊢
  have e1 : ((toU32 rd % 32 : Nat) : Int) = rd % 32 := by unfold toU32; omega
  have e2 : toU32 imm % 1048576 = (imm % 2 ^ 20).toNat := by unfold toU32; omega
  have b1 : toU32 rd % 32 < 32 := by omega
  have b2 : toU32 imm % 1048576 < 1048576 := by omega
  have ho : opcode % 128 = opcode := by omega
  rw [ho] at hw
  generalize toU32 rd % 32 = r at hw e1 b1
  generalize toU32 imm % 1048576 = v at hw b2 e2
  obtain ⟨f1, f2, f3⟩ := fields_U w opcode r v (by omega) b1 b2 hw
  rw [decode_opcode, decode_rd, decode_imm_U w (by rw [f1]; exact hop), f1, f2, f3, ← e2]
  exact ⟨rfl, e1, rfl⟩

/-- The words the encoders build fit 32 bits. -/
theorem encodeIType_lt (opcode func3 : Nat) (rd rs1 imm : Int) :
    encodeIType opcode func3 rd rs1 imm < 2 ^ 32 := by
  rw [encodeIType_eq]; omega

theorem encodeUType_lt (opcode : Nat) (rd imm : Int) : encodeUType opcode rd imm < 2 ^ 32 := by
  rw [encodeUType_eq]; omega

/-- The loop leaves a state in which no instruction is stored at the program counter as
it is. -/
theorem run_of_halted (n : Nat) (s : State) (h : step s = StepResult.halt) :
    run n s = some s := by
  cases n with
  | zero => rfl
  | succ n => simp [run, h]

/-- A completed turn uses up one unit of fuel. -/
theorem run_succ_next (n : Nat) (s s1 : State) (h : step s = StepResult.next s1) :
    run (n + 1) s = run n s1 := by
  simp only [run, h]

/-- A turn that runs into undefined behaviour ends the run without a final state. -/
theorem run_succ_undef (n : Nat) (s : State) (h : step s = StepResult.undef) :
    run (n + 1) s = none := by
  simp only [run, h]

/-- C14. For every 20-bit `U` and 12-bit `L`, both written as `0x` literals, assembling
`lui x1, U` / `addi x1, x1, L`, loading the two words and running them leaves in `R[1]`
the 32-bit pattern `(U * 4096 + sign_extend(L, 12)) mod 2^32`; for `L < 0x800` this is
`U * 4096 + L`, the concatenation of `U` and `L`. -/
theorem lui_addi_literal (U L : Nat) (hU : U ≤ 0xFFFFF) (hL : L ≤ 0xFFF)
    (bigX upper : Bool) (line1 line2 : String) (fuel : Nat) (hfuel : 2 ≤ fuel) :
    (runProgram [⟨0, "lui", ["x1", hexLiteral bigX upper U], line1⟩,
        ⟨4, "addi", ["x1", "x1", hexLiteral bigX upper L], line2⟩] [] fuel).map
          (fun s => toU32 (s.R 1))
        = some ((((U : Int) * 4096 + signExtendSpec (L : Int) 12) % 2 ^ 32).toNat)
      ∧ (L < 0x800 →
          (runProgram [⟨0, "lui", ["x1", hexLiteral bigX upper U], line1⟩,
            ⟨4, "addi", ["x1", "x1", hexLiteral bigX upper L], line2⟩] [] fuel).map
              (fun s => toU32 (s.R 1))
            = some (U * 4096 + L)) := by
  have hx1 : "x1" = regName 1 := by decide
  have hpU : parseImmOrLabel [] (hexLiteral bigX upper U) 0 = some (U : Int) := by
    rw [parseImmOrLabel_literal [] _ _ rfl, parseImmediate_hexLiteral _ _ U (by omega)]
    unfold toI32; congr 1; split_ifs <;> omega
  have hpL : parseImmOrLabel [] (hexLiteral bigX upper L) 4 = some (L : Int) := by
    rw [parseImmOrLabel_literal [] _ _ rfl, parseImmediate_hexLiteral _ _ L (by omega)]
    unfold toI32; congr 1; split_ifs <;> omega
  have henc1 := encodeInstruction_lui "lui" line1 (hexLiteral bigX upper U) 0 1 [] U
    (by norm_num) (by decide) hpU
  have henc2 := encodeInstruction_itype "addi" line2 (hexLiteral bigX upper L) 4 1 1 0x13 0 []
    L (by norm_num) (by norm_num) (by decide) hpL
  rw [← hx1] at henc1 henc2
  obtain ⟨n, rfl⟩ : ∃ n, fuel = n + 2 := ⟨fuel - 2, by omega⟩
  have hw1 := encodeUType_lt 0x37 ((1 : Nat) : Int) U
  have hw2 := encodeIType_lt 0x13 0 ((1 : Nat) : Int) ((1 : Nat) : Int) L
  obtain ⟨d1, d2, d3⟩ := decode_encodeUType 0x37 ((1 : Nat) : Int) U (Or.inl rfl)
  have dI := decode_encodeIType 0x13 0 ((1 : Nat) : Int) ((1 : Nat) : Int) L (Or.inl rfl)
    (by norm_num)
  generalize encodeUType 0x37 ((1 : Nat) : Int) U = w1 at *
  generalize encodeIType 0x13 0 ((1 : Nat) : Int) ((1 : Nat) : Int) L = w2 at *
  have hw1' : w1 < 4294967296 := hw1
  have hw2' : w2 < 4294967296 := hw2
  have hmem : (parseInputMC [(0, w1), (4, w2)]).instrMemory = [(0, w1), (4, w2)] := by
    simp [parseInputMC, loadEntry, AddrMap.insert, Nat.mod_eq_of_lt hw1', Nat.mod_eq_of_lt hw2']
  have hrun : runProgram [⟨0, "lui", ["x1", hexLiteral bigX upper U], line1⟩,
        ⟨4, "addi", ["x1", "x1", hexLiteral bigX upper L], line2⟩] [] (n + 2)
      = run (n + 2) (initState [(0, w1), (4, w2)]
          (parseInputMC [(0, w1), (4, w2)]).dataSegment
          (parseInputMC [(0, w1), (4, w2)]).stackSegment) := by
    have hp2 : pass2Code [⟨0, "lui", ["x1", hexLiteral bigX upper U], line1⟩,
        ⟨4, "addi", ["x1", "x1", hexLiteral bigX upper L], line2⟩] []
        = some [(0, w1), (4, w2)] := by
      simp only [pass2Code, List.mapM_cons, List.mapM_nil, henc1, henc2]
      rfl
    unfold runProgram
    rw [hp2]
    simp only [Option.some_bind, hmem]
  generalize (parseInputMC [(0, w1), (4, w2)]).dataSegment = ds at hrun
  generalize (parseInputMC [(0, w1), (4, w2)]).stackSegment = ss at hrun
  -- first cycle: `lui`
  have hf0 : (initState [(0, w1), (4, w2)] ds ss).instrMemory.find
      (initState [(0, w1), (4, w2)] ds ss).PC = some w1 := by
    simp [initState, AddrMap.find, lookup_cons_nat]
  obtain ⟨s1, hs1, hR1, hPC1, hI1, _, _⟩ := step_lui _ w1 hf0 d1
  have hrd1 : (decode w1).rd = 1 := by omega
  -- second cycle: `addi`
  have hf1 : s1.instrMemory.find s1.PC = some w2 := by
    rw [hI1, hPC1]
    simp [initState, AddrMap.find, lookup_cons_nat]
  obtain ⟨s2, hs2, hR2, hPC2, hI2, _, _⟩ := step_itype s1 w2 hf1 (by rw [dI])
  have hf2 : step s2 = StepResult.halt := by
    have : s2.instrMemory.find s2.PC = none := by
      rw [hI2, hI1, hPC2, hPC1]
      simp [initState, AddrMap.find, lookup_cons_nat]
    unfold step
    rw [this]
  have hfinal : run (n + 2) (initState [(0, w1), (4, w2)] ds ss) = some s2 := by
    rw [run_succ_next _ _ _ hs1, run_succ_next _ _ _ hs2]
    exact run_of_halted n s2 hf2
  have hval : s2.R 1 = wrap32 (toI32 (4096 * U) + signExtendSpec ((L : Int) % 4096) 12) := by
    have e1 : ((((1 : Nat) : Int)) % 32).toNat = 1 := by decide
    have hrd2 : (decode w2).rd = 1 := by rw [dI]; exact e1
    have hrs2 : (decode w2).rs1 = 1 := by rw [dI]; exact e1
    have hf32 : (decode w2).funct3 = 0 := by rw [dI]
    have him2 : (decode w2).imm = signExtendSpec ((L : Int) % 4096) 12 := by rw [dI]
    have hex : ∀ a b, execIType (decode w2) a b = wrap32 (a + b) := by
      intro a b
      simp only [execIType, hf32, if_true]
    have hU' : ((U : Int) % 2 ^ 20).toNat = U := by omega
    rw [hR2 1, hrd2, hrs2, hex, him2, hR1 1, hrd1, d3, hU']
    rfl
  rw [hrun, hfinal]
  simp only [Option.map_some', Option.some.injEq]
  rw [hval]
  clear hrun hfinal hval hR2 hR1 hs1 hs2 hf0 hf1 hf2 hmem henc1 henc2 hpU hpL dI d1 d2 d3
  constructor
  · simp only [signExtendSpec, wrap32, toI32, toU32]
    norm_num
    split_ifs <;> omega
  · intro hlt
    simp only [signExtendSpec, wrap32, toI32, toU32]
    norm_num
    split_ifs <;> omega

/-- Witness for C14: `lui x1, 0x12345` / `addi x1, x1, 0x678` gives `0x12345678`. -/
theorem lui_addi_literal_witness :
    ((runProgram [⟨0, "lui", ["x1", hexLiteral false false 0x12345], "lui x1, 0x12345"⟩,
        ⟨4, "addi", ["x1", "x1", hexLiteral false false 0x678], "addi x1, x1, 0x678"⟩] [] 2).map
          (fun s => toU32 (s.R 1))
        = some (((((0x12345 : Nat) : Int) * 4096
            + signExtendSpec (((0x678 : Nat) : Int)) 12) % 2 ^ 32).toNat)
      ∧ (0x678 < 0x800 →
          (runProgram [⟨0, "lui", ["x1", hexLiteral false false 0x12345], "lui x1, 0x12345"⟩,
            ⟨4, "addi", ["x1", "x1", hexLiteral false false 0x678], "addi x1, x1, 0x678"⟩]
              [] 2).map (fun s => toU32 (s.R 1))
            = some (0x12345 * 4096 + 0x678)))
      ∧ 0x12345 * 4096 + 0x678 = 0x12345678
      ∧ hexLiteral false false 0x12345 = "0x12345" :=
  ⟨lui_addi_literal 0x12345 0x678 (by decide) (by decide) false false "lui x1, 0x12345"
    "addi x1, x1, 0x678" 2 (by decide), by decide, by decide⟩

/-- A text whose first and last characters are not white space is left as it is by
`trim`. -/
theorem trim_eq (l : List Char) (h1 : ∀ c, l.head? = some c → isTrimChar c = false)
    (h2 : ∀ c, l.getLast? = some c → isTrimChar c = false) : trim (String.mk l) = String.mk l := by
  unfold trim
  congr 1
  cases l with
  | nil => rfl
  | cons c cs =>
    have hc := h1 c rfl
    have e1 : List.dropWhile isTrimChar (c :: cs) = c :: cs := by
      rw [List.dropWhile_cons, hc]; rfl
    show ((List.dropWhile isTrimChar (c :: cs)).reverse.dropWhile isTrimChar).reverse = c :: cs
    rw [e1]
    cases hr : (c :: cs).reverse with
    | nil => simp at hr
    | cons d ds =>
      have hd : isTrimChar d = false := by
        apply h2
        rw [List.getLast?_eq_head?_reverse, hr]; rfl
      rw [List.dropWhile_cons, hd]
      simp only [Bool.false_eq_true, if_false]
      rw [← hr, List.reverse_reverse]

/-- A run of characters none of which is white space or a comma is read by the loop of
`splitTokens` as the rest of one token. -/
theorem splitTokensLoop_token (tok : List Char)
    (h : ∀ c ∈ tok, isSpace c = false ∧ c ≠ ',') (temp : List Char) (tokens : List String)
    (hne : temp ++ tok ≠ []) :
    splitTokensLoop tok temp tokens = tokens ++ [String.mk (temp ++ tok)] := by
  induction tok generalizing temp with
  | nil => simp only [List.append_nil] at hne ⊢; simp [splitTokensLoop, hne]
  | cons c cs ih =>
    obtain ⟨hc1, hc2⟩ := h c (List.mem_cons_self _ _)
    rw [splitTokensLoop]
    simp only [hc1, hc2, Bool.false_eq_true, false_or, if_false]
    rw [ih (fun c hc => h c (List.mem_cons_of_mem _ hc)) (temp ++ [c]) (by simp)]
    simp

/-- What pass 1 does with a line that holds an instruction and no label. -/
theorem pass1Line_instr (a : Assembler) (line mnemonic : String) (operands : List String)
    (ht : trim line = line) (hne : line.data ≠ []) (hh : line.data.head? ≠ some '#')
    (hd : line.data.head? ≠ some '.') (hc : findChar ':' line.data = none)
    (hs : splitTokens line = mnemonic :: operands) :
    a.pass1Line line = some { a with
      currentSection := Section.TEXT
      textInstructions := a.textInstructions ++ [⟨a.currentTextAddr, mnemonic, operands, line⟩]
      currentTextAddr := (a.currentTextAddr + 4) % 2 ^ 32 } := by
  simp [Assembler.pass1Line, ht, hne, hh, hd, hc, hs]

/-- What pass 1 does with the line `.text`. -/
theorem pass1Line_text (a : Assembler) :
    a.pass1Line ".text" = some { a with currentSection := Section.TEXT } := by
  have ht : trim ".text" = ".text" := by decide
  have hc : findChar ':' ".text".data = none := by decide
  have hs : splitTokens ".text" = [".text"] := by decide
  have hd : ".text".data.head? = some '.' := by decide
  have hne : ".text".data ≠ [] := by decide
  have hh : ¬ (some '.' = some '#') := by decide
  simp only [Assembler.pass1Line, ht, hne, hh, hd, hc, hs, if_true, if_false]

/-- What pass 1 does with the line `.data`. -/
theorem pass1Line_data (a : Assembler) :
    a.pass1Line ".data" = some { a with currentSection := Section.DATA } := by
  have ht : trim ".data" = ".data" := by decide
  have hc : findChar ':' ".data".data = none := by decide
  have hs : splitTokens ".data" = [".data"] := by decide
  have hd : ".data".data.head? = some '.' := by decide
  have hne : ".data".data ≠ [] := by decide
  have hh : ¬ (some '.' = some '#') := by decide
  have hx : ¬ (".data" = ".text") := by decide
  simp only [Assembler.pass1Line, ht, hne, hh, hd, hc, hs, if_true, if_false, hx]

/-- White space as `trim` sees it is white space as `isspace` sees it. -/
theorem isTrimChar_of_isSpace (c : Char) (h : isSpace c = false) : isTrimChar c = false := by
  unfold isSpace at h
  unfold isTrimChar
  simp only [Bool.or_eq_false_iff, decide_eq_false_iff_not] at h ⊢
  tauto

/-- What pass 1 does with the line `W: .word tok`, for a token `tok` without white space
and commas: the label is bound in the symbol table and the token is handed to the
`.word` directive. -/
theorem pass1Line_label_word (a : Assembler) (tok : List Char) (htok : tok ≠ [])
    (h : ∀ c ∈ tok, isSpace c = false ∧ c ≠ ',') :
    a.pass1Line (String.mk ("W: .word ".data ++ tok))
      = ({ a with
            symbolTable := ("W",
              match a.currentSection with
              | Section.TEXT => a.currentTextAddr
              | Section.DATA => a.currentDataAddr
              | Section.UNDEF => a.currentTextAddr) :: a.symbolTable
            currentSection := Section.DATA } : Assembler).dataDirective ".word"
          [String.mk tok] := by
  have hlast : ∀ (p : List Char) c, (p ++ tok).getLast? = some c → isTrimChar c = false := by
    intro p c hc
    rw [List.getLast?_append_of_ne_nil _ htok] at hc
    exact isTrimChar_of_isSpace c (h c (List.mem_of_getLast?_eq_some hc)).1
  have ht : trim (String.mk ("W: .word ".data ++ tok)) = String.mk ("W: .word ".data ++ tok) :=
    trim_eq _ (by intro c hc; cases hc; decide) (hlast _)
  have hP : "W: .word ".data ++ tok = 'W' :: ':' :: ' ' :: '.' :: 'w' :: 'o' :: 'r' :: 'd' :: ' ' :: tok := rfl
  rw [hP] at ht ⊢
  have hc : findChar ':' ('W' :: ':' :: ' ' :: '.' :: 'w' :: 'o' :: 'r' :: 'd' :: ' ' :: tok)
      = some 1 := by
    simp [findChar, List.indexOf_cons]
  have hl : trim (String.mk ['W']) = "W" := by decide
  have hr : trim (String.mk (' ' :: '.' :: 'w' :: 'o' :: 'r' :: 'd' :: ' ' :: tok))
      = String.mk ('.' :: 'w' :: 'o' :: 'r' :: 'd' :: ' ' :: tok) := by
    have e : trim (String.mk (' ' :: '.' :: 'w' :: 'o' :: 'r' :: 'd' :: ' ' :: tok))
        = trim (String.mk ('.' :: 'w' :: 'o' :: 'r' :: 'd' :: ' ' :: tok)) := by
      simp [trim, List.dropWhile_cons, isTrimChar]
    rw [e]
    exact trim_eq _ (by intro c hc; cases hc; decide) (hlast ['.', 'w', 'o', 'r', 'd', ' '])
  have hs : splitTokens (String.mk ('.' :: 'w' :: 'o' :: 'r' :: 'd' :: ' ' :: tok))
      = [".word", String.mk tok] := by
    have h5 : splitTokensLoop ('.' :: 'w' :: 'o' :: 'r' :: 'd' :: ' ' :: tok) [] []
        = splitTokensLoop tok [] [".word"] := by
      simp [splitTokensLoop, isSpace]
    unfold splitTokens
    rw [h5, splitTokensLoop_token tok h [] [".word"] (by simpa using htok)]
    rfl
  have hx1 : ¬ (".word" = ".text") := by decide
  have hx2 : ¬ (".word" = ".data") := by decide
  have hx3 : ¬ (".word" = ".byte") := by decide
  have hx4 : ¬ (".word" = ".half") := by decide
  simp only [Assembler.pass1Line, ht, hc, hl, hr, hs, List.take, List.drop, List.head?]
  simp [hx1, hx2, hx3, hx4]

/-- The directive `.word` with one operand that `parseImmediate` accepts. -/
theorem dataDirective_word (a : Assembler) (tk : String) (v : Int)
    (h : parseImmediate tk = some v) :
    a.dataDirective ".word" [tk] = some (a.emitBytes v 4) := by
  have hx3 : ¬ (".word" = ".byte") := by decide
  have hx4 : ¬ (".word" = ".half") := by decide
  simp [Assembler.dataDirective, hx3, hx4, h]

/-- The characters of a `0x` literal are neither white space nor commas. -/
theorem hexLiteral_chars (bigX upper : Bool) (v : Nat) :
    (hexLiteral bigX upper v).data ≠ []
      ∧ ∀ c ∈ (hexLiteral bigX upper v).data, isSpace c = false ∧ c ≠ ',' := by
  have hd : ∀ d, d < 16 →
      isSpace (if upper then (Nat.digitChar d).toUpper else Nat.digitChar d) = false
        ∧ (if upper then (Nat.digitChar d).toUpper else Nat.digitChar d) ≠ ',' := by
    cases upper <;> decide
  obtain ⟨L, hne, hlt, heq, hval⟩ := toDigits_spec 16 (by norm_num) v
  unfold hexLiteral
  rw [heq]
  refine ⟨by simp, ?_⟩
  intro c hc
  simp only [List.mem_cons, List.mem_map] at hc
  rcases hc with rfl | rfl | ⟨c1, ⟨d, hdL, rfl⟩, rfl⟩
  · decide
  · cases bigX <;> decide
  · exact hd d (hlt d hdL)

/-- Pass 1 on the data-word scenario: two instruction lines, the label at the start of
the data segment, and the four bytes of the value there, least significant first. -/
theorem pass1_dataWordSource (bigX upper : Bool) (V : Nat) (hV : V < 2 ^ 32) :
    Assembler.pass1 (dataWordSource (hexLiteral bigX upper V))
      = some
        { textInstructions :=
            [⟨0, "lui", ["x1", "0x10000"], "lui x1, 0x10000"⟩,
              ⟨4, "lw", ["x2", "0(x1)"], "lw x2, 0(x1)"⟩]
          symbolTable := [("W", 0x10000000)]
          dataMemory := [(0x10000000, V % 256), (0x10000001, V / 2 ^ 8 % 256),
            (0x10000002, V / 2 ^ 16 % 256), (0x10000003, V / 2 ^ 24 % 256)]
          currentTextAddr := 8
          currentDataAddr := 0x10000004
          currentSection := Section.TEXT } := by
  obtain ⟨hne, hch⟩ := hexLiteral_chars bigX upper V
  have hp := parseImmediate_hexLiteral bigX upper V (by omega)
  have h2 := fun a => pass1Line_label_word a (hexLiteral bigX upper V).data hne hch
  have h4 := fun a => pass1Line_instr a "lui x1, 0x10000" "lui" ["x1", "0x10000"] (by decide)
    (by decide) (by decide) (by decide) (by decide) (by decide)
  have h5 := fun a => pass1Line_instr a "lw x2, 0(x1)" "lw" ["x2", "0(x1)"] (by decide)
    (by decide) (by decide) (by decide) (by decide) (by decide)
  have hb0 : (toI32 V / 2 ^ (8 * 0) % 256).toNat = V % 256 := by
    unfold toI32; split_ifs <;> omega
  have hb1 : (toI32 V / 2 ^ (8 * 1) % 256).toNat = V / 2 ^ 8 % 256 := by
    unfold toI32; split_ifs <;> omega
  have hb2 : (toI32 V / 2 ^ (8 * 2) % 256).toNat = V / 2 ^ 16 % 256 := by
    unfold toI32; split_ifs <;> omega
  have hb3 : (toI32 V / 2 ^ (8 * 3) % 256).toNat = V / 2 ^ 24 % 256 := by
    unfold toI32; split_ifs <;> omega
  have hr : List.range 4 = [0, 1, 2, 3] := by decide
  simp only [Assembler.pass1, dataWordSource, List.foldlM_cons, List.foldlM_nil,
    pass1Line_data, pass1Line_text, h2, h4, h5, Option.bind_eq_bind, Option.some_bind,
    dataDirective_word _ _ _ hp, Assembler.emitBytes, Assembler.init, hr, List.foldl_cons,
    List.foldl_nil, hb0, hb1, hb2, hb3]
  simp [AddrMap.insert]

/-- A word read from four stored bytes: the bytes combined least significant first and
read as signed. -/
theorem readWord_of_bytes (m : MemSegment) (a b0 b1 b2 b3 : Nat)
    (h0 : m.memory.find ((a + 0) % 2 ^ 32) = some b0)
    (h1 : m.memory.find ((a + 1) % 2 ^ 32) = some b1)
    (h2 : m.memory.find ((a + 2) % 2 ^ 32) = some b2)
    (h3 : m.memory.find ((a + 3) % 2 ^ 32) = some b3)
    (l0 : b0 < 256) (l1 : b1 < 256) (l2 : b2 < 256) (l3 : b3 < 256) :
    m.readWord a = toI32 (b0 + b1 * 256 + b2 * 65536 + b3 * 16777216) := by
  simp only [MemSegment.readWord, h0, h1, h2, h3, Nat.shiftLeft_eq]
  norm_num
  have e0 : b0 % 256 % 4294967296 = b0 := by omega
  have e1 : b1 % 256 * 256 % 4294967296 = b1 * 256 := by omega
  have e2 : b2 % 256 * 65536 % 4294967296 = b2 * 65536 := by omega
  have e3 : b3 % 256 * 16777216 % 4294967296 = b3 * 16777216 := by omega
  simp only [e0, e1, e2, e3]
  rw [or_chain4_low _ _ _ _ 8 16 24 (by omega) (by omega) (by omega) (by omega) (by omega)
    (by omega)]

/-- One cycle on a fetched `LW` whose address lies in a data or stack region: `rd`
(unless it is `x0`) receives the word read at `R[rs1] + imm`, the program counter
advances by 4 and the memories stay as they are. -/
theorem step_lw (s : State) (w : Nat) (hfetch : s.instrMemory.find s.PC = some w)
    (hop : (decode w).opcode = 0x03) (hf3 : (decode w).funct3 = 2)
    (hreg : getMemSegmentForAddress (toU32 (s.R (decode w).rs1 + (decode w).imm))
      ≠ Region.invalid) :
    ∃ s1, step s = StepResult.next s1
      ∧ (∀ i, s1.R i = if i = 0 then 0
          else if i = (decode w).rd then
            (s.segment (getMemSegmentForAddress (toU32 (s.R (decode w).rs1 + (decode w).imm)))).readWord
              (toU32 (s.R (decode w).rs1 + (decode w).imm))
          else s.R i)
      ∧ s1.PC = (s.PC + 4) % 2 ^ 32
      ∧ s1.instrMemory = s.instrMemory
      ∧ s1.dataSegment = s.dataSegment ∧ s1.stackSegment = s.stackSegment := by
  have hw0 : w ≠ 0 := ne_zero_of_opcode w (by rw [hop]; decide)
  have hwb : writesBack (decode w).opcode = true := by rw [hop]; decide
  have hex : ∃ out, executeWord s w = some out ∧ out.RY
        = (s.segment (getMemSegmentForAddress (toU32 (s.R (decode w).rs1 + (decode w).imm)))).readWord
            (toU32 (s.R (decode w).rs1 + (decode w).imm))
      ∧ out.nextPC = (s.PC + 4) % 2 ^ 32
      ∧ out.dataSegment = s.dataSegment
      ∧ out.stackSegment = s.stackSegment := by
    simp only [executeWord, execute, hop, hf3]
    norm_num
    generalize toU32 (s.R (decode w).rs1 + (decode w).imm) = addr at hreg ⊢
    cases hg : getMemSegmentForAddress addr with
    | invalid => exact absurd hg hreg
    | data => simp
    | stack => simp
  obtain ⟨out, hout, x1, x2, x3, x4⟩ := hex
  obtain ⟨s1, hs, hR, hPC, _, hI, hD, hS⟩ := step_fields s w hfetch hw0 out hout
  refine ⟨s1, hs, ?_, by rw [hPC, x2], hI, by rw [hD, x3], by rw [hS, x4]⟩
  intro i
  rw [hR i, x1]
  by_cases hi : i = 0
  · simp [hi]
  · by_cases h2 : i = (decode w).rd
    · have : (decode w).rd ≠ 0 := fun h => hi (h2.trans h)
      simp [hi, h2, hwb, this]
    · simp [hi, h2]

/-- The loader on a listing line below the data segment: the word goes to the instruction
memory. -/
theorem loadEntry_instr (m : Memories) (a w : Nat) (ha : a < 0x10000000) (hw : w < 2 ^ 32) :
    loadEntry m a w = { m with instrMemory := m.instrMemory.insert a w } := by
  have e1 : a % 2 ^ 32 = a := Nat.mod_eq_of_lt (by omega)
  have e2 : w % 2 ^ 32 = w := Nat.mod_eq_of_lt hw
  simp only [loadEntry, e1, e2, if_pos ha]

/-- The loader on a listing line in the data segment: a whole word is written at the
address. -/
theorem loadEntry_data (m : Memories) (a w : Nat) (h1 : 0x10000000 ≤ a) (h2 : a < 0x50000000)
    (hw : w < 2 ^ 32) :
    loadEntry m a w = { m with dataSegment := m.dataSegment.writeWord a (toI32 w) } := by
  have e1 : a % 2 ^ 32 = a := Nat.mod_eq_of_lt (by omega)
  have e2 : w % 2 ^ 32 = w := Nat.mod_eq_of_lt hw
  have h3 : ¬ a < 0x10000000 := by omega
  simp only [loadEntry, e1, e2, if_neg h3, if_pos h2]

/-- The loader on a listing of six lines. -/
theorem parseInputMC_six (a1 w1 a2 w2 a3 w3 a4 w4 a5 w5 a6 w6 : Nat) :
    parseInputMC [(a1, w1), (a2, w2), (a3, w3), (a4, w4), (a5, w5), (a6, w6)]
      = loadEntry (loadEntry (loadEntry (loadEntry (loadEntry (loadEntry
          { instrMemory := [], dataSegment := { memory := [] }, stackSegment := { memory := [] } }
          a1 w1) a2 w2) a3 w3) a4 w4) a5 w5) a6 w6 := rfl

/-- The method `Assembler::assemble` followed by the simulator, once pass 1 and pass 2
are known to give a listing. -/
theorem runSource_eq (source : List String) (a : Assembler) (listing : List (Nat × Nat))
    (fuel : Nat) (h1 : Assembler.pass1 source = some a) (h2 : a.pass2 = some listing) :
    runSource source fuel
      = run fuel (initState (parseInputMC listing).instrMemory
          (parseInputMC listing).dataSegment (parseInputMC listing).stackSegment) := by
  unfold runSource
  rw [h1]
  simp only [Option.bind_eq_bind, Option.some_bind, h2]

/-- C15. Data words survive the whole toolchain: for every 32-bit value `V` written as a
`0x` literal, pass 1 and pass 2 on `.data` / `W: .word V` / `.text` / `lui x1, 0x10000` /
`lw x2, 0(x1)` give a listing with the two instruction words and one line per byte of
`V` (least significant first, from 0x10000000); loading that listing and running it
halts after two cycles with the 32-bit pattern of `R[2]` equal to `V`. -/
theorem data_word_survives (V : Nat) (hV : V < 2 ^ 32) (bigX upper : Bool) (fuel : Nat)
    (hfuel : 2 ≤ fuel) :
    (Assembler.pass1 (dataWordSource (hexLiteral bigX upper V))).bind Assembler.pass2
        = some [(0, 0x100000B7), (4, 0x0000A103), (0x10000000, V % 256),
            (0x10000001, V / 2 ^ 8 % 256), (0x10000002, V / 2 ^ 16 % 256),
            (0x10000003, V / 2 ^ 24 % 256)]
      ∧ ∃ s, runSource (dataWordSource (hexLiteral bigX upper V)) fuel = some s
          ∧ halted s = true ∧ s.clockCycle = 2 ∧ toU32 (s.R 2) = V := by
  have hp1 := pass1_dataWordSource bigX upper V hV
  have hcode : pass2Code [⟨0, "lui", ["x1", "0x10000"], "lui x1, 0x10000"⟩,
      ⟨4, "lw", ["x2", "0(x1)"], "lw x2, 0(x1)"⟩] [("W", 0x10000000)]
      = some [(0, 0x100000B7), (4, 0x0000A103)] := by decide
  have hp2 : (Assembler.pass1 (dataWordSource (hexLiteral bigX upper V))).bind Assembler.pass2
        = some [(0, 0x100000B7), (4, 0x0000A103), (0x10000000, V % 256),
            (0x10000001, V / 2 ^ 8 % 256), (0x10000002, V / 2 ^ 16 % 256),
            (0x10000003, V / 2 ^ 24 % 256)] := by
    rw [hp1]
    simp only [Option.some_bind, Assembler.pass2, hcode, Option.bind_eq_bind]
    rfl
  refine ⟨hp2, ?_⟩
  obtain ⟨n, rfl⟩ : ∃ n, fuel = n + 2 := ⟨fuel - 2, by omega⟩
  generalize hb0 : V % 256 = b0 at *
  generalize hb1 : V / 2 ^ 8 % 256 = b1 at *
  generalize hb2 : V / 2 ^ 16 % 256 = b2 at *
  generalize hb3 : V / 2 ^ 24 % 256 = b3 at *
  have l0 : b0 < 256 := by omega
  have l1 : b1 < 256 := by omega
  have l2 : b2 < 256 := by omega
  have l3 : b3 < 256 := by omega
  have hVb : V = b0 + b1 * 256 + b2 * 65536 + b3 * 16777216 := by omega
  have hm : parseInputMC [(0, 0x100000B7), (4, 0x0000A103), (0x10000000, b0),
      (0x10000001, b1), (0x10000002, b2), (0x10000003, b3)]
      = { instrMemory := [(0, 0x100000B7), (4, 0x0000A103)]
          dataSegment := ((((({ memory := [] } : MemSegment).writeWord 0x10000000
            (toI32 b0)).writeWord 0x10000001 (toI32 b1)).writeWord 0x10000002
            (toI32 b2)).writeWord 0x10000003 (toI32 b3))
          stackSegment := { memory := [] } } := by
    rw [parseInputMC_six, loadEntry_instr _ 0 _ (by norm_num) (by norm_num),
      loadEntry_instr _ 4 _ (by norm_num) (by norm_num),
      loadEntry_data _ _ b0 (by norm_num) (by norm_num) (by omega),
      loadEntry_data _ _ b1 (by norm_num) (by norm_num) (by omega),
      loadEntry_data _ _ b2 (by norm_num) (by norm_num) (by omega),
      loadEntry_data _ _ b3 (by norm_num) (by norm_num) (by omega)]
    have e : AddrMap.insert (AddrMap.insert [] 0 0x100000B7) 4 0x0000A103
        = [(0, 0x100000B7), (4, 0x0000A103)] := by decide
    simp only [e]
  have hrun : runSource (dataWordSource (hexLiteral bigX upper V)) (n + 2)
      = run (n + 2) (initState [(0, 0x100000B7), (4, 0x0000A103)]
          ((((({ memory := [] } : MemSegment).writeWord 0x10000000
            (toI32 b0)).writeWord 0x10000001 (toI32 b1)).writeWord 0x10000002
            (toI32 b2)).writeWord 0x10000003 (toI32 b3)) { memory := [] }) := by
    have := hp2
    rw [hp1, Option.some_bind] at this
    rw [runSource_eq _ _ _ _ hp1 this, hm]
  generalize hds : (((({ memory := [] } : MemSegment).writeWord 0x10000000
      (toI32 b0)).writeWord 0x10000001 (toI32 b1)).writeWord 0x10000002
      (toI32 b2)).writeWord 0x10000003 (toI32 b3) = ds at hrun
  have t0 : toU32 (toI32 (b0 : Nat)) % 256 = b0 := by
    unfold toU32 toI32; split_ifs <;> omega
  have t1 : toU32 (toI32 (b1 : Nat)) % 256 = b1 := by
    unfold toU32 toI32; split_ifs <;> omega
  have t2 : toU32 (toI32 (b2 : Nat)) % 256 = b2 := by
    unfold toU32 toI32; split_ifs <;> omega
  have t3 : toU32 (toI32 (b3 : Nat)) % 256 = b3 := by
    unfold toU32 toI32; split_ifs <;> omega
  have f0 : ds.memory.find ((0x10000000 + 0) % 2 ^ 32) = some b0 := by
    rw [← hds]
    simp only [writeWord_find]
    norm_num
    exact t0
  have f1 : ds.memory.find ((0x10000000 + 1) % 2 ^ 32) = some b1 := by
    rw [← hds]
    simp only [writeWord_find]
    norm_num
    exact t1
  have f2 : ds.memory.find ((0x10000000 + 2) % 2 ^ 32) = some b2 := by
    rw [← hds]
    simp only [writeWord_find]
    norm_num
    exact t2
  have f3 : ds.memory.find ((0x10000000 + 3) % 2 ^ 32) = some b3 := by
    rw [← hds]
    simp only [writeWord_find]
    norm_num
    exact t3
  have hword := readWord_of_bytes ds 0x10000000 b0 b1 b2 b3 f0 f1 f2 f3 l0 l1 l2 l3
  have dw1 : (decode 0x100000B7).opcode = 0x37 ∧ (decode 0x100000B7).rd = 1
      ∧ (decode 0x100000B7).imm = 0x10000000 := by decide
  have dw2 : (decode 0x0000A103).opcode = 0x03 ∧ (decode 0x0000A103).rd = 2
      ∧ (decode 0x0000A103).rs1 = 1 ∧ (decode 0x0000A103).funct3 = 2
      ∧ (decode 0x0000A103).imm = 0 := by decide
  obtain ⟨o1, r1, i1⟩ := dw1
  obtain ⟨o2, r2, rs2, g2, i2⟩ := dw2
  -- first cycle: `lui`
  have hf0 : (initState [(0, 0x100000B7), (4, 0x0000A103)] ds { memory := [] }).instrMemory.find
      (initState [(0, 0x100000B7), (4, 0x0000A103)] ds { memory := [] }).PC
        = some 0x100000B7 := by
    simp [initState, AddrMap.find, lookup_cons_nat]
  obtain ⟨s1, hs1, hR1, hPC1, hI1, hD1, _⟩ := step_lui _ _ hf0 o1
  have hc1 : s1.clockCycle = 1 := by
    rw [step_clock _ _ hs1]; rfl
  -- second cycle: `lw`
  have hf1 : s1.instrMemory.find s1.PC = some 0x0000A103 := by
    rw [hI1, hPC1]
    simp [initState, AddrMap.find, lookup_cons_nat]
  have hbase : s1.R 1 = 0x10000000 := by
    rw [hR1 1, r1, i1]; rfl
  have haddr : toU32 (s1.R (decode 0x0000A103).rs1 + (decode 0x0000A103).imm) = 0x10000000 := by
    rw [rs2, i2, hbase]; decide
  have hreg : getMemSegmentForAddress 0x10000000 = Region.data := by decide
  obtain ⟨s2, hs2, hR2, hPC2, hI2, _, _⟩ := step_lw s1 _ hf1 o2 g2
    (by rw [haddr, hreg]; exact fun h => Region.noConfusion h)
  have hc2 : s2.clockCycle = 2 := by
    rw [step_clock _ _ hs2, hc1]
  have hf2 : step s2 = StepResult.halt := by
    have : s2.instrMemory.find s2.PC = none := by
      rw [hI2, hI1, hPC2, hPC1]
      simp [initState, AddrMap.find, lookup_cons_nat]
    unfold step
    rw [this]
  have hfinal : run (n + 2) (initState [(0, 0x100000B7), (4, 0x0000A103)] ds { memory := [] })
      = some s2 := by
    rw [run_succ_next _ _ _ hs1, run_succ_next _ _ _ hs2]
    exact run_of_halted n s2 hf2
  have hval : s2.R 2 = toI32 V := by
    rw [hR2 2, r2, haddr, hreg, hVb, ← hword]
    simp only [State.segment, hD1]
    rfl
  refine ⟨s2, by rw [hrun, hfinal], by simp [halted, hf2], hc2, ?_⟩
  rw [hval]
  unfold toU32 toI32
  split_ifs <;> omega

/-- Witness for C15: the source lines of the example, with the value `0xDEADBEEF`. -/
theorem data_word_survives_witness :
    ((Assembler.pass1 (dataWordSource (hexLiteral false true 0xDEADBEEF))).bind Assembler.pass2
        = some [(0, 0x100000B7), (4, 0x0000A103), (0x10000000, 0xDEADBEEF % 256),
            (0x10000001, 0xDEADBEEF / 2 ^ 8 % 256), (0x10000002, 0xDEADBEEF / 2 ^ 16 % 256),
            (0x10000003, 0xDEADBEEF / 2 ^ 24 % 256)]
      ∧ ∃ s, runSource (dataWordSource (hexLiteral false true 0xDEADBEEF)) 2 = some s
          ∧ halted s = true ∧ s.clockCycle = 2 ∧ toU32 (s.R 2) = 0xDEADBEEF)
      ∧ dataWordSource (hexLiteral false true 0xDEADBEEF)
          = [".data", "W: .word 0xDEADBEEF", ".text", "lui x1, 0x10000", "lw x2, 0(x1)"] :=
  ⟨data_word_survives 0xDEADBEEF (by decide) false true 2 (by decide), by decide⟩

/-! ## Single steps: stores, division, shifts, halting, the loader, loads -/

/-- C21. A store into the instruction region has no effect: for every state with
`R[0] = 0` and every fetched word with opcode `0x23` whose effective address
`(R[rs1] + imm) mod 2^32` is below `0x10000000`, the step is taken and leaves the
instruction map, the data segment, the stack segment and every register as they were,
with `PC` advanced by 4 (modulo `2^32`). -/
theorem store_to_instruction_region (s : State) (w : Nat) (h0 : s.R 0 = 0)
    (hfetch : s.instrMemory.find s.PC = some w) (hop : (decode w).opcode = 0x23)
    (haddr : toU32 (s.R (decode w).rs1 + (decode w).imm) < 0x10000000) :
    ∃ s1, step s = StepResult.next s1
      ∧ s1.instrMemory = s.instrMemory ∧ s1.dataSegment = s.dataSegment
      ∧ s1.stackSegment = s.stackSegment ∧ s1.R = s.R
      ∧ s1.PC = (s.PC + 4) % 2 ^ 32 := by
  have hw0 : w ≠ 0 := ne_zero_of_opcode w (by rw [hop]; decide)
  have hwb : writesBack (decode w).opcode = false := by rw [hop]; decide
  have hreg : getMemSegmentForAddress (toU32 (s.R (decode w).rs1 + (decode w).imm))
      = Region.invalid := by
    simp only [getMemSegmentForAddress, if_pos haddr]
  have hex : executeWord s w
      = some { RZ := 0, RY := 0, MDR := s.MDR, nextPC := (s.PC + 4) % 2 ^ 32,
               dataSegment := s.dataSegment, stackSegment := s.stackSegment } := by
    simp [executeWord, execute, hop, hreg]
  obtain ⟨s1, hs, hR, hPC, _, hI, hD, hS⟩ := step_fields s w hfetch hw0 _ hex
  refine ⟨s1, hs, hI, by rw [hD], by rw [hS], ?_, by rw [hPC]⟩
  funext i
  rw [hR i]
  by_cases hi : i = 0
  · simp [hi, h0]
  · simp [hi, hwb]

/-- Witness for C21: `sw x1, 0(x0)` at address 0, which addresses the instruction
region. -/
theorem store_to_instruction_region_witness :
    ∃ s1, step (initState [(0, 0x00102023)] { memory := [] } { memory := [] })
        = StepResult.next s1
      ∧ s1.instrMemory = (initState [(0, 0x00102023)] { memory := [] } { memory := [] }).instrMemory
      ∧ s1.dataSegment = (initState [(0, 0x00102023)] { memory := [] } { memory := [] }).dataSegment
      ∧ s1.stackSegment
        = (initState [(0, 0x00102023)] { memory := [] } { memory := [] }).stackSegment
      ∧ s1.R = (initState [(0, 0x00102023)] { memory := [] } { memory := [] }).R
      ∧ s1.PC
        = ((initState [(0, 0x00102023)] { memory := [] } { memory := [] }).PC + 4) % 2 ^ 32 :=
  store_to_instruction_region (initState [(0, 0x00102023)] { memory := [] } { memory := [] })
    0x00102023 (by decide) (by decide) (by decide) (by decide)

/-- C22. Division by zero does not trap: from a state with `R[rs2] = 0`, a fetched word
with opcode `0x33`, funct7 1 and funct3 4 (`DIV`) or 6 (`REM`) and `rd ≠ 0` is executed,
sets `R[rd]` to 0, leaves the other registers and the memories as they were and advances
`PC` by 4 (modulo `2^32`). -/
theorem div_rem_by_zero (s : State) (w : Nat) (hfetch : s.instrMemory.find s.PC = some w)
    (hop : (decode w).opcode = 0x33) (hf7 : (decode w).funct7 = 1)
    (hf3 : (decode w).funct3 = 4 ∨ (decode w).funct3 = 6) (hrd : (decode w).rd ≠ 0)
    (hzero : s.R (decode w).rs2 = 0) :
    ∃ s1, step s = StepResult.next s1 ∧ s1.R (decode w).rd = 0
      ∧ (∀ i, i ≠ 0 → i ≠ (decode w).rd → s1.R i = s.R i)
      ∧ s1.PC = (s.PC + 4) % 2 ^ 32
      ∧ s1.dataSegment = s.dataSegment ∧ s1.stackSegment = s.stackSegment := by
  have hw0 : w ≠ 0 := ne_zero_of_opcode w (by rw [hop]; decide)
  have hwb : writesBack (decode w).opcode = true := by rw [hop]; decide
  have hex : executeWord s w
      = some { RZ := 0, RY := 0, MDR := s.MDR, nextPC := (s.PC + 4) % 2 ^ 32,
               dataSegment := s.dataSegment, stackSegment := s.stackSegment } := by
    rcases hf3 with h | h <;> simp [executeWord, execute, execRType, hop, hf7, h, hzero]
  obtain ⟨s1, hs, hR, hPC, _, hI, hD, hS⟩ := step_fields s w hfetch hw0 _ hex
  refine ⟨s1, hs, ?_, ?_, by rw [hPC], by rw [hD], by rw [hS]⟩
  · rw [hR]
    simp [hrd, hwb]
  · intro i hi hi2
    rw [hR]
    simp [hi, hi2]

/-- Witness for C22: `div x3, x1, x5` and `rem x3, x1, x5` with `R[5] = 0`. -/
theorem div_rem_by_zero_witness :
    (∃ s1, step divZeroState = StepResult.next s1 ∧ s1.R (decode 0x0250C1B3).rd = 0
      ∧ (∀ i, i ≠ 0 → i ≠ (decode 0x0250C1B3).rd → s1.R i = divZeroState.R i)
      ∧ s1.PC = (divZeroState.PC + 4) % 2 ^ 32
      ∧ s1.dataSegment = divZeroState.dataSegment
      ∧ s1.stackSegment = divZeroState.stackSegment)
    ∧ (∃ s1, step remZeroState = StepResult.next s1 ∧ s1.R (decode 0x0250E1B3).rd = 0
      ∧ (∀ i, i ≠ 0 → i ≠ (decode 0x0250E1B3).rd → s1.R i = remZeroState.R i)
      ∧ s1.PC = (remZeroState.PC + 4) % 2 ^ 32
      ∧ s1.dataSegment = remZeroState.dataSegment
      ∧ s1.stackSegment = remZeroState.stackSegment)
    ∧ (decode 0x0250C1B3).rd = 3 :=
  ⟨div_rem_by_zero divZeroState 0x0250C1B3 (by decide) (by decide) (by decide)
      (Or.inl (by decide)) (by decide) (by decide),
    div_rem_by_zero remZeroState 0x0250E1B3 (by decide) (by decide) (by decide)
      (Or.inr (by decide)) (by decide) (by decide), by decide⟩

/-- The shift amount `RB & 0x1F` is `RB mod 32`. -/
theorem shamt_mod (RB : Int) : toU32 RB &&& 0x1F = (RB % 32).toNat := by
  rw [and_mask _ 5 0x1F (by norm_num)]
  unfold toU32
  omega

/-- The execute stage of `SLLI`. -/
theorem execIType_slli (d : DecodedInstr) (hf3 : d.funct3 = 1) (RA RB : Int) :
    execIType d RA RB = wrap32 (RA * 2 ^ (RB % 32).toNat) := by
  simp [execIType, hf3, shamt_mod]

/-- C23. `SLLI` masks its shift amount to 5 bits. Take a state whose fetched word `w` has
opcode `0x13` and funct3 1, and the same state with a program that holds at `PC` a word
`w2` with the same opcode, funct3, `rd` and `rs1` and the immediate `imm mod 32`. Both
steps are taken, and the two resulting states differ at most in the program and in the
latches `IR` and `RB`, which hold the instruction word and its immediate: registers,
`PC`, cycle counter, memories and the other latches are equal. In particular
`slli x1, x1, 32` (the word `0x02009093`) leaves every register as it was, when `R[0] = 0`
and `R[1]` is a signed 32-bit value. -/
theorem slli_masks_shamt (s : State) (w w2 : Nat) (im2 : AddrMap)
    (hfetch : s.instrMemory.find s.PC = some w) (hfetch2 : im2.find s.PC = some w2)
    (hop : (decode w).opcode = 0x13) (hf3 : (decode w).funct3 = 1)
    (hop2 : (decode w2).opcode = 0x13) (hf32 : (decode w2).funct3 = 1)
    (hrd : (decode w2).rd = (decode w).rd) (hrs1 : (decode w2).rs1 = (decode w).rs1)
    (himm : (decode w2).imm = (decode w).imm % 32) :
    (∃ s1, step s = StepResult.next s1
      ∧ step { s with instrMemory := im2 }
        = StepResult.next { s1 with instrMemory := im2, IR := w2, RB := (decode w).imm % 32 })
      ∧ (w = 0x02009093 → s.R 0 = 0 → -2 ^ 31 ≤ s.R 1 ∧ s.R 1 < 2 ^ 31 →
          ∃ s1, step s = StepResult.next s1 ∧ s1.R = s.R) := by
  have hrs2 : (decode w2).rs2 = (decode w).rs2 := by
    rw [decode_opcode] at hop hop2
    rw [decode_rs2, decode_rs2, if_pos (Or.inl hop), if_pos (Or.inl hop2)]
  have hw0 : w ≠ 0 := ne_zero_of_opcode w (by rw [hop]; decide)
  have hw2 : w2 ≠ 0 := ne_zero_of_opcode w2 (by rw [hop2]; decide)
  have e2 : execIType (decode w2) (s.R (decode w).rs1) ((decode w).imm % 32)
      = execIType (decode w) (s.R (decode w).rs1) (decode w).imm := by
    rw [execIType_slli _ hf3, execIType_slli _ hf32]
    congr 3
    omega
  constructor
  · obtain ⟨out, hex⟩ := executeWord_isSome s w (by rw [hop]; decide)
    obtain ⟨s1, hs, _⟩ := step_fields s w hfetch hw0 out hex
    refine ⟨s1, hs, ?_⟩
    simp only [step, hfetch, isTerminationInstr, hw0, decide_False, Bool.false_eq_true,
      if_false, execute, hop] at hs
    norm_num at hs
    subst hs
    simp only [step, hfetch2, isTerminationInstr, hw2, decide_False, Bool.false_eq_true,
      if_false, execute, hop, hop2, hrd, hrs1, hrs2, himm]
    norm_num
    simp only [e2]
    trivial
  · intro hw h0 hr
    subst hw
    obtain ⟨s1, hs, hR, _⟩ := step_itype s _ hfetch hop
    refine ⟨s1, hs, ?_⟩
    have d1 : (decode 0x02009093).rd = 1 ∧ (decode 0x02009093).rs1 = 1
        ∧ (decode 0x02009093).imm = 32 := by decide
    obtain ⟨d1, d2, d3⟩ := d1
    funext i
    rw [hR i, execIType_slli _ hf3, d1, d2, d3]
    by_cases hi : i = 0
    · simp [hi, h0]
    · by_cases hi1 : i = 1
      · subst hi1
        simp only [if_neg hi, if_true]
        have : ((32 : Int) % 32).toNat = 0 := by decide
        rw [this]
        unfold wrap32 toI32 toU32
        split_ifs <;> omega
      · simp [hi, hi1]

/-- Witness for C23: `slli x1, x1, 32` against `slli x1, x1, 0` with `R[1] = 5`. -/
theorem slli_masks_shamt_witness :
    (∃ s1, step slliState = StepResult.next s1
      ∧ step { slliState with instrMemory := [(0, 0x00009093)] }
        = StepResult.next { s1 with instrMemory := [(0, 0x00009093)], IR := 0x00009093,
                                    RB := (decode 0x02009093).imm % 32 })
      ∧ (0x02009093 = 0x02009093 → slliState.R 0 = 0 →
          -2 ^ 31 ≤ slliState.R 1 ∧ slliState.R 1 < 2 ^ 31 →
          ∃ s1, step slliState = StepResult.next s1 ∧ s1.R = slliState.R) :=
  slli_masks_shamt slliState 0x02009093 0x00009093 [(0, 0x00009093)] (by decide) (by decide)
    (by decide) (by decide) (by decide) (by decide) (by decide) (by decide) (by decide)

/-- The execute stage of `SRLI` / `SRAI`: the shift amount is `RB mod 32`, the selector
is `(RB div 32) mod 128`. -/
theorem execIType_shiftRight (d : DecodedInstr) (hf3 : d.funct3 = 5) (RA RB : Int) :
    execIType d RA RB
      = if (RB / 32 % 128).toNat = 0 then toI32 (toU32 RA / 2 ^ (RB % 32).toNat)
        else if (RB / 32 % 128).toNat = 0x20 then RA / 2 ^ (RB % 32).toNat
        else 0 := by
  have e : toU32 (RB / 2 ^ 5) &&& 0x7F = (RB / 32 % 128).toNat := by
    rw [and_mask _ 7 0x7F (by norm_num)]
    unfold toU32
    omega
  simp only [execIType, hf3, shamt_mod, e, Nat.shiftRight_eq_div_pow]
  norm_num

/-- C24. For every signed 32-bit value `v` of `R[rs1]`, every shift amount `sh` in
`0..31` and `rd ≠ 0`: `SRLI` (opcode `0x13`, funct3 5, immediate `sh`) writes the 32-bit
pattern `floor((v mod 2^32) / 2^sh)`, which for `sh ≥ 1` is that non-negative number
itself; `SRAI` (immediate `0x400 + sh`) writes `floor(v / 2^sh)`, which is negative for
`v < 0`. -/
theorem srli_srai_fill (s : State) (w sh : Nat) (hfetch : s.instrMemory.find s.PC = some w)
    (hop : (decode w).opcode = 0x13) (hf3 : (decode w).funct3 = 5)
    (hrd : (decode w).rd ≠ 0) (hsh : sh < 32)
    (hv : -2 ^ 31 ≤ s.R (decode w).rs1 ∧ s.R (decode w).rs1 < 2 ^ 31) :
    ((decode w).imm = sh →
        ∃ s1, step s = StepResult.next s1
          ∧ s1.R (decode w).rd = toI32 ((s.R (decode w).rs1 % 2 ^ 32).toNat / 2 ^ sh)
          ∧ (1 ≤ sh → s1.R (decode w).rd = s.R (decode w).rs1 % 2 ^ 32 / 2 ^ sh
              ∧ 0 ≤ s1.R (decode w).rd))
      ∧ ((decode w).imm = 0x400 + sh →
        ∃ s1, step s = StepResult.next s1
          ∧ s1.R (decode w).rd = s.R (decode w).rs1 / 2 ^ sh
          ∧ (s.R (decode w).rs1 < 0 → s1.R (decode w).rd < 0)) := by
  obtain ⟨s1, hs, hR, _⟩ := step_itype s w hfetch hop
  have hRd := hR (decode w).rd
  rw [if_neg hrd, if_pos rfl, execIType_shiftRight _ hf3] at hRd
  generalize s.R (decode w).rs1 = v at hv hRd ⊢
  constructor
  · intro himm
    have e1 : (((sh : Nat) : Int) / 32 % 128).toNat = 0 := by omega
    have e2 : (((sh : Nat) : Int) % 32).toNat = sh := by omega
    have hU : toU32 v = (v % 2 ^ 32).toNat := rfl
    rw [himm, if_pos e1, e2, hU] at hRd
    refine ⟨s1, hs, hRd, ?_⟩
    intro h1
    rw [hRd]
    have hlt : (v % 2 ^ 32).toNat / 2 ^ sh < 2 ^ 31 := by
      apply Nat.div_lt_of_lt_mul
      have h2 : 2 ^ 1 ≤ 2 ^ sh := Nat.pow_le_pow_right (by norm_num) h1
      have h3 : (v % 2 ^ 32).toNat < 2 ^ 32 := by omega
      calc (v % 2 ^ 32).toNat < 2 ^ 1 * 2 ^ 31 := by omega
        _ ≤ 2 ^ sh * 2 ^ 31 := Nat.mul_le_mul_right _ h2
    have hcast : (((v % 2 ^ 32).toNat / 2 ^ sh : Nat) : Int) = v % 2 ^ 32 / 2 ^ sh := by
      rw [Int.natCast_div, Int.toNat_of_nonneg (by omega)]
      norm_cast
    generalize (v % 2 ^ 32).toNat / 2 ^ sh = q at hlt hcast ⊢
    rw [← hcast]
    unfold toI32
    constructor
    · split_ifs <;> omega
    · split_ifs <;> omega
  · intro himm
    have e1 : ((0x400 + (sh : Nat) : Int) / 32 % 128).toNat = 0x20 := by omega
    have e2 : ((0x400 + (sh : Nat) : Int) % 32).toNat = sh := by omega
    rw [himm, if_neg (by rw [e1]; norm_num), if_pos e1, e2] at hRd
    refine ⟨s1, hs, hRd, ?_⟩
    intro hneg
    rw [hRd]
    exact Int.ediv_lt_of_lt_mul (by positivity) (by omega)

/-- Witness for C24: `srli x2, x1, 4` and `srai x3, x1, 4` with `R[1] = -16`, giving
`0x0FFFFFFF` and `-1`. -/
theorem srli_srai_fill_witness :
    (∃ s1, step srliState = StepResult.next s1
        ∧ s1.R (decode 0x0040D113).rd
          = toI32 ((srliState.R (decode 0x0040D113).rs1 % 2 ^ 32).toNat / 2 ^ 4)
        ∧ (1 ≤ 4 → s1.R (decode 0x0040D113).rd
              = srliState.R (decode 0x0040D113).rs1 % 2 ^ 32 / 2 ^ 4
            ∧ 0 ≤ s1.R (decode 0x0040D113).rd))
      ∧ (∃ s1, step sraiState = StepResult.next s1
        ∧ s1.R (decode 0x4040D193).rd = sraiState.R (decode 0x4040D193).rs1 / 2 ^ 4
        ∧ (sraiState.R (decode 0x4040D193).rs1 < 0 → s1.R (decode 0x4040D193).rd < 0))
      ∧ toI32 ((srliState.R (decode 0x0040D113).rs1 % 2 ^ 32).toNat / 2 ^ 4) = 0x0FFFFFFF
      ∧ sraiState.R (decode 0x4040D193).rs1 / 2 ^ 4 = -1 :=
  ⟨(srli_srai_fill srliState 0x0040D113 4 (by decide) (by decide) (by decide) (by decide)
      (by decide) (by decide)).1 (by decide),
    (srli_srai_fill sraiState 0x4040D193 4 (by decide) (by decide) (by decide) (by decide)
      (by decide) (by decide)).2 (by decide), by decide, by decide⟩

/-- The register-register execute stage yields no result exactly for `DIV` and `REM` of
`-2^31` by `-1`. -/
theorem execRType_eq_none (d : DecodedInstr) (RA RB : Int) :
    execRType d RA RB = none
      ↔ (d.funct3 = 4 ∨ d.funct3 = 6) ∧ d.funct7 = 1 ∧ RA = -2 ^ 31 ∧ RB = -1 := by
  unfold execRType
  split_ifs <;> simp_all

/-- A turn of the loop is not completed exactly when the fetched word is `DIV` or `REM`
and the operands are `R[rs1] = -2^31` and `R[rs2] = -1`. -/
theorem step_undef_iff (s : State) :
    step s = StepResult.undef
      ↔ ∃ w, s.instrMemory.find s.PC = some w ∧ (decode w).opcode = 0x33
          ∧ ((decode w).funct3 = 4 ∨ (decode w).funct3 = 6) ∧ (decode w).funct7 = 1
          ∧ s.R (decode w).rs1 = -2 ^ 31 ∧ s.R (decode w).rs2 = -1 := by
  constructor
  · intro h
    cases hf : s.instrMemory.find s.PC with
    | none => simp [step, hf] at h
    | some w =>
      by_cases hw : w = 0
      · simp [step, hf, isTerminationInstr, hw] at h
      · cases hex : executeWord s w with
        | some out =>
          obtain ⟨s1, hs, _⟩ := step_fields s w hf hw out hex
          rw [hs] at h
          exact absurd h (by simp)
        | none =>
          unfold executeWord at hex
          obtain ⟨hop, hn⟩ := (execute_eq_none _ _ _ _ _).1 hex
          simp only [hop] at hn
          norm_num at hn
          exact ⟨w, rfl, hop, (execRType_eq_none _ _ _).1 hn⟩
  · rintro ⟨w, hf, hop, hf3, hf7, h1, h2⟩
    have hw : w ≠ 0 := ne_zero_of_opcode w (by rw [hop]; decide)
    apply step_undef s w hf hw
    unfold executeWord
    rw [execute_eq_none]
    refine ⟨hop, ?_⟩
    simp only [hop]
    norm_num
    exact (execRType_eq_none _ _ _).2 ⟨hf3, hf7, h1, h2⟩

/-- The three ways a turn of the loop ends. The loop is left exactly when the
instruction map has no entry at `PC` or the entry is the word `0x00000000`; the state in
which it is left has the registers, `PC`, the cycle counter and the three memories of the
state in which the fetch was made, and running on from there changes nothing; every turn
that is completed increments the cycle counter by exactly one; a turn that is not
completed ends the run without a state. -/
theorem step_outcomes (s : State) :
    (step s = StepResult.halt
        ↔ s.instrMemory.find s.PC = none ∨ s.instrMemory.find s.PC = some 0)
      ∧ (halted s = true ↔ step s = StepResult.halt)
      ∧ ((haltState s).R = s.R ∧ (haltState s).PC = s.PC
          ∧ (haltState s).clockCycle = s.clockCycle
          ∧ (haltState s).instrMemory = s.instrMemory
          ∧ (haltState s).dataSegment = s.dataSegment
          ∧ (haltState s).stackSegment = s.stackSegment)
      ∧ (step s = StepResult.halt → ∀ n, run n s = some s)
      ∧ (∀ s1, step s = StepResult.next s1 → s1.clockCycle = s.clockCycle + 1)
      ∧ (step s = StepResult.undef → ∀ n, run (n + 1) s = none) := by
  refine ⟨?_, ?_, ?_, ?_, ?_, ?_⟩
  · cases hf : s.instrMemory.find s.PC with
    | none => simp [step, hf]
    | some w =>
      by_cases hw : w = 0
      · simp [step, hf, isTerminationInstr, hw]
      · cases hex : executeWord s w with
        | some out =>
          obtain ⟨s1, hs, _⟩ := step_fields s w hf hw out hex
          simp [hs, hw]
        | none => simp [step_undef s w hf hw hex, hw]
  · unfold halted
    cases step s <;> simp
  · unfold haltState
    cases s.instrMemory.find s.PC <;> simp
  · intro h n
    exact run_of_halted n s h
  · intro s1 h
    exact step_clock s s1 h
  · intro h n
    exact run_succ_undef n s h

/-- C25. The state about to execute `div x3, x1, x2` (or `rem x3, x1, x2`)
with `R[1] = -2^31` and `R[2] = -1` has an entry at `PC` that is not the word
`0x00000000`, so the loop is not left there; yet the turn is not completed: there is no
next state, no cycle is counted and a run from there has no final state. The program
`lui x1, 0x80000` / `addi x2, x0, -1` / `div x3, x1, x2` reaches that state after two
cycles, not halted, and has no state after the third turn. -/
theorem division_overflow_ends_the_run :
    (aluState 0x0220C1B3 (-2 ^ 31) (-1)).instrMemory.find (aluState 0x0220C1B3 (-2 ^ 31) (-1)).PC
        = some 0x0220C1B3
      ∧ halted (aluState 0x0220C1B3 (-2 ^ 31) (-1)) = false
      ∧ (step (aluState 0x0220C1B3 (-2 ^ 31) (-1))).isNext = false
      ∧ (step (aluState 0x0220C1B3 (-2 ^ 31) (-1))).toOption.map (fun s => s.clockCycle) = none
      ∧ (run 1 (aluState 0x0220C1B3 (-2 ^ 31) (-1))).isNone = true
      ∧ halted (aluState 0x0220E1B3 (-2 ^ 31) (-1)) = false
      ∧ (step (aluState 0x0220E1B3 (-2 ^ 31) (-1))).isNext = false
      ∧ (run 1 (aluState 0x0220E1B3 (-2 ^ 31) (-1))).isNone = true
      ∧ (runSource divOverflowSource 2).map (fun s => (s.PC, s.clockCycle, halted s))
          = some (8, 2, false)
      ∧ (runSource divOverflowSource 3).isNone = true
      ∧ (runSource divOverflowSource 100).isNone = true := by
  have hdiv : halted (aluState 0x0220C1B3 (-2 ^ 31) (-1)) = false
      ∧ (step (aluState 0x0220C1B3 (-2 ^ 31) (-1))).isNext = false
      ∧ (run 1 (aluState 0x0220C1B3 (-2 ^ 31) (-1))).isNone = true := by
    decide
  have hrem : halted (aluState 0x0220E1B3 (-2 ^ 31) (-1)) = false
      ∧ (step (aluState 0x0220E1B3 (-2 ^ 31) (-1))).isNext = false
      ∧ (run 1 (aluState 0x0220E1B3 (-2 ^ 31) (-1))).isNone = true := by
    decide
  have hsrc : (runSource divOverflowSource 2).map (fun s => (s.PC, s.clockCycle, halted s))
        = some (8, 2, false)
      ∧ (runSource divOverflowSource 3).isNone = true
      ∧ (runSource divOverflowSource 100).isNone = true := by
    decide
  refine ⟨rfl, hdiv.1, hdiv.2.1, by decide, hdiv.2.2, ?_⟩
  exact ⟨hrem.1, hrem.2.1, hrem.2.2, hsrc.1, hsrc.2.1, hsrc.2.2⟩

/-- C26. Loader routing: a listing line that parses to the address `a` and the word `w`
(both 32 bits) puts `w` whole in the instruction map at key `a` when `a < 0x10000000`,
writes the four bytes of `w`, least significant first, at `a … a + 3` of the data
segment when `0x10000000 ≤ a < 0x50000000`, and at `a … a + 3` (modulo `2^32`) of the
stack segment otherwise; every other key of that store, and the other two stores, are as
before. -/
theorem loader_routing (m : Memories) (a w : Nat) (ha : a < 2 ^ 32) (hw : w < 2 ^ 32) :
    (a < 0x10000000 →
        (loadEntry m a w).instrMemory.find a = some w
          ∧ (∀ k, k ≠ a → (loadEntry m a w).instrMemory.find k = m.instrMemory.find k)
          ∧ (loadEntry m a w).dataSegment = m.dataSegment
          ∧ (loadEntry m a w).stackSegment = m.stackSegment)
      ∧ (0x10000000 ≤ a → a < 0x50000000 →
        (∀ i, i < 4 →
            (loadEntry m a w).dataSegment.memory.find (a + i) = some (w / 2 ^ (8 * i) % 256))
          ∧ (∀ k, (∀ i, i < 4 → k ≠ a + i) →
            (loadEntry m a w).dataSegment.memory.find k = m.dataSegment.memory.find k)
          ∧ (loadEntry m a w).instrMemory = m.instrMemory
          ∧ (loadEntry m a w).stackSegment = m.stackSegment)
      ∧ (0x50000000 ≤ a →
        (∀ i, i < 4 →
            (loadEntry m a w).stackSegment.memory.find ((a + i) % 2 ^ 32)
              = some (w / 2 ^ (8 * i) % 256))
          ∧ (∀ k, (∀ i, i < 4 → k ≠ (a + i) % 2 ^ 32) →
            (loadEntry m a w).stackSegment.memory.find k = m.stackSegment.memory.find k)
          ∧ (loadEntry m a w).instrMemory = m.instrMemory
          ∧ (loadEntry m a w).dataSegment = m.dataSegment) := by
  have b0 : toU32 (toI32 w) % 256 = w / 2 ^ (8 * 0) % 256 := by
    unfold toU32 toI32; split_ifs <;> omega
  have b1 : toU32 (toI32 w / 2 ^ 8) % 256 = w / 2 ^ (8 * 1) % 256 := by
    unfold toU32 toI32; split_ifs <;> omega
  have b2 : toU32 (toI32 w / 2 ^ 16) % 256 = w / 2 ^ (8 * 2) % 256 := by
    unfold toU32 toI32; split_ifs <;> omega
  have b3 : toU32 (toI32 w / 2 ^ 24) % 256 = w / 2 ^ (8 * 3) % 256 := by
    unfold toU32 toI32; split_ifs <;> omega
  have k0 : (a + 0) % 2 ^ 32 ≠ (a + 1) % 2 ^ 32 := by omega
  have k1 : (a + 0) % 2 ^ 32 ≠ (a + 2) % 2 ^ 32 := by omega
  have k2 : (a + 0) % 2 ^ 32 ≠ (a + 3) % 2 ^ 32 := by omega
  have k3 : (a + 1) % 2 ^ 32 ≠ (a + 2) % 2 ^ 32 := by omega
  have k4 : (a + 1) % 2 ^ 32 ≠ (a + 3) % 2 ^ 32 := by omega
  have k5 : (a + 2) % 2 ^ 32 ≠ (a + 3) % 2 ^ 32 := by omega
  have k6 : (a + 0) % 2 ^ 32 = a % 2 ^ 32 := by simp
  have hbytes : ∀ (seg : MemSegment) (i : Nat), i < 4 →
      (seg.writeWord a (toI32 w)).memory.find ((a + i) % 2 ^ 32)
        = some (w / 2 ^ (8 * i) % 256) := by
    intro seg i hi
    have hcases : i = 0 ∨ i = 1 ∨ i = 2 ∨ i = 3 := by omega
    rcases hcases with h | h | h | h <;> subst h
    · rw [writeWord_find, if_neg k2, if_neg k1, if_neg k0, if_pos k6, b0]
    · rw [writeWord_find, if_neg k4, if_neg k3, if_pos rfl, b1]
    · rw [writeWord_find, if_neg k5, if_pos rfl, b2]
    · rw [writeWord_find, if_pos rfl, b3]
  have hother : ∀ (seg : MemSegment) (k : Nat), (∀ i, i < 4 → k ≠ (a + i) % 2 ^ 32) →
      (seg.writeWord a (toI32 w)).memory.find k = seg.memory.find k := by
    intro seg k hk
    have h0 := hk 0 (by norm_num)
    rw [writeWord_find, if_neg (hk 3 (by norm_num)), if_neg (hk 2 (by norm_num)),
      if_neg (hk 1 (by norm_num)), if_neg (by rw [← k6]; exact h0)]
  refine ⟨?_, ?_, ?_⟩
  · intro h
    rw [loadEntry_instr m a w h hw]
    refine ⟨?_, ?_, rfl, rfl⟩
    · simp [AddrMap.find_insert]
    · intro k hk
      simp [AddrMap.find_insert, hk]
  · intro h1 h2
    rw [loadEntry_data m a w h1 h2 hw]
    refine ⟨?_, ?_, rfl, rfl⟩
    · intro i hi
      have := hbytes m.dataSegment i hi
      rwa [Nat.mod_eq_of_lt (by omega)] at this
    · intro k hk
      apply hother
      intro i hi
      rw [Nat.mod_eq_of_lt (by omega)]
      exact hk i hi
  · intro h
    have e1 : a % 2 ^ 32 = a := Nat.mod_eq_of_lt ha
    have e2 : w % 2 ^ 32 = w := Nat.mod_eq_of_lt hw
    have h3 : ¬ a < 0x10000000 := by omega
    have h4 : ¬ a < 0x50000000 := by omega
    have hl : loadEntry m a w
        = { m with stackSegment := m.stackSegment.writeWord a (toI32 w) } := by
      simp only [loadEntry, e1, e2, if_neg h3, if_neg h4]
    rw [hl]
    exact ⟨hbytes m.stackSegment, hother m.stackSegment, rfl, rfl⟩

/-- Witness for C26: the word `0xDEADBEEF` at the start of the data segment of an empty
machine. -/
theorem loader_routing_witness :
    (∀ i, i < 4 →
        (loadEntry ⟨[], ⟨[]⟩, ⟨[]⟩⟩ 0x10000000 0xDEADBEEF).dataSegment.memory.find
            (0x10000000 + i) = some (0xDEADBEEF / 2 ^ (8 * i) % 256))
      ∧ (loadEntry ⟨[], ⟨[]⟩, ⟨[]⟩⟩ 0x10000000 0xDEADBEEF).instrMemory = []
      ∧ (loadEntry ⟨[], ⟨[]⟩, ⟨[]⟩⟩ 0x10000000 0xDEADBEEF).stackSegment = ⟨[]⟩ :=
  ⟨((loader_routing ⟨[], ⟨[]⟩, ⟨[]⟩⟩ 0x10000000 0xDEADBEEF (by decide) (by decide)).2.1
      (by decide) (by decide)).1,
    ((loader_routing ⟨[], ⟨[]⟩, ⟨[]⟩⟩ 0x10000000 0xDEADBEEF (by decide) (by decide)).2.1
      (by decide) (by decide)).2.2.1,
    ((loader_routing ⟨[], ⟨[]⟩, ⟨[]⟩⟩ 0x10000000 0xDEADBEEF (by decide) (by decide)).2.1
      (by decide) (by decide)).2.2.2⟩

/-- The byte `readByte` returns is the stored byte read as signed. -/
theorem readByte_eq_byteAt (m : MemSegment) (a : Nat) :
    m.readByte a = signExtendSpec (m.byteAt a) 8 := by
  unfold MemSegment.readByte MemSegment.byteAt signExtendSpec
  cases m.memory.find (a % 2 ^ 32) with
  | none => simp
  | some b =>
    simp only
    norm_num
    split_ifs <;> omega

/-- The low byte of what `readByte` returns is the stored byte. -/
theorem readByte_low (m : MemSegment) (a : Nat) :
    toU32 (m.readByte a) &&& 0xFF = m.byteAt a := by
  rw [and_mask _ 8 0xFF (by norm_num)]
  unfold MemSegment.readByte MemSegment.byteAt toU32
  cases m.memory.find (a % 2 ^ 32) with
  | none => simp
  | some b =>
    simp only
    split_ifs <;> omega

/-- The word `readWord` returns: the four stored bytes, least significant first, read
as signed. -/
theorem readWord_eq_byteAt (m : MemSegment) (a : Nat) :
    m.readWord a = toI32 (m.byteAt (a + 0) + m.byteAt (a + 1) * 256 + m.byteAt (a + 2) * 65536
      + m.byteAt (a + 3) * 16777216) := by
  have l : ∀ k, m.byteAt k < 256 := by
    intro k
    unfold MemSegment.byteAt
    cases m.memory.find (k % 2 ^ 32) with
    | none => simp
    | some b => simp only; omega
  have h0 := l (a + 0)
  have h1 := l (a + 1)
  have h2 := l (a + 2)
  have h3 := l (a + 3)
  have e : m.readWord a = toI32 (0 ||| ((m.byteAt (a + 0) <<< 0) % 2 ^ 32)
      ||| ((m.byteAt (a + 1) <<< 8) % 2 ^ 32) ||| ((m.byteAt (a + 2) <<< 16) % 2 ^ 32)
      ||| ((m.byteAt (a + 3) <<< 24) % 2 ^ 32)) := rfl
  rw [e]
  generalize m.byteAt (a + 0) = b0 at *
  generalize m.byteAt (a + 1) = b1 at *
  generalize m.byteAt (a + 2) = b2 at *
  generalize m.byteAt (a + 3) = b3 at *
  simp only [Nat.shiftLeft_eq, Nat.zero_or]
  have e0 : b0 * 2 ^ 0 % 2 ^ 32 = b0 := by omega
  have e1 : b1 * 2 ^ 8 % 2 ^ 32 = b1 * 256 := by omega
  have e2 : b2 * 2 ^ 16 % 2 ^ 32 = b2 * 65536 := by omega
  have e3 : b3 * 2 ^ 24 % 2 ^ 32 = b3 * 16777216 := by omega
  rw [e0, e1, e2, e3, or_chain4_low _ _ _ _ 8 16 24 (by omega) (by omega) (by omega) (by omega)
    (by omega) (by omega)]

/-- C27. Load widths and sign extension: a fetched load (opcode `0x03`) with `rd ≠ 0`
whose effective address `a = (R[rs1] + imm) mod 2^32` is at least `0x10000000` is
executed on the data segment (`a < 0x50000000`) or the stack segment (otherwise), absent
bytes reading as 0: `LB` (funct3 0) sets `R[rd]` to the byte at `a` sign-extended from 8
bits, `LH` (funct3 1) to `(byte at a) + 256 * (byte at a + 1)` sign-extended from 16 bits,
`LW` (funct3 2) to the little-endian word at `a … a + 3` read as a signed 32-bit
number. -/
theorem load_widths (s : State) (w : Nat) (seg : MemSegment) (a : Nat)
    (hfetch : s.instrMemory.find s.PC = some w) (hop : (decode w).opcode = 0x03)
    (hrd : (decode w).rd ≠ 0) (ha : a = toU32 (s.R (decode w).rs1 + (decode w).imm))
    (hlow : 0x10000000 ≤ a)
    (hseg : seg = if a < 0x50000000 then s.dataSegment else s.stackSegment) :
    ∃ s1, step s = StepResult.next s1
      ∧ ((decode w).funct3 = 0 → s1.R (decode w).rd = signExtendSpec (seg.byteAt a) 8)
      ∧ ((decode w).funct3 = 1 →
          s1.R (decode w).rd = signExtendSpec (seg.byteAt a + 256 * seg.byteAt (a + 1)) 16)
      ∧ ((decode w).funct3 = 2 →
          s1.R (decode w).rd = signExtendSpec (seg.byteAt a + 256 * seg.byteAt (a + 1)
            + 65536 * seg.byteAt (a + 2) + 16777216 * seg.byteAt (a + 3)) 32) := by
  have hw0 : w ≠ 0 := ne_zero_of_opcode w (by rw [hop]; decide)
  have hwb : writesBack (decode w).opcode = true := by rw [hop]; decide
  have hseg2 : s.segment (getMemSegmentForAddress a) = seg := by
    rw [hseg]
    unfold getMemSegmentForAddress
    rw [if_neg (by omega)]
    split_ifs <;> rfl
  have hreg : getMemSegmentForAddress a ≠ Region.invalid := by
    unfold getMemSegmentForAddress
    rw [if_neg (by omega)]
    split_ifs <;> exact fun h => Region.noConfusion h
  have l : ∀ k, seg.byteAt k < 256 := by
    intro k
    unfold MemSegment.byteAt
    cases seg.memory.find (k % 2 ^ 32) with
    | none => simp
    | some b => simp only; omega
  have hex : ∃ out, executeWord s w = some out ∧ out.RY
      = if (decode w).funct3 = 0 then seg.readByte a
        else if (decode w).funct3 = 1 then
          (if ((toU32 (seg.readByte (a + 0)) &&& 0xFF)
              ||| ((toU32 (seg.readByte (a + 1)) &&& 0xFF) <<< 8)) % 2 ^ 16 < 2 ^ 15
            then ((((toU32 (seg.readByte (a + 0)) &&& 0xFF)
              ||| ((toU32 (seg.readByte (a + 1)) &&& 0xFF) <<< 8)) % 2 ^ 16 : Nat) : Int)
            else ((((toU32 (seg.readByte (a + 0)) &&& 0xFF)
              ||| ((toU32 (seg.readByte (a + 1)) &&& 0xFF) <<< 8)) % 2 ^ 16 : Nat) : Int)
                - 2 ^ 16)
        else if (decode w).funct3 = 2 then seg.readWord a
        else 0 := by
    rw [← hseg2]
    subst ha
    simp only [executeWord, execute, hop]
    norm_num
    generalize toU32 (s.R (decode w).rs1 + (decode w).imm) = a at hreg ⊢
    cases hg : getMemSegmentForAddress a with
    | invalid => exact absurd hg hreg
    | data => simp only []; split_ifs <;> exact ⟨_, rfl, rfl⟩
    | stack => simp only []; split_ifs <;> exact ⟨_, rfl, rfl⟩
  obtain ⟨out, hout, hex⟩ := hex
  obtain ⟨s1, hs, hR, _⟩ := step_fields s w hfetch hw0 out hout
  have hRd := hR (decode w).rd
  rw [if_neg hrd, if_pos ⟨hwb, hrd, rfl⟩] at hRd
  rw [hex] at hRd
  refine ⟨s1, hs, ?_, ?_, ?_⟩
  · intro h
    rw [hRd, if_pos h, readByte_eq_byteAt]
  · intro h
    rw [hRd, if_neg (by rw [h]; norm_num), if_pos h, readByte_low, readByte_low,
      Nat.shiftLeft_eq, Nat.lor_comm,
      or_eq_add (seg.byteAt (a + 1) * 2 ^ 8) (seg.byteAt (a + 0)) 8 (by omega) (l _)]
    have h0 := l (a + 0)
    have h1 := l (a + 1)
    have e : a + 0 = a := rfl
    rw [e] at h0 ⊢
    generalize seg.byteAt a = b0 at h0 ⊢
    generalize seg.byteAt (a + 1) = b1 at h1 ⊢
    unfold signExtendSpec
    push_cast
    split_ifs <;> omega
  · intro h
    rw [hRd, if_neg (by rw [h]; norm_num), if_neg (by rw [h]; norm_num), if_pos h,
      readWord_eq_byteAt]
    have h0 := l (a + 0)
    have h1 := l (a + 1)
    have h2 := l (a + 2)
    have h3 := l (a + 3)
    have e : a + 0 = a := rfl
    rw [e] at h0 ⊢
    generalize seg.byteAt a = b0 at h0 ⊢
    generalize seg.byteAt (a + 1) = b1 at h1 ⊢
    generalize seg.byteAt (a + 2) = b2 at h2 ⊢
    generalize seg.byteAt (a + 3) = b3 at h3 ⊢
    unfold signExtendSpec toI32
    push_cast
    split_ifs <;> omega

/-- Witness for C27: `lb`, `lh` and `lw` at `0x10000000`, where the bytes are
`0x80, 0xFF, 0x01` and the fourth is absent. -/
theorem load_widths_witness :
    (∃ s1, step (loadState 0) = StepResult.next s1
      ∧ ((decode 0x00008183).funct3 = 0 → s1.R (decode 0x00008183).rd
          = signExtendSpec ((loadState 0).dataSegment.byteAt 0x10000000) 8)
      ∧ ((decode 0x00008183).funct3 = 1 → s1.R (decode 0x00008183).rd
          = signExtendSpec ((loadState 0).dataSegment.byteAt 0x10000000
            + 256 * (loadState 0).dataSegment.byteAt (0x10000000 + 1)) 16)
      ∧ ((decode 0x00008183).funct3 = 2 → s1.R (decode 0x00008183).rd
          = signExtendSpec ((loadState 0).dataSegment.byteAt 0x10000000
            + 256 * (loadState 0).dataSegment.byteAt (0x10000000 + 1)
            + 65536 * (loadState 0).dataSegment.byteAt (0x10000000 + 2)
            + 16777216 * (loadState 0).dataSegment.byteAt (0x10000000 + 3)) 32))
    ∧ (∃ s1, step (loadState 4) = StepResult.next s1
      ∧ ((decode 0x00009203).funct3 = 0 → s1.R (decode 0x00009203).rd
          = signExtendSpec ((loadState 4).dataSegment.byteAt 0x10000000) 8)
      ∧ ((decode 0x00009203).funct3 = 1 → s1.R (decode 0x00009203).rd
          = signExtendSpec ((loadState 4).dataSegment.byteAt 0x10000000
            + 256 * (loadState 4).dataSegment.byteAt (0x10000000 + 1)) 16)
      ∧ ((decode 0x00009203).funct3 = 2 → s1.R (decode 0x00009203).rd
          = signExtendSpec ((loadState 4).dataSegment.byteAt 0x10000000
            + 256 * (loadState 4).dataSegment.byteAt (0x10000000 + 1)
            + 65536 * (loadState 4).dataSegment.byteAt (0x10000000 + 2)
            + 16777216 * (loadState 4).dataSegment.byteAt (0x10000000 + 3)) 32))
    ∧ (∃ s1, step (loadState 8) = StepResult.next s1
      ∧ ((decode 0x0000A283).funct3 = 0 → s1.R (decode 0x0000A283).rd
          = signExtendSpec ((loadState 8).dataSegment.byteAt 0x10000000) 8)
      ∧ ((decode 0x0000A283).funct3 = 1 → s1.R (decode 0x0000A283).rd
          = signExtendSpec ((loadState 8).dataSegment.byteAt 0x10000000
            + 256 * (loadState 8).dataSegment.byteAt (0x10000000 + 1)) 16)
      ∧ ((decode 0x0000A283).funct3 = 2 → s1.R (decode 0x0000A283).rd
          = signExtendSpec ((loadState 8).dataSegment.byteAt 0x10000000
            + 256 * (loadState 8).dataSegment.byteAt (0x10000000 + 1)
            + 65536 * (loadState 8).dataSegment.byteAt (0x10000000 + 2)
            + 16777216 * (loadState 8).dataSegment.byteAt (0x10000000 + 3)) 32))
    ∧ signExtendSpec ((loadState 0).dataSegment.byteAt 0x10000000) 8 = -128
    ∧ signExtendSpec ((loadState 4).dataSegment.byteAt 0x10000000
        + 256 * (loadState 4).dataSegment.byteAt (0x10000000 + 1)) 16 = -128
    ∧ signExtendSpec ((loadState 8).dataSegment.byteAt 0x10000000
        + 256 * (loadState 8).dataSegment.byteAt (0x10000000 + 1)
        + 65536 * (loadState 8).dataSegment.byteAt (0x10000000 + 2)
        + 16777216 * (loadState 8).dataSegment.byteAt (0x10000000 + 3)) 32 = 0x1FF80 :=
  ⟨load_widths (loadState 0) 0x00008183 (loadState 0).dataSegment 0x10000000 (by decide)
      (by decide) (by decide) (by decide) (by decide) (by decide),
    load_widths (loadState 4) 0x00009203 (loadState 4).dataSegment 0x10000000 (by decide)
      (by decide) (by decide) (by decide) (by decide) (by decide),
    load_widths (loadState 8) 0x0000A283 (loadState 8).dataSegment 0x10000000 (by decide)
      (by decide) (by decide) (by decide) (by decide) (by decide),
    by decide, by decide, by decide⟩

/-! ## Pass 1: labels and data directives -/

/-- The body of the loop of pass 1 in its three parts: skipped lines, the label, the
directive or instruction. -/
theorem pass1Line_unfold (a : Assembler) (line : String) :
    a.pass1Line line
      = if (trim line).data = [] then some a
        else if (trim line).data.head? = some '#' then some a
        else (a.bindLabel (trim line)).1.directiveOrInstruction (trim line)
          (a.bindLabel (trim line)).2 := by
  by_cases h1 : (trim line).data = []
  · simp only [Assembler.pass1Line, h1, if_true]
  · by_cases h2 : (trim line).data.head? = some '#'
    · simp only [Assembler.pass1Line, h2, if_neg h1, if_true]
    · simp only [Assembler.pass1Line, if_neg h1, if_neg h2]
      unfold Assembler.bindLabel Assembler.directiveOrInstruction Assembler.labelAddr
      cases findChar ':' (trim line).data <;> rfl

/-- Inserting never shortens the map. -/
theorem AddrMap.length_le_insert (m : AddrMap) (k v : Nat) :
    m.length ≤ (AddrMap.insert m k v).length := by
  induction m with
  | nil => simp [AddrMap.insert]
  | cons p rest ih =>
    obtain ⟨k1, v1⟩ := p
    simp only [AddrMap.insert]
    split_ifs
    · simp
    · simp
    · simpa using ih

/-- Inserting a key above all keys of the map appends it. -/
theorem AddrMap.insert_of_keys_lt (m : AddrMap) (k v : Nat) (h : ∀ p ∈ m, p.1 < k) :
    AddrMap.insert m k v = m ++ [(k, v)] := by
  induction m with
  | nil => rfl
  | cons p rest ih =>
    obtain ⟨k1, v1⟩ := p
    have h1 : k1 < k := h (k1, v1) (List.mem_cons_self _ _)
    simp only [AddrMap.insert]
    rw [if_neg (by omega), if_neg (by omega), ih (fun p hp => h p (List.mem_cons_of_mem _ hp))]
    rfl

/-- The stores of one operand never shorten the data image. -/
theorem emitBytes_length_le (a : Assembler) (v : Int) (n : Nat) :
    a.dataMemory.length ≤ (a.emitBytes v n).dataMemory.length := by
  unfold Assembler.emitBytes
  simp only
  induction n with
  | zero => simp
  | succ n ih =>
    rw [List.range_succ, List.foldl_append]
    exact le_trans ih (AddrMap.length_le_insert _ _ _)

/-- The stores of one operand keep the data invariant. -/
theorem dataInv_emitBytes (a : Assembler) (v : Int) (n : Nat) (h : a.dataInv) :
    (a.emitBytes v n).dataInv := by
  intro hlen
  have hmono := emitBytes_length_le a v n
  obtain ⟨hk, hd⟩ := h (by omega)
  have key : ∀ j, ((List.range j).foldl
        (fun m i => AddrMap.insert m ((a.currentDataAddr + i) % 2 ^ 32)
          ((v / 2 ^ (8 * i) % 256).toNat)) a.dataMemory).length < 0xF0000000 →
      ((List.range j).foldl
        (fun m i => AddrMap.insert m ((a.currentDataAddr + i) % 2 ^ 32)
          ((v / 2 ^ (8 * i) % 256).toNat)) a.dataMemory).map Prod.fst
        = List.range' 0x10000000 (a.dataMemory.length + j) := by
    intro j
    induction j with
    | zero => intro _; simpa using hk
    | succ j ih =>
      rw [List.range_succ, List.foldl_append]
      simp only [List.foldl_cons, List.foldl_nil]
      intro hl
      have hle := AddrMap.length_le_insert ((List.range j).foldl
        (fun m i => AddrMap.insert m ((a.currentDataAddr + i) % 2 ^ 32)
          ((v / 2 ^ (8 * i) % 256).toNat)) a.dataMemory) ((a.currentDataAddr + j) % 2 ^ 32)
          ((v / 2 ^ (8 * j) % 256).toNat)
      have ihj := ih (by omega)
      generalize (List.range j).foldl
        (fun m i => AddrMap.insert m ((a.currentDataAddr + i) % 2 ^ 32)
          ((v / 2 ^ (8 * i) % 256).toNat)) a.dataMemory = m at hl hle ihj ⊢
      have hml : m.length = a.dataMemory.length + j := by
        have := congrArg List.length ihj
        simpa using this
      have hkey : (a.currentDataAddr + j) % 2 ^ 32 = 0x10000000 + (a.dataMemory.length + j) := by
        rw [hd]
        omega
      have hfresh : ∀ p ∈ m, p.1 < (a.currentDataAddr + j) % 2 ^ 32 := by
        intro p hp
        have : p.1 ∈ m.map Prod.fst := List.mem_map_of_mem _ hp
        rw [ihj, List.mem_range'_1] at this
        omega
      rw [AddrMap.insert_of_keys_lt m _ _ hfresh, List.map_append, ihj, hkey]
      simp only [List.map_cons, List.map_nil]
      have hc : List.range' 0x10000000 (a.dataMemory.length + j + 1) 1
          = List.range' 0x10000000 (a.dataMemory.length + j) 1
            ++ [0x10000000 + 1 * (a.dataMemory.length + j)] := List.range'_concat _ _
      rw [Nat.one_mul] at hc
      exact hc.symm
  have hfin := key n hlen
  have hl2 : (a.emitBytes v n).dataMemory.length = a.dataMemory.length + n := by
    have := congrArg List.length hfin
    simpa using this
  refine ⟨?_, ?_⟩
  · rw [hl2]
    exact hfin
  · show (a.currentDataAddr + n) % 2 ^ 32 = _
    rw [hl2, hd]
    omega

/-- A sequence of operand emissions keeps the data invariant and touches nothing but the
data image and the data counter. -/
theorem emitAll_frame (l : List (Int × Nat)) (a : Assembler) :
    (a.dataInv → (a.emitAll l).dataInv)
      ∧ (a.emitAll l).textInstructions = a.textInstructions
      ∧ (a.emitAll l).symbolTable = a.symbolTable
      ∧ (a.emitAll l).currentTextAddr = a.currentTextAddr
      ∧ (a.emitAll l).currentSection = a.currentSection := by
  induction l generalizing a with
  | nil => exact ⟨id, rfl, rfl, rfl, rfl⟩
  | cons p l ih =>
    obtain ⟨h1, h2, h3, h4, h5⟩ := ih (a.emitBytes p.1 p.2)
    exact ⟨fun h => h1 (dataInv_emitBytes a p.1 p.2 h), h2, h3, h4, h5⟩

/-- A loop over the operands that emits `n` bytes for each is a sequence of operand
emissions. -/
theorem foldlM_emit (n : Nat) (f : String → Option Int) (tokens : List String)
    (a a1 : Assembler)
    (h : tokens.foldlM (fun a tk => (f tk).bind fun v => some (a.emitBytes v n)) a = some a1) :
    ∃ l, a1 = a.emitAll l := by
  induction tokens generalizing a with
  | nil =>
    simp only [List.foldlM_nil, Option.pure_def, Option.some.injEq] at h
    exact ⟨[], h.symm⟩
  | cons tk tokens ih =>
    simp only [List.foldlM_cons, Option.bind_eq_bind] at h
    cases hf : f tk with
    | none => simp [hf] at h
    | some v =>
      simp only [hf, Option.some_bind] at h
      obtain ⟨l, hl⟩ := ih _ h
      exact ⟨(v, n) :: l, hl⟩

/-- Every data directive is a sequence of operand emissions. -/
theorem dataDirective_emitAll (a a1 : Assembler) (directive : String) (tokens : List String)
    (h : a.dataDirective directive tokens = some a1) : ∃ l, a1 = a.emitAll l := by
  unfold Assembler.dataDirective at h
  split_ifs at h
  · exact foldlM_emit 1 parseImmediate tokens a a1 h
  · exact foldlM_emit 2 parseImmediate tokens a a1 h
  · exact foldlM_emit 4 parseImmediate tokens a a1 h
  · exact foldlM_emit 8 (fun tk => some (strtoll0 tk)) tokens a a1 h
  · cases tokens with
    | nil =>
      simp only [Option.some.injEq] at h
      exact ⟨[], h.symm⟩
    | cons tk rest =>
      simp only [Option.some.injEq] at h
      have key : ∀ (cs : List Char) (a : Assembler),
          cs.foldl (fun a c => a.emitBytes ((c.toNat : Int) % 256) 1) a
            = a.emitAll (cs.map fun c => ((c.toNat : Int) % 256, 1)) := by
        intro cs
        induction cs with
        | nil => intro a; rfl
        | cons c cs ih => intro a; exact ih _
      rw [key] at h
      generalize List.map (fun c : Char => ((c.toNat : Int) % 256, 1)) _ = l at h
      refine ⟨l ++ [(0, 1)], ?_⟩
      rw [← h]
      unfold Assembler.emitAll
      rw [List.foldl_append]
      rfl
  · simp only [Option.some.injEq] at h
    exact ⟨[], h.symm⟩

/-- One more instruction line keeps the text invariant. -/
theorem textInv_push (a : Assembler) (mnemonic originalLine : String) (operands : List String)
    (sec : Section) (h : a.textInv) :
    ({ a with
        currentSection := sec
        textInstructions := a.textInstructions ++
          [InstructionLine.mk a.currentTextAddr mnemonic operands originalLine]
        currentTextAddr := (a.currentTextAddr + 4) % 2 ^ 32 } : Assembler).textInv := by
  obtain ⟨h1, h2⟩ := h
  constructor
  · show (a.currentTextAddr + 4) % 2 ^ 32
      = 4 * (a.textInstructions ++ [InstructionLine.mk a.currentTextAddr mnemonic operands originalLine]).length
        % 2 ^ 32
    rw [List.length_append, List.length_singleton, h1]
    omega
  · intro i hi
    show ((a.textInstructions ++ [InstructionLine.mk a.currentTextAddr mnemonic operands originalLine]).get
      ⟨i, hi⟩).address = 4 * i % 2 ^ 32
    have hi2 : i < a.textInstructions.length + 1 := by
      have := hi
      simp only [List.length_append, List.length_singleton] at this
      exact this
    rw [List.get_eq_getElem]
    by_cases hlt : i < a.textInstructions.length
    · rw [List.getElem_append_left hlt]
      have := h2 i hlt
      rwa [List.get_eq_getElem] at this
    · have hieq : i = a.textInstructions.length := by omega
      subst hieq
      rw [List.getElem_append_right (Nat.le_refl _)]
      simp only [Nat.sub_self, List.getElem_cons_zero]
      exact h1

/-- The directive-or-instruction part keeps both invariants and the symbol table, and
only appends to the instruction lines. -/
theorem directiveOrInstruction_inv (a a1 : Assembler) (originalLine rawLine : String)
    (h : a.directiveOrInstruction originalLine rawLine = some a1) :
    (a.textInv → a1.textInv) ∧ (a.dataInv → a1.dataInv) ∧ a1.symbolTable = a.symbolTable
      ∧ ∃ x, a1.textInstructions = a.textInstructions ++ x := by
  unfold Assembler.directiveOrInstruction at h
  split_ifs at h with h1 h2
  · simp only [Option.some.injEq] at h
    subst h
    exact ⟨id, id, rfl, [], by simp⟩
  · split at h
    · simp only [Option.some.injEq] at h
      subst h
      exact ⟨id, id, rfl, [], by simp⟩
    · split_ifs at h
      · simp only [Option.some.injEq] at h
        subst h
        exact ⟨id, id, rfl, [], by simp⟩
      · simp only [Option.some.injEq] at h
        subst h
        exact ⟨id, id, rfl, [], by simp⟩
      · obtain ⟨l, hl⟩ := dataDirective_emitAll _ _ _ _ h
        obtain ⟨e1, e2, e3, e4, e5⟩ := emitAll_frame l
          ({ a with currentSection := Section.DATA } : Assembler)
        rw [← hl] at e1 e2 e3 e4 e5
        refine ⟨?_, e1, e3, [], by simp [e2]⟩
        intro ht
        obtain ⟨t1, t2⟩ := ht
        constructor
        · rw [e4, e2]
          exact t1
        · intro i hi
          have hi2 : i < a.textInstructions.length := by
            have := hi
            rw [e2] at this
            exact this
          have := t2 i hi2
          rw [List.get_eq_getElem] at this ⊢
          simp only [e2]
          exact this
      · simp only [Option.some.injEq] at h
        subst h
        exact ⟨id, id, rfl, [], by simp⟩
  · split at h
    · exact absurd h (by simp)
    · simp only [Option.some.injEq] at h
      subst h
      exact ⟨textInv_push a _ _ _ _, id, rfl, _, rfl⟩

/-- The body of the loop of pass 1 keeps both invariants and only appends to the
instruction lines. -/
theorem pass1Line_inv (a a1 : Assembler) (line : String) (h : a.pass1Line line = some a1) :
    (a.textInv → a1.textInv) ∧ (a.dataInv → a1.dataInv)
      ∧ ∃ x, a1.textInstructions = a.textInstructions ++ x := by
  rw [pass1Line_unfold] at h
  split_ifs at h with h1 h2
  · simp only [Option.some.injEq] at h
    subst h
    exact ⟨id, id, [], by simp⟩
  · simp only [Option.some.injEq] at h
    subst h
    exact ⟨id, id, [], by simp⟩
  · obtain ⟨e1, e2, _, e4⟩ := directiveOrInstruction_inv _ _ _ _ h
    have hb : ∃ st, (a.bindLabel (trim line)).1 = { a with symbolTable := st } := by
      unfold Assembler.bindLabel
      cases findChar ':' (trim line).data
      · exact ⟨a.symbolTable, rfl⟩
      · exact ⟨_, rfl⟩
    obtain ⟨st, hst⟩ := hb
    rw [hst] at e1 e2 e4
    exact ⟨fun ht => e1 ht, fun hd => e2 hd, e4⟩

/-- The state pass 1 sets out from satisfies both invariants. -/
theorem init_inv : Assembler.init.textInv ∧ Assembler.init.dataInv := by
  constructor
  · exact ⟨rfl, fun i hi => absurd hi (by simp [Assembler.init])⟩
  · intro _
    exact ⟨rfl, rfl⟩

/-- Pass 1 continued from a state that satisfies the invariants reaches such a state, and
only appends to the instruction lines. -/
theorem foldlM_pass1Line_inv (source : List String) (a a1 : Assembler)
    (h : source.foldlM Assembler.pass1Line a = some a1) :
    (a.textInv → a1.textInv) ∧ (a.dataInv → a1.dataInv)
      ∧ ∃ x, a1.textInstructions = a.textInstructions ++ x := by
  induction source generalizing a with
  | nil =>
    simp only [List.foldlM_nil, Option.pure_def, Option.some.injEq] at h
    subst h
    exact ⟨id, id, [], by simp⟩
  | cons line source ih =>
    simp only [List.foldlM_cons, Option.bind_eq_bind] at h
    cases hl : a.pass1Line line with
    | none => simp [hl] at h
    | some a0 =>
      simp only [hl, Option.some_bind] at h
      obtain ⟨p1, p2, x, p3⟩ := pass1Line_inv a a0 line hl
      obtain ⟨q1, q2, y, q3⟩ := ih a0 h
      exact ⟨fun t => q1 (p1 t), fun d => q2 (p2 d), x ++ y, by rw [q3, p3, List.append_assoc]⟩

/-- C28. Label binding in pass 1. Let pass 1 have read the lines `pre` and reached the
state `a`, and let the next line have a label (a colon at `colonPos` of the trimmed line,
which is neither empty nor a comment). Then after that line the label is bound to
`a.labelAddr`. When the active section of `a` is the text section or none, this is
`4 * (number of instruction lines read so far)` in `uint32_t` (the number itself below
`2^30` lines), and it is the address of the next instruction line, if one follows. When
the active section is the data section, it is `0x10000000 + (number of data bytes stored
so far)`, as long as the data counter has not wrapped. -/
theorem label_binding (pre post : List String) (line : String) (a a1 a2 : Assembler)
    (colonPos : Nat) (hpre : Assembler.pass1 pre = some a)
    (hline : a.pass1Line line = some a1)
    (hpost : post.foldlM Assembler.pass1Line a1 = some a2)
    (hne : (trim line).data ≠ []) (hc : (trim line).data.head? ≠ some '#')
    (hcolon : findChar ':' (trim line).data = some colonPos) :
    Assembler.pass1 (pre ++ line :: post) = some a2
      ∧ a1.symbolTable.lookup (trim (String.mk ((trim line).data.take colonPos)))
          = some a.labelAddr
      ∧ (a.currentSection ≠ Section.DATA →
          a.labelAddr = 4 * a.textInstructions.length % 2 ^ 32
            ∧ (a.textInstructions.length < 2 ^ 30 → a.labelAddr = 4 * a.textInstructions.length)
            ∧ (∃ x, a2.textInstructions = a.textInstructions ++ x)
            ∧ ∀ h : a.textInstructions.length < a2.textInstructions.length,
                (a2.textInstructions.get ⟨a.textInstructions.length, h⟩).address = a.labelAddr)
      ∧ (a.currentSection = Section.DATA → a.dataMemory.length < 0xF0000000 →
          a.labelAddr = 0x10000000 + a.dataMemory.length) := by
  obtain ⟨i1, i2, _⟩ := foldlM_pass1Line_inv pre Assembler.init a hpre
  have hti := i1 init_inv.1
  have hdi := i2 init_inv.2
  obtain ⟨j1, _, x, j3⟩ := pass1Line_inv a a1 line hline
  obtain ⟨k1, _, y, k3⟩ := foldlM_pass1Line_inv post a1 a2 hpost
  have hti2 := k1 (j1 hti)
  refine ⟨?_, ?_, ?_, ?_⟩
  · unfold Assembler.pass1 at hpre ⊢
    rw [List.foldlM_append, hpre]
    simp only [Option.bind_eq_bind, Option.some_bind, List.foldlM_cons, hline]
    exact hpost
  · have h := hline
    rw [pass1Line_unfold, if_neg hne, if_neg hc] at h
    obtain ⟨_, _, e3, _⟩ := directiveOrInstruction_inv _ _ _ _ h
    rw [e3]
    unfold Assembler.bindLabel
    rw [hcolon]
    simp [List.lookup]
  · intro hs
    have hl : a.labelAddr = a.currentTextAddr := by
      unfold Assembler.labelAddr
      cases hsec : a.currentSection with
      | UNDEF => rfl
      | TEXT => rfl
      | DATA => exact absurd hsec hs
    rw [hl]
    refine ⟨hti.1, ?_, ⟨x ++ y, by rw [k3, j3, List.append_assoc]⟩, ?_⟩
    · intro hlt
      rw [hti.1]
      omega
    · intro h
      rw [hti2.2 _ h, hti.1]
  · intro hs hlen
    have hl : a.labelAddr = a.currentDataAddr := by
      unfold Assembler.labelAddr
      rw [hs]
    rw [hl]
    exact (hdi hlen).2

/-- Witness for C28: the label `L` after one instruction line is bound to 4, the address
of the instruction on its own line; the label `D` after one `.word` is bound to
`0x10000004`. -/
theorem label_binding_witness :
    (Assembler.pass1 (["addi x1, x0, 1"] ++ "L: addi x1, x1, 1" :: []) = some labelTextAfter
      ∧ labelTextAfter.symbolTable.lookup
          (trim (String.mk ((trim "L: addi x1, x1, 1").data.take 1)))
          = some labelTextBefore.labelAddr
      ∧ (labelTextBefore.currentSection ≠ Section.DATA →
          labelTextBefore.labelAddr = 4 * labelTextBefore.textInstructions.length % 2 ^ 32
            ∧ (labelTextBefore.textInstructions.length < 2 ^ 30 →
              labelTextBefore.labelAddr = 4 * labelTextBefore.textInstructions.length)
            ∧ (∃ x, labelTextAfter.textInstructions = labelTextBefore.textInstructions ++ x)
            ∧ ∀ h : labelTextBefore.textInstructions.length
                < labelTextAfter.textInstructions.length,
                (labelTextAfter.textInstructions.get
                  ⟨labelTextBefore.textInstructions.length, h⟩).address
                  = labelTextBefore.labelAddr)
      ∧ (labelTextBefore.currentSection = Section.DATA →
          labelTextBefore.dataMemory.length < 0xF0000000 →
          labelTextBefore.labelAddr = 0x10000000 + labelTextBefore.dataMemory.length))
    ∧ (Assembler.pass1 ([".data", ".word 5"] ++ "D: .byte 1" :: []) = some labelDataAfter
      ∧ labelDataAfter.symbolTable.lookup
          (trim (String.mk ((trim "D: .byte 1").data.take 1)))
          = some labelDataBefore.labelAddr
      ∧ (labelDataBefore.currentSection ≠ Section.DATA →
          labelDataBefore.labelAddr = 4 * labelDataBefore.textInstructions.length % 2 ^ 32
            ∧ (labelDataBefore.textInstructions.length < 2 ^ 30 →
              labelDataBefore.labelAddr = 4 * labelDataBefore.textInstructions.length)
            ∧ (∃ x, labelDataAfter.textInstructions = labelDataBefore.textInstructions ++ x)
            ∧ ∀ h : labelDataBefore.textInstructions.length
                < labelDataAfter.textInstructions.length,
                (labelDataAfter.textInstructions.get
                  ⟨labelDataBefore.textInstructions.length, h⟩).address
                  = labelDataBefore.labelAddr)
      ∧ (labelDataBefore.currentSection = Section.DATA →
          labelDataBefore.dataMemory.length < 0xF0000000 →
          labelDataBefore.labelAddr = 0x10000000 + labelDataBefore.dataMemory.length))
    ∧ labelTextBefore.labelAddr = 4 ∧ labelDataBefore.labelAddr = 0x10000004
    ∧ trim (String.mk ((trim "L: addi x1, x1, 1").data.take 1)) = "L" :=
  ⟨label_binding ["addi x1, x0, 1"] [] "L: addi x1, x1, 1" labelTextBefore labelTextAfter
      labelTextAfter 1 (by decide) (by decide) (by decide) (by decide) (by decide) (by decide),
    label_binding [".data", ".word 5"] [] "D: .byte 1" labelDataBefore labelDataAfter
      labelDataAfter 1 (by decide) (by decide) (by decide) (by decide) (by decide) (by decide),
    by decide, by decide, by decide⟩

/-- What pass 1 does with a data directive, after the label if there is one: the section
becomes the data section and the operands go to the directive. -/
theorem directiveOrInstruction_dataDirective (a : Assembler)
    (originalLine rawLine directive : String) (tokens : List String)
    (hh : rawLine.data.head? = some '.') (hs : splitTokens rawLine = directive :: tokens)
    (hdir : directive = ".byte" ∨ directive = ".half" ∨ directive = ".word"
      ∨ directive = ".dword" ∨ directive = ".asciz") :
    a.directiveOrInstruction originalLine rawLine
      = ({ a with currentSection := Section.DATA } : Assembler).dataDirective directive
          tokens := by
  have hne : rawLine.data ≠ [] := by
    intro h
    rw [h] at hh
    exact absurd hh (by simp)
  have h1 : directive ≠ ".text" := by
    rcases hdir with h | h | h | h | h <;> rw [h] <;> decide
  have h2 : directive ≠ ".data" := by
    rcases hdir with h | h | h | h | h <;> rw [h] <;> decide
  simp only [Assembler.directiveOrInstruction, if_neg hne, hh, if_true, hs, if_neg h1, if_neg h2,
    if_pos hdir]

/-- The data image after the store of one byte operand. -/
theorem emitBytes1_find (b : Assembler) (v : Int) (k : Nat) :
    (b.emitBytes v 1).dataMemory.find k
      = if k = b.currentDataAddr % 2 ^ 32 then some ((v % 256).toNat)
        else b.dataMemory.find k := by
  have hr : List.range 1 = [0] := by decide
  simp only [Assembler.emitBytes, hr, List.foldl_cons, List.foldl_nil, AddrMap.find_insert]
  norm_num

/-- The data image and the data counter after a sequence of one-byte operands that does
not run over the end of the address space. -/
theorem emitAll_bytes (vs : List Int) (b : Assembler) (hlt : b.currentDataAddr < 2 ^ 32)
    (hd : b.currentDataAddr + vs.length ≤ 2 ^ 32) :
    (∀ i (hi : i < vs.length),
        (b.emitAll (vs.map fun v => (v, 1))).dataMemory.find (b.currentDataAddr + i)
          = some ((vs.get ⟨i, hi⟩ % 256).toNat))
      ∧ (∀ k, k < b.currentDataAddr ∨ b.currentDataAddr + vs.length ≤ k →
          (b.emitAll (vs.map fun v => (v, 1))).dataMemory.find k = b.dataMemory.find k)
      ∧ (b.emitAll (vs.map fun v => (v, 1))).currentDataAddr
          = (b.currentDataAddr + vs.length) % 2 ^ 32 := by
  induction vs generalizing b with
  | nil =>
    refine ⟨fun i hi => absurd hi (by simp), fun k _ => rfl, ?_⟩
    show b.currentDataAddr = _
    simp only [List.length_nil] at hd ⊢
    omega
  | cons v vs ih =>
    simp only [List.length_cons] at hd
    have hd1 : (b.emitBytes v 1).currentDataAddr = (b.currentDataAddr + 1) % 2 ^ 32 := rfl
    have hcase : vs.length = 0 ∨ (b.emitBytes v 1).currentDataAddr = b.currentDataAddr + 1 := by
      rw [hd1]
      omega
    obtain ⟨ih1, ih2, ih3⟩ := ih (b.emitBytes v 1) (by rw [hd1]; omega) (by rw [hd1]; omega)
    have he : b.emitAll ((v :: vs).map fun v => (v, 1))
        = (b.emitBytes v 1).emitAll (vs.map fun v => (v, 1)) := rfl
    rw [he]
    refine ⟨?_, ?_, ?_⟩
    · intro i hi
      cases i with
      | zero =>
        rw [ih2 _ (by rw [hd1] at hcase ⊢; omega), emitBytes1_find, if_pos (by omega)]
        rfl
      | succ i =>
        have hi2 : i < vs.length := by
          simp only [List.length_cons] at hi
          omega
        have hds : (b.emitBytes v 1).currentDataAddr = b.currentDataAddr + 1 := by
          rcases hcase with h | h
          · omega
          · exact h
        have := ih1 i hi2
        rw [hds] at this
        rw [show b.currentDataAddr + (i + 1) = b.currentDataAddr + 1 + i by omega, this]
        rfl
    · intro k hk
      simp only [List.length_cons] at hk
      rw [ih2 k (by rw [hd1] at hcase ⊢; omega), emitBytes1_find, if_neg (by omega)]
    · rw [ih3, hd1, List.length_cons]
      omega

/-- The directive `.asciz` on a token between double quotes: the bytes of the text
between them, then a zero byte. -/
theorem dataDirective_asciz (b : Assembler) (cs : List Char) (rest : List String) :
    b.dataDirective ".asciz" (String.mk (Char.ofNat 34 :: (cs ++ [Char.ofNat 34])) :: rest)
      = some (b.emitAll
          (List.map (fun v => (v, 1)) (cs.map (fun c => (c.toNat : Int) % 256) ++ [0]))) := by
  have hx1 : ¬ (".asciz" = ".byte") := by decide
  have hx2 : ¬ (".asciz" = ".half") := by decide
  have hx3 : ¬ (".asciz" = ".word") := by decide
  have hx4 : ¬ (".asciz" = ".dword") := by decide
  have key : ∀ (cs : List Char) (a : Assembler),
      cs.foldl (fun a c => a.emitBytes ((c.toNat : Int) % 256) 1) a
        = a.emitAll ((cs.map fun c => (c.toNat : Int) % 256).map fun v => (v, 1)) := by
    intro cs
    induction cs with
    | nil => intro a; rfl
    | cons c cs ih => intro a; exact ih _
  simp only [Assembler.dataDirective, if_neg hx1, if_neg hx2, if_neg hx3, if_neg hx4, if_true,
    List.head?_cons, List.drop_succ_cons, List.drop_zero,
    List.getLast?_append_of_ne_nil cs (List.cons_ne_nil (Char.ofNat 34) []),
    List.getLast?_singleton, List.dropLast_concat, key]
  unfold Assembler.emitAll
  rw [List.map_append, List.foldl_append]
  rfl

/-- For every text `s` without white space, comma and colon, the line `.asciz "s"`
processed when the data counter is `d` (with `d + len(s) + 1` within the address space)
stores the bytes of `s` at `d, …, d + len(s) - 1` and a zero byte at `d + len(s)`, advances
the data counter to `d + len(s) + 1`, leaves the data bytes outside that range as they
were and touches nothing else but the active section. -/
theorem asciz_without_separators (a : Assembler) (s : String)
    (hs : ∀ c ∈ s.data, isSpace c = false ∧ c ≠ ',' ∧ c ≠ ':')
    (hd : a.currentDataAddr + s.data.length + 1 < 2 ^ 32) :
    ∃ a1, a.pass1Line (ascizLine s) = some a1 ∧ ascizSpec a a1 s
      ∧ (∀ k, k < a.currentDataAddr ∨ a.currentDataAddr + s.data.length + 1 ≤ k →
          a1.dataMemory.find k = a.dataMemory.find k)
      ∧ a1.currentSection = Section.DATA
      ∧ a1.textInstructions = a.textInstructions ∧ a1.symbolTable = a.symbolTable
      ∧ a1.currentTextAddr = a.currentTextAddr := by
  have hq : isSpace (Char.ofNat 34) = false ∧ Char.ofNat 34 ≠ ',' ∧ Char.ofNat 34 ≠ ':'
      ∧ isTrimChar (Char.ofNat 34) = false := by decide
  have htok : ∀ c ∈ Char.ofNat 34 :: (s.data ++ [Char.ofNat 34]),
      isSpace c = false ∧ c ≠ ',' ∧ c ≠ ':' := by
    intro c hc
    simp only [List.mem_cons, List.mem_append, List.mem_singleton, List.not_mem_nil,
      or_false] at hc
    rcases hc with rfl | hc | rfl
    · exact ⟨hq.1, hq.2.1, hq.2.2.1⟩
    · exact hs c hc
    · exact ⟨hq.1, hq.2.1, hq.2.2.1⟩
  have hline : (ascizLine s).data
      = '.' :: 'a' :: 's' :: 'c' :: 'i' :: 'z' :: ' ' :: Char.ofNat 34
        :: (s.data ++ [Char.ofNat 34]) := rfl
  have hlast : (ascizLine s).data.getLast? = some (Char.ofNat 34) := by
    have e : (ascizLine s).data
        = ('.' :: 'a' :: 's' :: 'c' :: 'i' :: 'z' :: ' ' :: Char.ofNat 34 :: s.data)
          ++ [Char.ofNat 34] := rfl
    rw [e, List.getLast?_append_of_ne_nil _ (List.cons_ne_nil _ _)]
    rfl
  have ht : trim (ascizLine s) = ascizLine s := by
    have e : ascizLine s = String.mk (ascizLine s).data := rfl
    rw [e]
    apply trim_eq
    · intro c hc
      rw [hline] at hc
      cases hc
      decide
    · intro c hc
      rw [hlast] at hc
      cases hc
      exact hq.2.2.2
  have hne : (ascizLine s).data ≠ [] := by rw [hline]; exact List.cons_ne_nil _ _
  have hc : (ascizLine s).data.head? ≠ some '#' := by
    rw [hline]
    simp only [List.head?_cons]
    decide
  have hh : (ascizLine s).data.head? = some '.' := by rw [hline]; rfl
  have hcolon : findChar ':' (ascizLine s).data = none := by
    have hnot : ':' ∉ (ascizLine s).data := by
      rw [hline]
      intro hm
      simp only [List.mem_cons] at hm
      rcases hm with h | h | h | h | h | h | h | h
      · exact absurd h (by decide)
      · exact absurd h (by decide)
      · exact absurd h (by decide)
      · exact absurd h (by decide)
      · exact absurd h (by decide)
      · exact absurd h (by decide)
      · exact absurd h (by decide)
      · exact (htok ':' (List.mem_cons.2 h)).2.2 rfl
    unfold findChar
    simp only [List.indexOf_eq_length.2 hnot, lt_irrefl, if_false]
  have hbind : a.bindLabel (ascizLine s) = (a, ascizLine s) := by
    unfold Assembler.bindLabel
    rw [hcolon]
  have hsplit : splitTokens (ascizLine s)
      = [".asciz", String.mk (Char.ofNat 34 :: (s.data ++ [Char.ofNat 34]))] := by
    have h7 : splitTokensLoop ('.' :: 'a' :: 's' :: 'c' :: 'i' :: 'z' :: ' '
          :: Char.ofNat 34 :: (s.data ++ [Char.ofNat 34])) [] []
        = splitTokensLoop (Char.ofNat 34 :: (s.data ++ [Char.ofNat 34])) [] [".asciz"] := by
      simp [splitTokensLoop, isSpace]
    unfold splitTokens
    rw [hline, h7, splitTokensLoop_token _ (fun c hc => ⟨(htok c hc).1, (htok c hc).2.1⟩) []
      [".asciz"] (by simp)]
    rfl
  rw [pass1Line_unfold, ht, if_neg hne, if_neg hc, hbind,
    directiveOrInstruction_dataDirective _ _ _ ".asciz" _ hh hsplit (by simp),
    dataDirective_asciz]
  have hlen : (s.data.map (fun c : Char => (c.toNat : Int) % 256) ++ [0]).length
      = s.data.length + 1 := by
    simp
  obtain ⟨w1, w2, w3⟩ := emitAll_bytes (s.data.map (fun c : Char => (c.toNat : Int) % 256) ++ [0])
    ({ a with currentSection := Section.DATA } : Assembler) (by show a.currentDataAddr < _; omega)
    (by show a.currentDataAddr + _ ≤ _; rw [hlen]; omega)
  obtain ⟨_, f2, f3, f4, f5⟩ := emitAll_frame
    (List.map (fun v => (v, 1)) (s.data.map (fun c : Char => (c.toNat : Int) % 256) ++ [0]))
    ({ a with currentSection := Section.DATA } : Assembler)
  refine ⟨_, rfl, ⟨?_, ?_, ?_⟩, ?_, f5, f2, f3, f4⟩
  · intro i hi
    have := w1 i (by rw [hlen]; omega)
    rw [List.get_eq_getElem, List.getElem_append_left (by simpa using hi)] at this
    rw [List.get_eq_getElem]
    simp only [List.getElem_map] at this
    rw [this]
    dsimp only
    congr 1
    omega
  · have := w1 s.data.length (by rw [hlen]; omega)
    rw [List.get_eq_getElem, List.getElem_append_right (by simp)] at this
    simpa using this
  · rw [w3, hlen]
    show (a.currentDataAddr + (s.data.length + 1)) % 2 ^ 32 = _
    omega
  · intro k hk
    apply w2
    rw [hlen]
    exact hk

/-- C30. The text of `.asciz` is cut at the first blank: the line `.asciz "a b"` read in
the initial state stores the byte of `a` and a zero byte and moves the data counter by 2,
where the bytes of `a b`, a zero byte and a counter moved by 4 are called for. -/
theorem asciz_cut_at_space :
    Assembler.init.pass1Line (ascizLine "a b")
        = some { Assembler.init with
            dataMemory := [(0x10000000, 97), (0x10000001, 0)]
            currentDataAddr := 0x10000002
            currentSection := Section.DATA }
      ∧ ¬ ascizSpec Assembler.init
          { Assembler.init with
            dataMemory := [(0x10000000, 97), (0x10000001, 0)]
            currentDataAddr := 0x10000002
            currentSection := Section.DATA } "a b"
      ∧ splitTokens (ascizLine "a b")
          = [".asciz", String.mk [Char.ofNat 34, 'a'], String.mk ['b', Char.ofNat 34]] := by
  refine ⟨by decide, ?_, by decide⟩
  intro h
  exact absurd h.2.2 (by decide)

/-! ## Single steps: invalid loads, division, unimplemented encodings, field bounds -/

/-- C36. A load from the instruction region clobbers its destination: for every state and
every fetched word with opcode `0x03` and `rd ≠ 0` whose effective address
`(R[rs1] + imm) mod 2^32` is below `0x10000000`, the step is taken and writes 0 into
`R[rd]`, leaves the other registers (but `R[0]`, which is set to 0) and the three memories
as they were, and advances `PC` by 4 (modulo `2^32`). -/
theorem load_from_instruction_region (s : State) (w : Nat)
    (hfetch : s.instrMemory.find s.PC = some w) (hop : (decode w).opcode = 0x03)
    (hrd : (decode w).rd ≠ 0)
    (haddr : toU32 (s.R (decode w).rs1 + (decode w).imm) < 0x10000000) :
    ∃ s1, step s = StepResult.next s1 ∧ s1.R (decode w).rd = 0
      ∧ (∀ i, i ≠ 0 → i ≠ (decode w).rd → s1.R i = s.R i)
      ∧ s1.instrMemory = s.instrMemory ∧ s1.dataSegment = s.dataSegment
      ∧ s1.stackSegment = s.stackSegment ∧ s1.PC = (s.PC + 4) % 2 ^ 32 := by
  have hw0 : w ≠ 0 := ne_zero_of_opcode w (by rw [hop]; decide)
  have hwb : writesBack (decode w).opcode = true := by rw [hop]; decide
  have hreg : getMemSegmentForAddress (toU32 (s.R (decode w).rs1 + (decode w).imm))
      = Region.invalid := by
    simp only [getMemSegmentForAddress, if_pos haddr]
  have hex : executeWord s w
      = some { RZ := 0, RY := 0, MDR := s.MDR, nextPC := (s.PC + 4) % 2 ^ 32,
               dataSegment := s.dataSegment, stackSegment := s.stackSegment } := by
    simp [executeWord, execute, hop, hreg]
  obtain ⟨s1, hs, hR, hPC, _, hI, hD, hS⟩ := step_fields s w hfetch hw0 _ hex
  refine ⟨s1, hs, ?_, ?_, hI, by rw [hD], by rw [hS], by rw [hPC]⟩
  · rw [hR]
    simp [hrd, hwb]
  · intro i hi hi2
    rw [hR]
    simp [hi, hi2]

/-- Witness for C36: `lw x3, 0(x0)` with `R[3] = 77`. -/
theorem load_from_instruction_region_witness :
    (∃ s1, step (aluState 0x00002183 0 0) = StepResult.next s1 ∧ s1.R (decode 0x00002183).rd = 0
      ∧ (∀ i, i ≠ 0 → i ≠ (decode 0x00002183).rd → s1.R i = (aluState 0x00002183 0 0).R i)
      ∧ s1.instrMemory = (aluState 0x00002183 0 0).instrMemory
      ∧ s1.dataSegment = (aluState 0x00002183 0 0).dataSegment
      ∧ s1.stackSegment = (aluState 0x00002183 0 0).stackSegment
      ∧ s1.PC = ((aluState 0x00002183 0 0).PC + 4) % 2 ^ 32)
    ∧ (aluState 0x00002183 0 0).R (decode 0x00002183).rd = 77 :=
  ⟨load_from_instruction_region (aluState 0x00002183 0 0) 0x00002183 (by decide) (by decide)
    (by decide) (by decide), by decide⟩

/-- The execute stage does not look at the register file: the operands come in through
`RA`, `RB` and `RM`. -/
theorem execute_regs (s : State) (R2 : Nat → Int) (d : DecodedInstr) (RA RB RM : Int) :
    execute { s with R := R2 } d RA RB RM = execute s d RA RB RM := rfl

/-- C40. Register indexing is always in bounds: for every word, `decode` yields
`opcode < 128`, `rd < 32`, `rs1 < 32`, `rs2 < 32`, `funct3 < 8` and `funct7 < 128`.
Accordingly a step never writes a register of index 32 or more, and what it does depends
on the registers `R[0] … R[31]` only: two states that differ only in registers of index
32 or more take the same step, to states with the same `R[0] … R[31]`, `PC` and
memories. -/
theorem decode_fields_in_bounds (w : Nat) :
    ((decode w).opcode < 128 ∧ (decode w).rd < 32 ∧ (decode w).rs1 < 32 ∧ (decode w).rs2 < 32
      ∧ (decode w).funct3 < 8 ∧ (decode w).funct7 < 128)
      ∧ (∀ s s1 : State, s.instrMemory.find s.PC = some w → step s = StepResult.next s1 →
          ∀ i, 32 ≤ i → s1.R i = s.R i)
      ∧ (∀ (s s1 : State) (R2 : Nat → Int), s.instrMemory.find s.PC = some w →
          (∀ i, i < 32 → R2 i = s.R i) → step s = StepResult.next s1 →
          ∃ s2, step { s with R := R2 } = StepResult.next s2 ∧ (∀ i, i < 32 → s2.R i = s1.R i)
            ∧ s2.PC = s1.PC ∧ s2.dataSegment = s1.dataSegment
            ∧ s2.stackSegment = s1.stackSegment) := by
  have hb : (decode w).opcode < 128 ∧ (decode w).rd < 32 ∧ (decode w).rs1 < 32
      ∧ (decode w).rs2 < 32 ∧ (decode w).funct3 < 8 ∧ (decode w).funct7 < 128 := by
    rw [decode_opcode, decode_rd, decode_rs1, decode_rs2, decode_funct3, decode_funct7]
    refine ⟨by omega, by omega, by omega, ?_, by omega, ?_⟩
    · split_ifs <;> omega
    · split_ifs <;> omega
  obtain ⟨b1, b2, b3, b4, b5, b6⟩ := hb
  refine ⟨⟨b1, b2, b3, b4, b5, b6⟩, ?_, ?_⟩
  · intro s s1 hfetch hs i hi
    obtain ⟨out, hout, hR, _⟩ := step_next_fields s s1 w hfetch hs
    rw [hR i, if_neg (by omega), if_neg (by omega)]
  · intro s s1 R2 hfetch hagree hs
    have hw0 : w ≠ 0 := by
      intro h0
      rw [h0] at hfetch
      simp [step, hfetch, isTerminationInstr] at hs
    obtain ⟨out, hout, hR, hPC, _, _, hD, hS⟩ := step_next_fields s s1 w hfetch hs
    have hex : executeWord { s with R := R2 } w = executeWord s w := by
      unfold executeWord
      simp only [hagree _ b3, hagree _ b4]
      exact execute_regs s R2 _ _ _ _
    rw [hout] at hex
    obtain ⟨t2, ht2, hR2, hPC2, _, _, hD2, hS2⟩ :=
      step_fields { s with R := R2 } w hfetch hw0 out hex
    refine ⟨t2, ht2, ?_, by rw [hPC2, hPC], by rw [hD2, hD], by rw [hS2, hS]⟩
    intro i hi
    rw [hR2 i, hR i]
    simp only [hagree i hi]

/-- Witness for C40: a word with all field bits set, and `sw x1, 0(x2)` executed from two
states that differ in `R[40]`. -/
theorem decode_fields_in_bounds_witness :
    ((decode 0xFFFFFFFF).opcode < 128 ∧ (decode 0xFFFFFFFF).rd < 32
      ∧ (decode 0xFFFFFFFF).rs1 < 32 ∧ (decode 0xFFFFFFFF).rs2 < 32
      ∧ (decode 0xFFFFFFFF).funct3 < 8 ∧ (decode 0xFFFFFFFF).funct7 < 128)
    ∧ (∀ s1 : State, step swState = StepResult.next s1 →
        ∃ s2, step { swState with R := fun i => if i = 40 then 1 else swState.R i }
            = StepResult.next s2
          ∧ (∀ i, i < 32 → s2.R i = s1.R i) ∧ s2.PC = s1.PC
          ∧ s2.dataSegment = s1.dataSegment ∧ s2.stackSegment = s1.stackSegment) :=
  ⟨(decode_fields_in_bounds 0xFFFFFFFF).1,
    fun s1 hs => (decode_fields_in_bounds 0x00112023).2.2 swState s1
      (fun i => if i = 40 then 1 else swState.R i) (by decide)
      (fun i hi => by simp only [if_neg (show i ≠ 40 by omega)]) hs⟩

/-- One cycle on a fetched register-register word with `rd ≠ 0` on which the execute
stage yields the result `v` from `R[rs1]` and `R[rs2]`: `rd` receives `v` and `PC`
advances by 4. -/
theorem step_alu (s : State) (w : Nat) (hfetch : s.instrMemory.find s.PC = some w)
    (hop : (decode w).opcode = 0x33) (hrd : (decode w).rd ≠ 0) (v : Int)
    (hv : execRType (decode w) (s.R (decode w).rs1) (s.R (decode w).rs2) = some v) :
    ∃ s1, step s = StepResult.next s1
      ∧ s1.R (decode w).rd = v
      ∧ s1.PC = (s.PC + 4) % 2 ^ 32 := by
  have hw0 : w ≠ 0 := ne_zero_of_opcode w (by rw [hop]; decide)
  have hwb : writesBack (decode w).opcode = true := by rw [hop]; decide
  have hex : executeWord s w
      = some { RZ := v, RY := v, MDR := s.MDR, nextPC := (s.PC + 4) % 2 ^ 32,
               dataSegment := s.dataSegment, stackSegment := s.stackSegment } := by
    simp [executeWord, execute, hop, hv]
  obtain ⟨s1, hs, hR, hPC, _⟩ := step_fields s w hfetch hw0 _ hex
  refine ⟨s1, hs, ?_, by rw [hPC]⟩
  rw [hR]
  simp [hrd, hwb]

/-- The quotient C++ computes is the quotient truncated toward zero. -/
theorem tdiv_eq_truncDiv (a b : Int) : Int.tdiv a b = truncDiv a b := by
  unfold truncDiv
  rcases Int.natAbs_eq a with ha | ha <;> rcases Int.natAbs_eq b with hb | hb
  · have h1 : 0 ≤ a := by omega
    have h2 : 0 ≤ b := by omega
    rw [if_pos (by simp [h1, h2])]
    conv_lhs => rw [ha, hb]
    exact (Int.ofNat_tdiv _ _).symm
  · by_cases hb0 : b = 0
    · subst hb0
      simp
    · have h1 : 0 ≤ a := by omega
      have h2 : ¬ 0 ≤ b := by omega
      rw [if_neg (by simp [h1, h2])]
      conv_lhs => rw [ha, hb, Int.tdiv_neg]
      rw [← Int.ofNat_tdiv]
  · by_cases ha0 : a = 0
    · subst ha0
      simp
    · have h1 : ¬ 0 ≤ a := by omega
      have h2 : 0 ≤ b := by omega
      rw [if_neg (by simp [h1, h2])]
      conv_lhs => rw [ha, hb, Int.neg_tdiv]
      rw [← Int.ofNat_tdiv]
  · by_cases ha0 : a = 0
    · subst ha0
      simp
    · by_cases hb0 : b = 0
      · subst hb0
        simp
      · have h1 : ¬ 0 ≤ a := by omega
        have h2 : ¬ 0 ≤ b := by omega
        rw [if_pos (by simp [h1, h2])]
        conv_lhs => rw [ha, hb, Int.neg_tdiv, Int.tdiv_neg, neg_neg]
        exact (Int.ofNat_tdiv _ _).symm

/-- Size and sign of the truncated quotient and of the remainder that goes with it, for
32-bit operands. -/
theorem truncDiv_bounds (a b : Int) (ha : -2 ^ 31 ≤ a ∧ a < 2 ^ 31)
    (hb : -2 ^ 31 ≤ b ∧ b < 2 ^ 31) (hb0 : b ≠ 0) (hov : ¬ (a = -2 ^ 31 ∧ b = -1)) :
    (-2 ^ 31 ≤ truncDiv a b ∧ truncDiv a b < 2 ^ 31)
      ∧ (-2 ^ 31 < a - b * truncDiv a b ∧ a - b * truncDiv a b < 2 ^ 31)
      ∧ (0 ≤ a → 0 ≤ a - b * truncDiv a b) ∧ (a ≤ 0 → a - b * truncDiv a b ≤ 0)
      ∧ (a - b * truncDiv a b).natAbs < b.natAbs := by
  have hq : a.natAbs / b.natAbs * b.natAbs ≤ a.natAbs := Nat.div_mul_le_self _ _
  have hbpos : 0 < b.natAbs := by omega
  have hr : a.natAbs < a.natAbs / b.natAbs * b.natAbs + b.natAbs := by
    have := Nat.lt_succ_self (a.natAbs / b.natAbs)
    have h2 := (Nat.div_lt_iff_lt_mul hbpos).1 this
    rw [Nat.succ_mul] at h2
    exact h2
  have hle : a.natAbs / b.natAbs ≤ a.natAbs := Nat.div_le_self _ _
  have hone : b.natAbs = 1 ∨ a.natAbs / b.natAbs * 2 ≤ a.natAbs := by
    by_cases h1 : b.natAbs = 1
    · exact Or.inl h1
    · right
      have h2 : 2 ≤ b.natAbs := by omega
      calc a.natAbs / b.natAbs * 2 ≤ a.natAbs / b.natAbs * b.natAbs :=
            Nat.mul_le_mul_left _ h2
        _ ≤ a.natAbs := hq
  unfold truncDiv
  generalize a.natAbs / b.natAbs = q at hq hr hle hone ⊢
  have hcast : ((q * b.natAbs : Nat) : Int) = (q : Int) * (b.natAbs : Int) := by push_cast; ring
  by_cases h1 : 0 ≤ a <;> by_cases h2 : 0 ≤ b
  · have eb : (b.natAbs : Int) = b := by omega
    rw [if_pos (by simp [h1, h2])]
    have e : b * (q : Int) = ((q * b.natAbs : Nat) : Int) := by
      rw [hcast, eb]
      ring
    simp only [e]
    generalize q * b.natAbs = p at hq hr
    refine ⟨⟨by omega, by omega⟩, ⟨by omega, by omega⟩, by omega, by omega, by omega⟩
  · have eb : (b.natAbs : Int) = -b := by omega
    rw [if_neg (by simp [h1, h2])]
    have e : b * -(q : Int) = ((q * b.natAbs : Nat) : Int) := by
      rw [hcast, eb]
      ring
    simp only [e]
    generalize q * b.natAbs = p at hq hr
    refine ⟨⟨by omega, by omega⟩, ⟨by omega, by omega⟩, by omega, by omega, by omega⟩
  · have eb : (b.natAbs : Int) = b := by omega
    rw [if_neg (by simp [h1, h2])]
    have e : b * -(q : Int) = -((q * b.natAbs : Nat) : Int) := by
      rw [hcast, eb]
      ring
    simp only [e]
    generalize q * b.natAbs = p at hq hr
    refine ⟨⟨by omega, by omega⟩, ⟨by omega, by omega⟩, by omega, by omega, by omega⟩
  · have eb : (b.natAbs : Int) = -b := by omega
    rw [if_pos (by simp [h1, h2])]
    have e : b * (q : Int) = -((q * b.natAbs : Nat) : Int) := by
      rw [hcast, eb]
      ring
    simp only [e]
    generalize q * b.natAbs = p at hq hr
    refine ⟨⟨by omega, by omega⟩, ⟨by omega, by omega⟩, by omega, by omega, by omega⟩

/-- The execute stage of `DIV` on a divisor other than 0, the pair `-2^31`, `-1` apart. -/
theorem execRType_div (d : DecodedInstr) (RA RB : Int) (hf3 : d.funct3 = 4)
    (hf7 : d.funct7 = 1) (hb0 : RB ≠ 0) (hov : ¬ (RA = -2 ^ 31 ∧ RB = -1)) :
    execRType d RA RB = some (wrap32 (Int.tdiv RA RB)) := by
  unfold execRType
  rw [if_neg (by rw [hf3]; decide), if_pos hf3, if_neg (by rw [hf7]; decide), if_pos hf7,
    if_neg hb0, if_neg hov]

/-- The execute stage of `REM` on a divisor other than 0, the pair `-2^31`, `-1` apart. -/
theorem execRType_rem (d : DecodedInstr) (RA RB : Int) (hf3 : d.funct3 = 6)
    (hf7 : d.funct7 = 1) (hb0 : RB ≠ 0) (hov : ¬ (RA = -2 ^ 31 ∧ RB = -1)) :
    execRType d RA RB = some (wrap32 (Int.tmod RA RB)) := by
  unfold execRType
  rw [if_neg (by rw [hf3]; decide), if_neg (by rw [hf3]; decide), if_pos hf3,
    if_neg (by rw [hf7]; decide), if_pos hf7, if_neg hb0, if_neg hov]

/-- C38. `DIV` and `REM` round toward zero: for signed 32-bit `a = R[rs1]` and
`b = R[rs2]` with `b ≠ 0` and not (`a = -2^31` and `b = -1`), and `rd ≠ 0`, `DIV` (opcode
`0x33`, funct7 1, funct3 4) writes the quotient `q` of `a` by `b` truncated toward zero
and `REM` (funct3 6) writes `a - b * q`, which is smaller than `b` in absolute value and
has the sign of `a`. -/
theorem div_rem_truncate (s : State) (w : Nat) (hfetch : s.instrMemory.find s.PC = some w)
    (hop : (decode w).opcode = 0x33) (hf7 : (decode w).funct7 = 1) (hrd : (decode w).rd ≠ 0)
    (ha : -2 ^ 31 ≤ s.R (decode w).rs1 ∧ s.R (decode w).rs1 < 2 ^ 31)
    (hb : -2 ^ 31 ≤ s.R (decode w).rs2 ∧ s.R (decode w).rs2 < 2 ^ 31)
    (hb0 : s.R (decode w).rs2 ≠ 0)
    (hov : ¬ (s.R (decode w).rs1 = -2 ^ 31 ∧ s.R (decode w).rs2 = -1)) :
    ((decode w).funct3 = 4 →
        ∃ s1, step s = StepResult.next s1
          ∧ s1.R (decode w).rd = truncDiv (s.R (decode w).rs1) (s.R (decode w).rs2))
      ∧ ((decode w).funct3 = 6 →
        ∃ s1, step s = StepResult.next s1
          ∧ s1.R (decode w).rd = s.R (decode w).rs1
              - s.R (decode w).rs2 * truncDiv (s.R (decode w).rs1) (s.R (decode w).rs2)
          ∧ (s1.R (decode w).rd).natAbs < (s.R (decode w).rs2).natAbs
          ∧ (0 ≤ s.R (decode w).rs1 → 0 ≤ s1.R (decode w).rd)
          ∧ (s.R (decode w).rs1 ≤ 0 → s1.R (decode w).rd ≤ 0)) := by
  obtain ⟨⟨q1, q2⟩, ⟨r1, r2⟩, r3, r4, r5⟩ := truncDiv_bounds _ _ ha hb hb0 hov
  constructor
  · intro hf3
    obtain ⟨s1, hs, hR, _⟩ := step_alu s w hfetch hop hrd _
      (execRType_div _ _ _ hf3 hf7 hb0 hov)
    generalize s.R (decode w).rs1 = a at *
    generalize s.R (decode w).rs2 = b at *
    refine ⟨s1, hs, ?_⟩
    rw [hR, tdiv_eq_truncDiv]
    generalize truncDiv a b = q at q1 q2
    unfold wrap32 toI32 toU32
    split_ifs <;> omega
  · intro hf3
    obtain ⟨s1, hs, hR, _⟩ := step_alu s w hfetch hop hrd _
      (execRType_rem _ _ _ hf3 hf7 hb0 hov)
    generalize s.R (decode w).rs1 = a at *
    generalize s.R (decode w).rs2 = b at *
    have hval : s1.R (decode w).rd = a - b * truncDiv a b := by
      rw [hR, Int.tmod_def, tdiv_eq_truncDiv]
      generalize a - b * truncDiv a b = r at r1 r2
      unfold wrap32 toI32 toU32
      split_ifs <;> omega
    refine ⟨s1, hs, hval, ?_, ?_, ?_⟩
    · rw [hval]; exact r5
    · rw [hval]; exact r3
    · rw [hval]; exact r4

/-- Witness for C38: `div x3, x1, x2` and `rem x3, x1, x2` with `R[1] = -7`, `R[2] = 2`,
giving `-3` and `-1`. -/
theorem div_rem_truncate_witness :
    (∃ s1, step (aluState 0x0220C1B3 (-7) 2) = StepResult.next s1
        ∧ s1.R (decode 0x0220C1B3).rd
          = truncDiv ((aluState 0x0220C1B3 (-7) 2).R (decode 0x0220C1B3).rs1)
              ((aluState 0x0220C1B3 (-7) 2).R (decode 0x0220C1B3).rs2))
      ∧ (∃ s1, step (aluState 0x0220E1B3 (-7) 2) = StepResult.next s1
        ∧ s1.R (decode 0x0220E1B3).rd = (aluState 0x0220E1B3 (-7) 2).R (decode 0x0220E1B3).rs1
            - (aluState 0x0220E1B3 (-7) 2).R (decode 0x0220E1B3).rs2
              * truncDiv ((aluState 0x0220E1B3 (-7) 2).R (decode 0x0220E1B3).rs1)
                  ((aluState 0x0220E1B3 (-7) 2).R (decode 0x0220E1B3).rs2)
        ∧ (s1.R (decode 0x0220E1B3).rd).natAbs
            < ((aluState 0x0220E1B3 (-7) 2).R (decode 0x0220E1B3).rs2).natAbs
        ∧ (0 ≤ (aluState 0x0220E1B3 (-7) 2).R (decode 0x0220E1B3).rs1 →
            0 ≤ s1.R (decode 0x0220E1B3).rd)
        ∧ ((aluState 0x0220E1B3 (-7) 2).R (decode 0x0220E1B3).rs1 ≤ 0 →
            s1.R (decode 0x0220E1B3).rd ≤ 0))
      ∧ truncDiv (-7) 2 = -3 ∧ (-7 : Int) - 2 * truncDiv (-7) 2 = -1 :=
  ⟨(div_rem_truncate (aluState 0x0220C1B3 (-7) 2) 0x0220C1B3 (by decide) (by decide)
      (by decide) (by decide) (by decide) (by decide) (by decide) (by decide)).1 (by decide),
    (div_rem_truncate (aluState 0x0220E1B3 (-7) 2) 0x0220E1B3 (by decide) (by decide)
      (by decide) (by decide) (by decide) (by decide) (by decide) (by decide)).2 (by decide),
    by decide, by decide⟩

/-- C39. Unimplemented ALU encodings zero their destination: for every state and
`rd ≠ 0`, a fetched word with opcode `0x33` and (funct3 3, or funct3 0 with funct7 not in
`{0, 0x20, 1}`, or funct3 4 or 6 with funct7 not in `{0, 1}`, or funct3 5 with funct7 not
in `{0, 0x20}`), or with opcode `0x13` and (funct3 3, or funct3 5 with bits 11:5 of the
immediate not in `{0, 0x20}`), is executed, sets `R[rd]` to 0 and advances `PC` by 4. -/
theorem unimplemented_alu_zeroes (s : State) (w : Nat)
    (hfetch : s.instrMemory.find s.PC = some w) (hrd : (decode w).rd ≠ 0)
    (h : ((decode w).opcode = 0x33
          ∧ ((decode w).funct3 = 3
            ∨ ((decode w).funct3 = 0 ∧ (decode w).funct7 ≠ 0 ∧ (decode w).funct7 ≠ 0x20
                ∧ (decode w).funct7 ≠ 1)
            ∨ (((decode w).funct3 = 4 ∨ (decode w).funct3 = 6) ∧ (decode w).funct7 ≠ 0
                ∧ (decode w).funct7 ≠ 1)
            ∨ ((decode w).funct3 = 5 ∧ (decode w).funct7 ≠ 0 ∧ (decode w).funct7 ≠ 0x20)))
      ∨ ((decode w).opcode = 0x13
          ∧ ((decode w).funct3 = 3
            ∨ ((decode w).funct3 = 5 ∧ (decode w).imm / 32 % 128 ≠ 0
                ∧ (decode w).imm / 32 % 128 ≠ 0x20)))) :
    ∃ s1, step s = StepResult.next s1 ∧ s1.R (decode w).rd = 0 ∧ s1.PC = (s.PC + 4) % 2 ^ 32 := by
  rcases h with ⟨hop, h⟩ | ⟨hop, h⟩
  · have hv : execRType (decode w) (s.R (decode w).rs1) (s.R (decode w).rs2) = some 0 := by
      rcases h with h | ⟨h, g1, g2, g3⟩ | ⟨h | h, g1, g2⟩ | ⟨h, g1, g2⟩ <;>
        simp [execRType, h, *]
    obtain ⟨s1, hs, hR, hPC⟩ := step_alu s w hfetch hop hrd 0 hv
    exact ⟨s1, hs, hR, hPC⟩
  · obtain ⟨s1, hs, hR, hPC, _⟩ := step_itype s w hfetch hop
    refine ⟨s1, hs, ?_, hPC⟩
    rw [hR, if_neg hrd, if_pos rfl]
    rcases h with h | ⟨h, g1, g2⟩
    · simp [execIType, h]
    · rw [execIType_shiftRight _ h, if_neg (by omega), if_neg (by omega)]

/-- Witness for C39: `sltu x3, x1, x2` (funct3 3), an opcode-`0x33` word with funct3 0 and
funct7 2, `sltiu x3, x1, 5` and a shift-right-immediate word with selector `0x10`, each
with `R[3] = 77` before. -/
theorem unimplemented_alu_zeroes_witness :
    (∃ s1, step (aluState 0x0020B1B3 5 6) = StepResult.next s1 ∧ s1.R (decode 0x0020B1B3).rd = 0
        ∧ s1.PC = ((aluState 0x0020B1B3 5 6).PC + 4) % 2 ^ 32)
      ∧ (∃ s1, step (aluState 0x042081B3 5 6) = StepResult.next s1 ∧ s1.R (decode 0x042081B3).rd = 0
        ∧ s1.PC = ((aluState 0x042081B3 5 6).PC + 4) % 2 ^ 32)
      ∧ (∃ s1, step (aluState 0x0050B193 5 6) = StepResult.next s1 ∧ s1.R (decode 0x0050B193).rd = 0
        ∧ s1.PC = ((aluState 0x0050B193 5 6).PC + 4) % 2 ^ 32)
      ∧ (∃ s1, step (aluState 0x2040D193 5 6) = StepResult.next s1 ∧ s1.R (decode 0x2040D193).rd = 0
        ∧ s1.PC = ((aluState 0x2040D193 5 6).PC + 4) % 2 ^ 32)
      ∧ (aluState 0x0020B1B3 5 6).R (decode 0x0020B1B3).rd = 77 :=
  ⟨unimplemented_alu_zeroes (aluState 0x0020B1B3 5 6) 0x0020B1B3 (by decide) (by decide)
      (by decide),
    unimplemented_alu_zeroes (aluState 0x042081B3 5 6) 0x042081B3 (by decide) (by decide)
      (by decide),
    unimplemented_alu_zeroes (aluState 0x0050B193 5 6) 0x0050B193 (by decide) (by decide)
      (by decide),
    unimplemented_alu_zeroes (aluState 0x2040D193 5 6) 0x2040D193 (by decide) (by decide)
      (by decide), by decide⟩

/-! ## The assembler on lines it cannot encode -/

/-- C34. For every mnemonic that, in upper case, is none of `ADD SUB AND OR XOR SLL SRL
SRA SLT MUL DIV REM`, `ADDI ANDI ORI`, `LB LH LW LD`, `JALR`, `SB SH SW SD`,
`BEQ BNE BLT BGE`, `LUI AUIPC`, `JAL`, and for every operand list, address and symbol
table, `encodeInstruction` returns the word `0x00000000`. -/
theorem unknown_mnemonic_zero (inst : InstructionLine) (symbolTable : SymbolTable)
    (h : toUpper inst.mnemonic ∉ ["ADD", "SUB", "AND", "OR", "XOR", "SLL", "SRL", "SRA", "SLT",
      "MUL", "DIV", "REM", "ADDI", "ANDI", "ORI", "LB", "LH", "LW", "LD", "JALR", "SB", "SH",
      "SW", "SD", "BEQ", "BNE", "BLT", "BGE", "LUI", "AUIPC", "JAL"]) :
    encodeInstruction inst symbolTable = some 0 := by
  simp only [List.mem_cons, List.mem_singleton, List.not_mem_nil, or_false, not_or] at h
  obtain ⟨h1, h2, h3, h4, h5, h6, h7, h8, h9, h10, h11, h12, h13, h14, h15, h16, h17, h18, h19,
    h20, h21, h22, h23, h24, h25, h26, h27, h28, h29, h30, h31⟩ := h
  simp [encodeInstruction, rTable, iTable, sTable, sbTable, *]

/-- Witness for C34: `srli x2, x1, 4` and a line with no operands at all. -/
theorem unknown_mnemonic_zero_witness :
    encodeInstruction ⟨4, "srli", ["x2", "x1", "4"], "srli x2, x1, 4"⟩ [] = some 0
      ∧ encodeInstruction ⟨0, "nop", [], "nop"⟩ [("nop", 8)] = some 0 :=
  ⟨unknown_mnemonic_zero ⟨4, "srli", ["x2", "x1", "4"], "srli x2, x1, 4"⟩ [] (by decide),
    unknown_mnemonic_zero ⟨0, "nop", [], "nop"⟩ [("nop", 8)] (by decide)⟩

/-- C33. Assembly does abort: `encodeInstruction` returns no word at all, because an
exception leaves it or an operand that is not there is read, for a line that names an
undefined label (`beq x1, x2, NOWHERE`, `addi x1, x2, NOWHERE`), for a register name
without a number (`add x1, xq, x2`) and for a line with too few operands (`add x1, x2`),
whatever the address and the symbol table are (provided `NOWHERE` is not in it); pass 2
then emits no listing. A register number out of range (`x99`) and an operand that is not
of the form `imm(reg)` do give a word. -/
theorem encode_aborts (address : Nat) (line : String) (symbolTable : SymbolTable)
    (hundef : symbolTable.lookup "NOWHERE" = none) :
    encodeInstruction ⟨address, "beq", ["x1", "x2", "NOWHERE"], line⟩ symbolTable = none
      ∧ encodeInstruction ⟨address, "addi", ["x1", "x2", "NOWHERE"], line⟩ symbolTable = none
      ∧ encodeInstruction ⟨address, "add", ["x1", "xq", "x2"], line⟩ symbolTable = none
      ∧ encodeInstruction ⟨address, "add", ["x1", "x2"], line⟩ symbolTable = none
      ∧ pass2Code [⟨0, "addi", ["x1", "x0", "1"], "addi x1, x0, 1"⟩,
          ⟨4, "add", ["x1", "xq", "x2"], "add x1, xq, x2"⟩] [] = none
      ∧ encodeInstruction ⟨address, "add", ["x1", "x99", "x2"], line⟩ symbolTable
          = some 0x002000B3
      ∧ encodeInstruction ⟨address, "lw", ["x1", "5"], line⟩ symbolTable = some 0x00002083 := by
  have u1 : toUpper "beq" = "BEQ" := by decide
  have u2 : toUpper "addi" = "ADDI" := by decide
  have u3 : toUpper "add" = "ADD" := by decide
  have u4 : toUpper "lw" = "LW" := by decide
  have p1 : parseImmediate "NOWHERE" = none := by decide
  have r1 : getRegisterNumber "x1" = some 1 := by decide
  have r2 : getRegisterNumber "x2" = some 2 := by decide
  have r3 : getRegisterNumber "xq" = none := by decide
  have r4 : getRegisterNumber "x99" = some 0 := by decide
  have m1 : parseMemOperand symbolTable "5" address = some (0, 0) := by
    have f1 : findChar '(' "5".data = none := by decide
    simp [parseMemOperand, f1]
  have hp : parseImmOrLabel symbolTable "NOWHERE" address = none := by
    simp [parseImmOrLabel, hundef, p1]
  refine ⟨?_, ?_, ?_, ?_, by decide, ?_, ?_⟩
  · simp [encodeInstruction, u1, rTable, iTable, sTable, sbTable, r1, r2, hp]
  · simp [encodeInstruction, u2, rTable, iTable, r1, r2, hp]
  · simp [encodeInstruction, u3, rTable, r1, r3]
  · simp [encodeInstruction, u3, rTable, r1, r2]
  · simp [encodeInstruction, u3, rTable, r1, r2, r4]
    decide
  · simp [encodeInstruction, u4, rTable, r1, m1]
    decide

/-- Witness for C33: the lines at address 8 with an empty symbol table. -/
theorem encode_aborts_witness :
    encodeInstruction ⟨8, "beq", ["x1", "x2", "NOWHERE"], "beq x1, x2, NOWHERE"⟩ [] = none
      ∧ encodeInstruction ⟨8, "add", ["x1", "xq", "x2"], "add x1, xq, x2"⟩ [] = none :=
  ⟨(encode_aborts 8 "beq x1, x2, NOWHERE" [] (by decide)).1,
    (encode_aborts 8 "add x1, xq, x2" [] (by decide)).2.2.1⟩

/-- C32. The literal `-0x10` parses to 0, not to -16: a minus sign before a `0x`
literal sends the text to `std::stoi`, which reads the digit `0` and stops at the `x`; so
every negative hexadecimal literal parses to 0. A decimal spelling of a value from `2^31`
on (such as `2147483648` and `4294967295`) is refused with an exception. -/
theorem negative_hex_parses_to_zero (bigX upper : Bool) (v : Nat) :
    parseImmediate (String.mk ('-' :: (hexLiteral bigX upper v).data)) = some 0
      ∧ parseImmediate "-0x10" = some 0
      ∧ parseImmediate "-0x10" ≠ some (-16)
      ∧ parseImmediate "2147483648" = none ∧ parseImmediate "4294967295" = none
      ∧ parseImmediate "-16" = some (-16) ∧ parseImmediate "0x10" = some 16
      ∧ parseImmediate "0XFFFFFFF0" = some (-16) := by
  refine ⟨?_, by decide, by decide, by decide, by decide, by decide, by decide, by decide⟩
  cases bigX <;> rfl

/-! ## The loader on the data section of a listing -/

/-- The loader on a line for the data or the stack region: the word is written to the
segment the address routes to, the other stores stay as they are. -/
theorem loadEntry_segment (m : Memories) (a w : Nat) (h1 : 0x10000000 ≤ a) (h2 : a < 2 ^ 32)
    (hw : w < 2 ^ 32) :
    (loadEntry m a w).instrMemory = m.instrMemory
      ∧ (a < 0x50000000 →
          (loadEntry m a w).dataSegment = m.dataSegment.writeWord a (toI32 w)
            ∧ (loadEntry m a w).stackSegment = m.stackSegment)
      ∧ (0x50000000 ≤ a →
          (loadEntry m a w).stackSegment = m.stackSegment.writeWord a (toI32 w)
            ∧ (loadEntry m a w).dataSegment = m.dataSegment) := by
  have e1 : a % 2 ^ 32 = a := Nat.mod_eq_of_lt h2
  have e2 : w % 2 ^ 32 = w := Nat.mod_eq_of_lt hw
  have h3 : ¬ a < 0x10000000 := by omega
  by_cases h4 : a < 0x50000000
  · have hl : loadEntry m a w
        = { m with dataSegment := m.dataSegment.writeWord a (toI32 w) } := by
      simp only [loadEntry, e1, e2, if_neg h3, if_pos h4]
    rw [hl]
    exact ⟨rfl, fun _ => ⟨rfl, rfl⟩, fun h => absurd h4 (by omega)⟩
  · have hl : loadEntry m a w
        = { m with stackSegment := m.stackSegment.writeWord a (toI32 w) } := by
      simp only [loadEntry, e1, e2, if_neg h3, if_neg h4]
    rw [hl]
    exact ⟨rfl, fun h => absurd h h4, fun _ => ⟨rfl, rfl⟩⟩

/-- The bytes of a segment after a byte value was written to it as a word: the value at
the address, zero at the three addresses above it, every other key as before. -/
theorem writeWord_byte_find (seg : MemSegment) (a b k : Nat) (ha : a < 2 ^ 32) (hb : b ≤ 0xFF) :
    (seg.writeWord a (toI32 b)).memory.find k
      = if k = a then some b
        else if k = (a + 1) % 2 ^ 32 ∨ k = (a + 2) % 2 ^ 32 ∨ k = (a + 3) % 2 ^ 32 then some 0
        else seg.memory.find k := by
  have b0 : toU32 (toI32 b) % 256 = b := by
    unfold toU32 toI32; split_ifs <;> omega
  have b1 : toU32 (toI32 b / 2 ^ 8) % 256 = 0 := by
    unfold toU32 toI32; split_ifs <;> omega
  have b2 : toU32 (toI32 b / 2 ^ 16) % 256 = 0 := by
    unfold toU32 toI32; split_ifs <;> omega
  have b3 : toU32 (toI32 b / 2 ^ 24) % 256 = 0 := by
    unfold toU32 toI32; split_ifs <;> omega
  have e : a % 2 ^ 32 = a := Nat.mod_eq_of_lt ha
  rw [writeWord_find, b0, b1, b2, b3, e]
  split_ifs <;> first | rfl | (exfalso; omega)

/-- Lines at higher addresses leave the byte at a lower address of the data and stack
regions alone. -/
theorem loadAll_below (l : List (Nat × Nat)) (m : Memories) (a : Nat) (ha : 0x10000000 ≤ a)
    (h : ∀ p ∈ l, a < p.1 ∧ p.1 < 2 ^ 32 ∧ p.2 ≤ 0xFF) :
    (loadAll m l).dataSegment.memory.find a = m.dataSegment.memory.find a
      ∧ (loadAll m l).stackSegment.memory.find a = m.stackSegment.memory.find a := by
  induction l generalizing m with
  | nil => exact ⟨rfl, rfl⟩
  | cons p l ih =>
    obtain ⟨h1, h2, h3⟩ := h p (List.mem_cons_self _ _)
    obtain ⟨i1, i2⟩ := ih (loadEntry m p.1 p.2) (fun q hq => h q (List.mem_cons_of_mem _ hq))
    have e : loadAll m (p :: l) = loadAll (loadEntry m p.1 p.2) l := rfl
    rw [e, i1, i2]
    obtain ⟨_, s1, s2⟩ := loadEntry_segment m p.1 p.2 (by omega) h2 (by omega)
    by_cases hr : p.1 < 0x50000000
    · obtain ⟨d1, d2⟩ := s1 hr
      rw [d1, d2, writeWord_byte_find _ _ _ _ h2 h3, if_neg (by omega), if_neg (by omega)]
      exact ⟨rfl, rfl⟩
    · obtain ⟨d1, d2⟩ := s2 (by omega)
      rw [d1, d2, writeWord_byte_find _ _ _ _ h2 h3, if_neg (by omega), if_neg (by omega)]
      exact ⟨rfl, rfl⟩

/-- C37. The loader writes four bytes for every listing line, yet a data section with one
line per byte loads correctly: for every list of lines `(a_1, b_1), …, (a_n, b_n)` with
strictly increasing addresses `a_i ≥ 0x10000000` and byte values `b_i ≤ 0xFF`, loaded in
that order on top of any memories, the segment `a_i` routes to holds `b_i` at `a_i` for
every `i`; the instruction map is untouched, and every other byte of a segment is either
as before or a zero byte at one of the three addresses (modulo `2^32`) above the address
of a line routed to that segment. -/
theorem byte_lines_load (l : List (Nat × Nat)) (m0 : Memories)
    (hsorted : l.Pairwise (fun p q => p.1 < q.1))
    (hrange : ∀ p ∈ l, 0x10000000 ≤ p.1 ∧ p.1 < 2 ^ 32 ∧ p.2 ≤ 0xFF) :
    (∀ p ∈ l, ((loadAll m0 l).segmentOf p.1).memory.find p.1 = some p.2)
      ∧ (loadAll m0 l).instrMemory = m0.instrMemory
      ∧ (∀ k, (∀ p ∈ l, k ≠ p.1) →
          ((loadAll m0 l).dataSegment.memory.find k = m0.dataSegment.memory.find k
            ∨ ((loadAll m0 l).dataSegment.memory.find k = some 0
              ∧ ∃ p ∈ l, p.1 < 0x50000000 ∧ ∃ j, 1 ≤ j ∧ j ≤ 3 ∧ k = (p.1 + j) % 2 ^ 32))
          ∧ ((loadAll m0 l).stackSegment.memory.find k = m0.stackSegment.memory.find k
            ∨ ((loadAll m0 l).stackSegment.memory.find k = some 0
              ∧ ∃ p ∈ l, 0x50000000 ≤ p.1 ∧ ∃ j, 1 ≤ j ∧ j ≤ 3 ∧ k = (p.1 + j) % 2 ^ 32))) := by
  induction l generalizing m0 with
  | nil =>
    exact ⟨fun p hp => absurd hp (List.not_mem_nil _), rfl,
      fun k _ => ⟨Or.inl rfl, Or.inl rfl⟩⟩
  | cons p l ih =>
    obtain ⟨h1, h2, h3⟩ := hrange p (List.mem_cons_self _ _)
    have hs := List.pairwise_cons.1 hsorted
    obtain ⟨i1, i2, i3⟩ := ih (loadEntry m0 p.1 p.2) hs.2
      (fun q hq => hrange q (List.mem_cons_of_mem _ hq))
    have e : loadAll m0 (p :: l) = loadAll (loadEntry m0 p.1 p.2) l := rfl
    obtain ⟨s0, s1, s2⟩ := loadEntry_segment m0 p.1 p.2 h1 h2 (by omega)
    obtain ⟨f1, f2⟩ := loadAll_below l (loadEntry m0 p.1 p.2) p.1 h1
      (fun q hq => ⟨hs.1 q hq, (hrange q (List.mem_cons_of_mem _ hq)).2⟩)
    rw [e]
    refine ⟨?_, by rw [i2, s0], ?_⟩
    · intro q hq
      rcases List.mem_cons.1 hq with rfl | hq
      · unfold Memories.segmentOf
        by_cases hr : q.1 < 0x50000000
        · rw [if_pos hr, f1, (s1 hr).1, writeWord_byte_find _ _ _ _ h2 h3, if_pos rfl]
        · rw [if_neg hr, f2, (s2 (by omega)).1, writeWord_byte_find _ _ _ _ h2 h3, if_pos rfl]
      · exact i1 q hq
    · intro k hk
      have hkp : k ≠ p.1 := hk p (List.mem_cons_self _ _)
      obtain ⟨g1, g2⟩ := i3 k (fun q hq => hk q (List.mem_cons_of_mem _ hq))
      constructor
      · rcases g1 with g | ⟨g, q, hq, hq1, hq2⟩
        · rw [g]
          by_cases hr : p.1 < 0x50000000
          · rw [(s1 hr).1, writeWord_byte_find _ _ _ _ h2 h3, if_neg hkp]
            by_cases hz : k = (p.1 + 1) % 2 ^ 32 ∨ k = (p.1 + 2) % 2 ^ 32
                ∨ k = (p.1 + 3) % 2 ^ 32
            · rw [if_pos hz]
              right
              refine ⟨rfl, p, List.mem_cons_self _ _, hr, ?_⟩
              rcases hz with hz | hz | hz
              · exact ⟨1, by omega, by omega, hz⟩
              · exact ⟨2, by omega, by omega, hz⟩
              · exact ⟨3, by omega, by omega, hz⟩
            · rw [if_neg hz]
              exact Or.inl rfl
          · rw [(s2 (by omega)).2]
            exact Or.inl rfl
        · exact Or.inr ⟨g, q, List.mem_cons_of_mem _ hq, hq1, hq2⟩
      · rcases g2 with g | ⟨g, q, hq, hq1, hq2⟩
        · rw [g]
          by_cases hr : p.1 < 0x50000000
          · rw [(s1 hr).2]
            exact Or.inl rfl
          · rw [(s2 (by omega)).1, writeWord_byte_find _ _ _ _ h2 h3, if_neg hkp]
            by_cases hz : k = (p.1 + 1) % 2 ^ 32 ∨ k = (p.1 + 2) % 2 ^ 32
                ∨ k = (p.1 + 3) % 2 ^ 32
            · rw [if_pos hz]
              right
              refine ⟨rfl, p, List.mem_cons_self _ _, by omega, ?_⟩
              rcases hz with hz | hz | hz
              · exact ⟨1, by omega, by omega, hz⟩
              · exact ⟨2, by omega, by omega, hz⟩
              · exact ⟨3, by omega, by omega, hz⟩
            · rw [if_neg hz]
              exact Or.inl rfl
        · exact Or.inr ⟨g, q, List.mem_cons_of_mem _ hq, hq1, hq2⟩

/-- Witness for C37: the four byte lines of the word `0xDEADBEEF` at `0x10000000`, loaded
into empty memories as `parseInputMC` does. -/
theorem byte_lines_load_witness :
    ((∀ p ∈ [(0x10000000, 0xEF), (0x10000001, 0xBE), (0x10000002, 0xAD), (0x10000003, 0xDE)],
        ((loadAll ⟨[], ⟨[]⟩, ⟨[]⟩⟩
          [(0x10000000, 0xEF), (0x10000001, 0xBE), (0x10000002, 0xAD),
            (0x10000003, 0xDE)]).segmentOf p.1).memory.find p.1 = some p.2)
      ∧ (loadAll ⟨[], ⟨[]⟩, ⟨[]⟩⟩
          [(0x10000000, 0xEF), (0x10000001, 0xBE), (0x10000002, 0xAD),
            (0x10000003, 0xDE)]).instrMemory = [])
    ∧ loadAll ⟨[], ⟨[]⟩, ⟨[]⟩⟩
        [(0x10000000, 0xEF), (0x10000001, 0xBE), (0x10000002, 0xAD), (0x10000003, 0xDE)]
      = parseInputMC
        [(0x10000000, 0xEF), (0x10000001, 0xBE), (0x10000002, 0xAD), (0x10000003, 0xDE)]
    ∧ (parseInputMC
        [(0x10000000, 0xEF), (0x10000001, 0xBE), (0x10000002, 0xAD),
          (0x10000003, 0xDE)]).dataSegment.memory
      = [(0x10000000, 0xEF), (0x10000001, 0xBE), (0x10000002, 0xAD), (0x10000003, 0xDE),
          (0x10000004, 0), (0x10000005, 0), (0x10000006, 0)] :=
  ⟨⟨(byte_lines_load
        [(0x10000000, 0xEF), (0x10000001, 0xBE), (0x10000002, 0xAD), (0x10000003, 0xDE)]
        ⟨[], ⟨[]⟩, ⟨[]⟩⟩ (by decide) (by decide)).1,
      (byte_lines_load
        [(0x10000000, 0xEF), (0x10000001, 0xBE), (0x10000002, 0xAD), (0x10000003, 0xDE)]
        ⟨[], ⟨[]⟩, ⟨[]⟩⟩ (by decide) (by decide)).2.1⟩, rfl, by decide⟩

/-! ## The segment checkpoints -/

/-- On addresses in strictly increasing order the loop of `dumpSegmentToFile` never meets
a visited address: it writes a line for exactly the aligned addresses within the
bounds. -/
theorem dumpLoop_eq_filter (seg : MemSegment) (s e : Nat) (hse : s ≤ e) (l : List Nat)
    (visited : List Nat) (hsorted : l.Pairwise (fun a b => a < b))
    (hlt : ∀ a ∈ l, a < 2 ^ 32)
    (hv : ∀ v ∈ visited, ∃ a k, a % 4 = 0 ∧ k < 4 ∧ v = (a + k) % 2 ^ 32 ∧ ∀ x ∈ l, a < x) :
    dumpLoop seg s e l visited
      = (l.filter fun a => decide (s ≤ a ∧ a < e ∧ a % 4 = 0)).map
          fun a => (a, toU32 (seg.readWord a)) := by
  induction l generalizing visited with
  | nil => rfl
  | cons addr rest ih =>
    have hs := List.pairwise_cons.1 hsorted
    have hlt2 : ∀ a ∈ rest, a < 2 ^ 32 := fun a ha => hlt a (List.mem_cons_of_mem _ ha)
    have hv2 : ∀ v ∈ visited, ∃ a k, a % 4 = 0 ∧ k < 4 ∧ v = (a + k) % 2 ^ 32
        ∧ ∀ x ∈ rest, a < x := by
      intro v hvm
      obtain ⟨a, k, h1, h2, h3, h4⟩ := hv v hvm
      exact ⟨a, k, h1, h2, h3, fun x hx => h4 x (List.mem_cons_of_mem _ hx)⟩
    have haddr := hlt addr (List.mem_cons_self _ _)
    rw [dumpLoop, List.filter_cons]
    by_cases c1 : addr < s
    · rw [if_pos c1, if_neg (by simp; omega)]
      exact ih visited hs.2 hlt2 hv2
    · rw [if_neg c1]
      by_cases c2 : e ≥ s ∧ addr ≥ e
      · rw [if_pos c2, if_neg (by simp; omega)]
        exact ih visited hs.2 hlt2 hv2
      · rw [if_neg c2]
        by_cases c3 : addr % 4 ≠ 0
        · rw [if_pos c3, if_neg (by simp; omega)]
          exact ih visited hs.2 hlt2 hv2
        · rw [if_neg c3]
          have c4 : addr ∉ visited := by
            intro hm
            obtain ⟨a, k, h1, h2, h3, h4⟩ := hv addr hm
            have := h4 addr (List.mem_cons_self _ _)
            omega
          rw [if_neg c4, if_pos (by simp; omega), List.map_cons]
          congr 1
          apply ih _ hs.2 hlt2
          intro v hvm
          simp only [List.mem_cons] at hvm
          rcases hvm with h | h | h | h | h
          · exact ⟨addr, 0, by omega, by omega, h, hs.1⟩
          · exact ⟨addr, 1, by omega, by omega, h, hs.1⟩
          · exact ⟨addr, 2, by omega, by omega, h, hs.1⟩
          · exact ⟨addr, 3, by omega, by omega, h, hs.1⟩
          · exact hv2 v h

/-- C35. Segment checkpoint contents: for every segment (a byte map with keys below `2^32`
in increasing order) and bounds `start ≤ end`, `dumpSegmentToFile` writes a line for the
address `a` exactly when `a` is a key of the byte map, `a` is a multiple of 4 and
`start ≤ a < end`; the lines are in strictly increasing address order and each carries
`readWord(a)`, as a 32-bit pattern. -/
theorem dump_segment_lines (seg : MemSegment) (s e : Nat) (hse : s ≤ e)
    (hkeys : (seg.memory.map Prod.fst).Pairwise (fun a b => a < b))
    (hlt : ∀ a ∈ seg.memory.map Prod.fst, a < 2 ^ 32) :
    (∀ a, a ∈ (dumpSegmentToFile seg s e).map Prod.fst
        ↔ a ∈ seg.memory.map Prod.fst ∧ a % 4 = 0 ∧ s ≤ a ∧ a < e)
      ∧ ((dumpSegmentToFile seg s e).map Prod.fst).Pairwise (fun a b => a < b)
      ∧ (∀ p ∈ dumpSegmentToFile seg s e, p.2 = toU32 (seg.readWord p.1)) := by
  have hsort : (seg.memory.map Prod.fst).insertionSort (fun a b => a ≤ b)
      = seg.memory.map Prod.fst :=
    List.Sorted.insertionSort_eq (hkeys.imp (fun h => Nat.le_of_lt h))
  have hd : dumpSegmentToFile seg s e
      = ((seg.memory.map Prod.fst).filter fun a => decide (s ≤ a ∧ a < e ∧ a % 4 = 0)).map
          fun a => (a, toU32 (seg.readWord a)) := by
    unfold dumpSegmentToFile
    rw [hsort]
    exact dumpLoop_eq_filter seg s e hse _ [] hkeys hlt (fun v hv => absurd hv (List.not_mem_nil _))
  have hfst : (dumpSegmentToFile seg s e).map Prod.fst
      = (seg.memory.map Prod.fst).filter fun a => decide (s ≤ a ∧ a < e ∧ a % 4 = 0) := by
    rw [hd, List.map_map]
    exact List.map_id _
  refine ⟨?_, ?_, ?_⟩
  · intro a
    rw [hfst, List.mem_filter]
    simp only [decide_eq_true_eq]
    tauto
  · rw [hfst]
    exact hkeys.filter _
  · intro p hp
    rw [hd, List.mem_map] at hp
    obtain ⟨a, _, rfl⟩ := hp
    rfl

/-- Witness for C35: the demonstration segment between `0x10000000` and `0x50000000`
gives two lines, none for the byte at `0x10000009`. -/
theorem dump_segment_lines_witness :
    ((∀ a, a ∈ (dumpSegmentToFile dumpDemoSegment 0x10000000 0x50000000).map Prod.fst
        ↔ a ∈ dumpDemoSegment.memory.map Prod.fst ∧ a % 4 = 0 ∧ 0x10000000 ≤ a
          ∧ a < 0x50000000)
      ∧ ((dumpSegmentToFile dumpDemoSegment 0x10000000 0x50000000).map Prod.fst).Pairwise
          (fun a b => a < b)
      ∧ (∀ p ∈ dumpSegmentToFile dumpDemoSegment 0x10000000 0x50000000,
          p.2 = toU32 (dumpDemoSegment.readWord p.1)))
    ∧ dumpSegmentToFile dumpDemoSegment 0x10000000 0x50000000
        = [(0x10000000, 0xDEADBEEF), (0x10000004, 0x00020001)] :=
  ⟨dump_segment_lines dumpDemoSegment 0x10000000 0x50000000 (by decide) (by decide)
    (by decide), by decide⟩

/-! ## Comments in the assembly source -/

end RiscV
